import Mathlib

/-!
# Alive: symbolic-value combinators and the fast-math e-graph

A shallow embedding of `src/util/compat.h` (`map_try_emplace`), `src/smt/exprs.h`
(`DisjointExpr`) and `src/ir/fast_math.cpp` (`Node`, `EGraph`, `float_refined`),
followed by theorems about them.

Conventions of the embedding:

* a `std::map<K, V>` whose comparison is a strict weak order is the list of its
  entries in key order; an iterator is a position in that list (`end()` is the
  length);
* the comparison object `key_comp()` is an explicit function `lt : K → K → Bool`;
* the node map of the e-graph is compiled with a comparison that is no strict weak
  order, so it is embedded as the red-black tree of the library, pointer by pointer
  (namespace `Pre20`); the definitions `EGraph`, `float_refined` outside that
  namespace embed the other branch of the conditional compilation of `Node`, the
  defaulted three-way comparison;
* C++ `unsigned` ids are natural numbers (no e-graph of the sizes considered here
  comes near `2^32` nodes);
* the solver expression type `smt::expr` is external to the sources: for the
  combinators it is a type parameter `E` with its operations collected in `ExprOps`,
  for the e-graph it is the term type `expr` below.
-/

namespace Alive

/-! ## `std::map` and `util::map_try_emplace` (src/util/compat.h) -/

section Map

variable {K V : Type}

/-- The iterator returned by `std::map::lower_bound`: position of the first entry whose
key is not less than `key` (the length of the list when there is none). -/
def lower_bound (lt : K → K → Bool) : List (K × V) → K → Nat
  | [], _ => 0
  | (k, _) :: rest, key => if lt k key then lower_bound lt rest key + 1 else 0

/-- Insertion of an entry before position `hint`, as `std::map::emplace_hint` does when
the hint is the lower bound of the key. -/
def emplace_hint : List (K × V) → Nat → K × V → List (K × V)
  | [], _, kv => [kv]
  | x :: rest, 0, kv => kv :: x :: rest
  | x :: rest, hint + 1, kv => x :: emplace_hint rest hint kv

/-- Embedding of `util::detail::map_try_emplace_impl(map, key, args...)`, compat.h lines 41-55.
Returns the map, the iterator (a position) and the `inserted` flag. -/
def map_try_emplace_impl (lt : K → K → Bool) (map : List (K × V)) (key : K) (args : V) :
    List (K × V) × Nat × Bool :=
  let lower := lower_bound lt map key
  match map.get? lower with
  | some (k, _) =>
    if !lt key k then
      -- key already exists, do nothing.
      (map, lower, false)
    else
      -- key did not yet exist, insert it.
      (emplace_hint map lower (key, args), lower, true)
  | none => (emplace_hint map lower (key, args), lower, true)

/-- Embedding of `util::map_try_emplace(map, key, args...)`, compat.h lines 84-96. -/
def map_try_emplace (lt : K → K → Bool) (map : List (K × V)) (key : K) (args : V) :
    List (K × V) × Nat × Bool :=
  map_try_emplace_impl lt map key args

/-- The mapped value an iterator points at (`I->second`); `none` for `end()`. -/
def second_at (map : List (K × V)) (I : Nat) : Option V :=
  (map.get? I).map Prod.snd

/-- Assignment through an iterator: `I->second = f(I->second)`. -/
def update_second (f : V → V) : List (K × V) → Nat → List (K × V)
  | [], _ => []
  | (k, v) :: rest, 0 => (k, f v) :: rest
  | x :: rest, I + 1 => x :: update_second f rest I

/-- A well-formed `std::map`: the keys are strictly increasing for the comparison. -/
def KeySorted (lt : K → K → Bool) (map : List (K × V)) : Prop :=
  map.Pairwise (fun x y => lt x.1 y.1 = true)

end Map

/-! ## `DisjointExpr<T>` (src/smt/exprs.h, lines 53-112) -/

/-- Modelled from the spec: the boolean interface of the external expression primitive
`smt::expr` (its implementation is not among the sources). Section 6 of the specification
lists the capabilities used here: the identity queries `isTrue()` and `isFalse()`,
disjunction (`||`, `|=`) and conjunction (`&&`). Structural equality `eq` is
the equality of `E`. -/
structure ExprOps (E : Type) where
  isTrue : E → Bool
  isFalse : E → Bool
  or : E → E → E
  and : E → E → E

/-- The class template `DisjointExpr<T>`: `vals` maps a value to its domain, in key order. -/
structure DisjointExpr (T E : Type) where
  vals : List (T × E)
  default_val : Option T
  deriving DecidableEq

namespace DisjointExpr

variable {T E : Type}

/-- The comparison of the `std::map<T, expr>`: the `operator<` of `T`. -/
def key_lt [LinearOrder T] (a b : T) : Bool := decide (a < b)

/-- The default constructor `DisjointExpr()`. -/
def empty : DisjointExpr T E := ⟨[], none⟩

/-- The constructors `DisjointExpr(default_val)`. -/
def with_default (default_val : Option T) : DisjointExpr T E := ⟨[], default_val⟩

/-- Embedding of `DisjointExpr::add(val, domain)`, exprs.h lines 65-78. -/
def add [LinearOrder T] (ops : ExprOps E) (m : DisjointExpr T E) (val : T) (domain : E) :
    DisjointExpr T E :=
  if ops.isFalse domain then m
  else
    let vals := if ops.isTrue domain then [] else m.vals
    match map_try_emplace key_lt vals val domain with
    | (vals1, I, inserted) =>
      if !inserted then
        { m with vals := update_second (fun d => ops.or d domain) vals1 I }
      else
        { m with vals := vals1 }

/-- Embedding of `DisjointExpr::add_disj(other, domain)`, exprs.h lines 80-86. The
assertion `!default_val && !other.default_val` is modelled by the result `none`. -/
def add_disj [LinearOrder T] (ops : ExprOps E) (m other : DisjointExpr T E) (domain : E) :
    Option (DisjointExpr T E) :=
  if m.default_val.isSome || other.default_val.isSome then none
  else some (other.vals.foldl (fun acc t => acc.add ops t.1 (ops.and t.2 domain)) m)

/-- The loop of `DisjointExpr::operator()`, exprs.h lines 89-98, started with the running
value `ret`: `mkIf` is `T::mkIf`. -/
def call_loop (ops : ExprOps E) (mkIf : E → T → T → T) (default_val : Option T) :
    List (T × E) → Option T → Option T
  | [], ret => if ret.isSome then ret else default_val
  | (v, domain) :: rest, ret =>
    if ops.isTrue domain then some v
    else
      call_loop ops mkIf default_val rest
        (some (match ret with
          | some r => mkIf domain v r
          | none => v))

/-- Embedding of `DisjointExpr::operator()()`, exprs.h lines 88-99 (the fold). -/
def call (ops : ExprOps E) (mkIf : E → T → T → T) (m : DisjointExpr T E) : Option T :=
  call_loop ops mkIf m.default_val m.vals none

/-- The loop of `DisjointExpr::lookup`, exprs.h lines 102-106; `eq` is equality. -/
def lookup_loop [DecidableEq E] : List (T × E) → E → Option T
  | [], _ => none
  | (v, d) :: rest, domain => if d = domain then some v else lookup_loop rest domain

/-- Embedding of `DisjointExpr::lookup(domain)`, exprs.h lines 101-107. -/
def lookup [DecidableEq E] (m : DisjointExpr T E) (domain : E) : Option T :=
  lookup_loop m.vals domain

/-- The maps that can be built: a constructor of lines 59-62 followed by calls of `add`
and `add_disj` (the latter with its assertion satisfied). The constructor from an
expression, line 63, is defined outside exprs.h and is not covered. -/
inductive Reachable [LinearOrder T] (ops : ExprOps E) : DisjointExpr T E → Prop
  | ctor (default_val : Option T) : Reachable ops (with_default default_val)
  | add {m : DisjointExpr T E} (val : T) (domain : E) :
      Reachable ops m → Reachable ops (m.add ops val domain)
  | add_disj {m other m1 : DisjointExpr T E} (domain : E) :
      Reachable ops m → Reachable ops other → m.add_disj ops other domain = some m1 →
      Reachable ops m1

end DisjointExpr

/-! ## Integer logarithms (src/util/compiler.cpp, lines 10-38) -/

/-- The scan of `__builtin_clz`: the number of 0-bits above the highest 1-bit among the
bits `k - 1, ..., 0` of `x` (`k` when they are all 0). -/
def clz_loop : Nat → Nat → Nat
  | 0, _ => 0
  | k + 1, x => if x / 2 ^ k % 2 = 1 then 0 else clz_loop k x + 1

/-- The compiler builtin `int __builtin_clz(unsigned int x)`: the number of leading 0-bits
of the 32-bit value `x`, undefined (`none`) for 0. The callers pass a `uint64_t`, which
the call converts to `unsigned int`, that is, reduces modulo `2^32`. -/
def builtin_clz (n : Nat) : Option Nat :=
  if n % 2 ^ 32 = 0 then none else some (clz_loop 32 (n % 2 ^ 32))

namespace details

/-- Embedding of `details::has_single_bit(n)`, compiler.cpp lines 11-13. -/
def has_single_bit (n : Nat) : Bool :=
  n != 0 && (n &&& (n - 1)) == 0

/-- Embedding of `details::bit_width(n)`, compiler.cpp lines 15-17. -/
def bit_width (n : Nat) : Option Nat :=
  (builtin_clz n).map (fun z => 64 - z)

end details

/-- Embedding of `util::ilog2(n)`, compiler.cpp lines 22-24. -/
def ilog2 (n : Nat) : Option Nat :=
  if n = 0 then some 0 else (details.bit_width n).map (fun w => w - 1)

/-- Embedding of `util::is_power2(n, log)` for `log == nullptr`, compiler.cpp lines
31-38. The library function `std::__has_single_bit` it calls holds of the numbers with
exactly one 1-bit, as `details::has_single_bit` does. -/
def is_power2 (n : Nat) : Bool :=
  details.has_single_bit n

/-- Embedding of `util::ilog2_ceil(n, up_power2)`, compiler.cpp lines 26-29. -/
def ilog2_ceil (n : Nat) (up_power2 : Bool) : Option Nat :=
  (ilog2 n).map (fun log => if !up_power2 && is_power2 n then log else log + 1)

/-- Embedding of `util::num_sign_bits(n)`, compiler.cpp lines 40-42:
`max(__builtin_clz(n), __builtin_clz(~n)) - 1`, an `int` returned as `unsigned`. `~n` is
the complement of the 64-bit `n`; `none` stands for the undefined `__builtin_clz(0)`. -/
def num_sign_bits (n : Nat) : Option Nat :=
  match builtin_clz n, builtin_clz (2 ^ 64 - 1 - n % 2 ^ 64) with
  | some a, some b => some ((max a b + 2 ^ 32 - 1) % 2 ^ 32)
  | _, _ => none

/-! ## `ChoiceExpr<T>` (src/smt/exprs.h, lines 115-171) -/

/-- Modelled from the spec: the further operations of the external expression primitive
`smt::expr` that `ChoiceExpr` uses (section 6 of the specification): negation (`!`),
conditional selection (`expr::mkIf`), fresh-variable allocation with a given bit width
(`expr::mkFreshVar("choice", expr::mkUInt(0, bits))`), comparison with an unsigned
literal (`qvar == n`), the empty expression `expr()` and the boolean constant `true`.
`mk_or` is the fold of an `OrExpr` to which the listed terms were added (the class is
declared in exprs.h, its member functions are not among the sources): by section 4.1 the
disjunction of the terms. -/
structure ChoiceOps (E : Type) extends ExprOps E where
  not : E → E
  mkIf : E → E → E → E
  mk_or : List E → E
  mkFreshVar : Nat → E
  eq_uint : E → Nat → E
  null : E
  mkTrue : E

/-- The class template `ChoiceExpr<T>`: `vals` maps a value to its domain, in key order. -/
structure ChoiceExpr (T E : Type) where
  vals : List (T × E)
  deriving DecidableEq

namespace ChoiceExpr

variable {T E : Type}

/-- A default-constructed `ChoiceExpr`. -/
def empty : ChoiceExpr T E := ⟨[]⟩

/-- Embedding of `ChoiceExpr::add(val, domain)`, exprs.h lines 122-133. -/
def add [LinearOrder T] (ops : ExprOps E) (c : ChoiceExpr T E) (val : T) (domain : E) :
    ChoiceExpr T E :=
  if ops.isFalse domain then c
  else
    match map_try_emplace DisjointExpr.key_lt c.vals val domain with
    | (vals1, I, inserted) =>
      if !inserted then
        ⟨update_second (fun d => ops.or d domain) vals1 I⟩
      else
        ⟨vals1⟩

/-- Embedding of `ChoiceExpr::operator bool()`, exprs.h lines 135-137. -/
def to_bool (c : ChoiceExpr T E) : Bool := !c.vals.isEmpty

/-- Embedding of `ChoiceExpr::domain()`, exprs.h lines 139-145. -/
def domain (ops : ChoiceOps E) (c : ChoiceExpr T E) : E :=
  ops.mk_or (c.vals.map Prod.snd)

/-- The `for` loop of `ChoiceExpr::operator()`, exprs.h lines 161-167: the bindings
still to be visited (from the iterator `I` on), the counter `i`, and the variables
`ret`, `pre` and `first`. -/
def call_loop (ops : ChoiceOps E) (mkIf : E → T → T → T) (qvar : E) :
    List (T × E) → Nat → T → E → Bool → T × E
  | [], _, ret, pre, _ => (ret, pre)
  | (v, d) :: rest, i, ret, pre, first =>
    let cmp := ops.eq_uint qvar (i - 1)
    call_loop ops mkIf qvar rest (i - 1) (if first then v else mkIf cmp v ret)
      (ops.mkIf cmp d pre) false

/-- Embedding of `ChoiceExpr::operator()()`, exprs.h lines 147-170 (the collapse): the
result is the tuple of data, domain, quantified variable and precondition; `none`
stands for the undefined value of `__builtin_clz(0)` in the bit width. `mkIf` is
`T::mkIf`, the default value of `T` is the default-constructed `T ret;`. -/
def call [Inhabited T] (ops : ChoiceOps E) (mkIf : E → T → T → T) (c : ChoiceExpr T E) :
    Option (T × E × E × E) :=
  match c.vals with
  | [(v, d)] => some (v, d, ops.null, ops.mkTrue)
  | vals =>
    let dom := c.domain ops
    match ilog2_ceil (vals.length + 1) false with
    | none => none
    | some bits =>
      let qvar := ops.mkFreshVar bits
      match call_loop ops mkIf qvar vals vals.length default (ops.not dom) true with
      | (ret, pre) => some (ret, dom, qvar, pre)

end ChoiceExpr

/-! ## `FunctionExpr` (src/smt/exprs.h, lines 174-212) and `util::optional` -/

/-- Embedding of `operator==(const optional<T>&, const optional<U>&)`, optional.h lines
324-329. -/
def optional_eq {T : Type} (eq : T → T → Bool) (X Y : Option T) : Bool :=
  match X, Y with
  | some x, some y => eq x y
  | _, _ => X.isSome == Y.isSome

/-- Embedding of `operator<(const optional<T>&, const optional<U>&)`, optional.h lines
336-341; the `bool` values of `hasValue()` compare as `false < true`. -/
def optional_lt {T : Type} (lt : T → T → Bool) (X Y : Option T) : Bool :=
  match X, Y with
  | some x, some y => lt x y
  | _, _ => !X.isSome && Y.isSome

/-- The standard `operator<` of `std::pair`: by the first component, then the second. -/
def pair_lt {A B : Type} (lta : A → A → Bool) (ltb : B → B → Bool) (x y : A × B) : Bool :=
  lta x.1 y.1 || (!lta y.1 x.1 && ltb x.2 y.2)

/-- The standard `std::lexicographical_compare`, which is the `operator<` of `std::map`
on the sequences of entries. -/
def lexicographical_compare {A : Type} (lt : A → A → Bool) : List A → List A → Bool
  | _, [] => false
  | [], _ :: _ => true
  | a :: as, b :: bs =>
    if lt a b then true else if lt b a then false else lexicographical_compare lt as bs

/-- The class `FunctionExpr`: `fn` maps a key to a value, in key order. -/
structure FunctionExpr (E : Type) where
  fn : List (E × E)
  default_val : Option E
  deriving DecidableEq

/-- Embedding of the `FunctionExpr::operator==` of exprs.h lines 197-200, the branch
compiled before C++20; `==` on `std::map` is equality of the sequences of entries. -/
def FunctionExpr.eq_pre20 {E : Type} [DecidableEq E] (x y : FunctionExpr E) : Bool :=
  decide (x.fn = y.fn) && optional_eq (fun a b => decide (a = b)) x.default_val y.default_val

/-- Embedding of the `FunctionExpr::operator<` of exprs.h lines 204-209, the branch
compiled before C++20. -/
def FunctionExpr.lt_pre20 {E : Type} [LinearOrder E] (x y : FunctionExpr E) : Bool :=
  if lexicographical_compare
      (pair_lt (fun a b : E => decide (a < b)) (fun a b : E => decide (a < b))) x.fn y.fn
  then true
  else optional_lt (fun a b : E => decide (a < b)) x.default_val y.default_val

/-! ## The expression primitive as seen by the e-graph -/

/-- Modelled from the spec: the term structure of the external expression primitive
`smt::expr` (src/smt/expr.h is not among the sources). Section 6 of the specification
requires shape recognizers for floating add, sub, mul and div (each with a
rounding-mode sub-term) and for floating negate, a way to detect and strip the
`reassoc` marker, conditional selection and the boolean constants and combinators.
`null` is the default-constructed `expr()`, `var` stands for every other term. -/
inductive expr where
  | null
  | var (id : Nat)
  | tt
  | ff
  | and (a b : expr)
  | or (a b : expr)
  | ite (c a b : expr)
  | fpadd (rounding a b : expr)
  | fpsub (rounding a b : expr)
  | fpmul (rounding a b : expr)
  | fpdiv (rounding a b : expr)
  | fpneg (a : expr)
  | reassoc (a : expr)
  deriving DecidableEq, Repr

/-- An expression that `EGraph::get` turns into a `Leaf` node without stripping a marker:
none of `isFPAdd`, `isFPSub`, `isFPMul`, `isFPDiv`, `isFPNeg` recognizes it and it is
not an application of `reassoc`. -/
def expr.is_leaf : expr → Bool
  | .fpadd _ _ _ => false
  | .fpsub _ _ _ => false
  | .fpmul _ _ _ => false
  | .fpdiv _ _ _ => false
  | .fpneg _ => false
  | .reassoc _ => false
  | _ => true

/-! ## Union-find (util/unionfind.h) -/

/-- Modelled from the spec: the class `util::UnionFind` (util/unionfind.h is not among
the sources). Section 3 of the specification: a mapping from small integer ids to a
parent id; `mk()` allocates a fresh singleton class; `find(x)` returns the canonical
representative, with path compression; `merge(a,b)` unions two classes. The
specification does not say which representative survives a merge: the smaller id does
here. -/
structure UnionFind where
  of_parents ::
  id : List Nat
  deriving DecidableEq

namespace UnionFind

/-- Allocation of a fresh singleton class, `mk()`: the new id is its own parent. -/
def mk (uf : UnionFind) : Nat × UnionFind :=
  (uf.id.length, ⟨uf.id ++ [uf.id.length]⟩)

/-- The representative reached from `i` by following parents, at most `fuel` steps. -/
def root_of (id : List Nat) : Nat → Nat → Nat
  | 0, i => i
  | fuel + 1, i => if id.getD i i = i then i else root_of id fuel (id.getD i i)

/-- Path compression: every id on the path from `i` gets `root` as its parent. -/
def compress (root : Nat) : Nat → Nat → List Nat → List Nat
  | 0, _, id => id
  | fuel + 1, i, id =>
    if id.getD i i = i then id else compress root fuel (id.getD i i) (id.set i root)

/-- The canonical representative of `i`, `find(i)`, with path compression. A path in a
forest of `n` ids has fewer than `n` edges, so `n` steps reach the root. -/
def find (uf : UnionFind) (i : Nat) : Nat × UnionFind :=
  let root := root_of uf.id uf.id.length i
  (root, ⟨compress root uf.id.length i uf.id⟩)

/-- Union of the classes of `a` and `b`, `merge(a, b)`. -/
def merge (uf : UnionFind) (a b : Nat) : UnionFind :=
  match uf.find a with
  | (ra, uf1) =>
    match uf1.find b with
    | (rb, uf2) =>
      if ra = rb then uf2
      else if ra < rb then ⟨uf2.id.set rb ra⟩
      else ⟨uf2.id.set ra rb⟩

end UnionFind

/-! ## `Node` and `EGraph` (src/ir/fast_math.cpp) -/

/-- The enumeration `Node::operation`, fast_math.cpp line 27. -/
inductive Operation where
  | Add
  | Sub
  | Mul
  | Div
  | Neg
  | Leaf
  deriving DecidableEq, Repr

/-- The enumerator values, in declaration order. -/
def Operation.toNat : Operation → Nat
  | .Add => 0
  | .Sub => 1
  | .Mul => 2
  | .Div => 3
  | .Neg => 4
  | .Leaf => 5

/-- The struct `Node`, fast_math.cpp lines 26-71. -/
structure Node where
  operation : Operation
  op1 : Nat
  op2 : Nat
  leaf : expr
  rounding : expr
  flags : Nat
  deriving DecidableEq, Repr

/-- The defaulted three-way comparison of fast_math.cpp line 35, the branch of
`#if __cplusplus > 201703L`: it compares the members in declaration order and is decided
by the first pair that differs. The order of `expr` is that of the external primitive,
any strict total order. The sources are not compiled with this branch: the node map as
compiled is ordered by `Node.lt_pre20`, see the namespace `Pre20`. -/
def Node.lt [LinearOrder expr] (x y : Node) : Bool :=
  if x.operation.toNat < y.operation.toNat then true
  else if y.operation.toNat < x.operation.toNat then false
  else if x.op1 < y.op1 then true
  else if y.op1 < x.op1 then false
  else if x.op2 < y.op2 then true
  else if y.op2 < x.op2 then false
  else if x.leaf < y.leaf then true
  else if y.leaf < x.leaf then false
  else if x.rounding < y.rounding then true
  else if y.rounding < x.rounding then false
  else decide (x.flags < y.flags)

/-- The hand-written `Node::operator==` of fast_math.cpp lines 37-44, the branch compiled
before C++20; `==` on `expr` is the equality of the external primitive. -/
def Node.eq_pre20 (x y : Node) : Bool :=
  x.operation == y.operation && x.op1 == y.op1 && x.op2 == y.op2 && x.leaf == y.leaf
    && x.rounding == y.rounding && x.flags == y.flags

/-- The hand-written `Node::operator<` of fast_math.cpp lines 48-65, the branch compiled
before C++20: each `if` returns true when the member of `this` is less, and falls
through to the next member otherwise. -/
def Node.lt_pre20 [LinearOrder expr] (x y : Node) : Bool :=
  if x.operation.toNat < y.operation.toNat then true
  else if x.op1 < y.op1 then true
  else if x.op2 < y.op2 then true
  else if x.leaf < y.leaf then true
  else if x.rounding < y.rounding then true
  else decide (x.flags < y.flags)

/-- The class `EGraph`, fast_math.cpp lines 74-196, with `Node` compared by the three-way
comparison of the C++20 branch: the union-find forest and the node map, which that
comparison keeps in key order. The class as compiled is `Pre20.EGraph`. -/
structure EGraph where
  uf : UnionFind
  nodes : List (Node × Nat)

namespace EGraph

/-- A freshly constructed `EGraph g;`. -/
def empty : EGraph := ⟨⟨[]⟩, []⟩

/-- Embedding of the private `EGraph::get(Node &&n)`, fast_math.cpp lines 78-85, on the
node map in the key order of `Node.lt`. -/
def get_node [LinearOrder expr] (g : EGraph) (n : Node) : Nat × EGraph :=
  match map_try_emplace Node.lt g.nodes n 0 with
  | (nodes1, I, inserted) =>
    if inserted then
      match g.uf.mk with
      | (id, uf1) => (id, ⟨uf1, update_second (fun _ => id) nodes1 I⟩)
    else
      ((second_at nodes1 I).getD 0, ⟨g.uf, nodes1⟩)

/-- Embedding of `EGraph::decl_equivalent(Node &&node, unsigned n1)`, lines 87-90, on
the node map in the key order of `Node.lt`. -/
def decl_equivalent [LinearOrder expr] (g : EGraph) (node : Node) (n1 : Nat) : EGraph :=
  match map_try_emplace Node.lt g.nodes node n1 with
  | (nodes1, I, _) => ⟨g.uf.merge n1 ((second_at nodes1 I).getD 0), nodes1⟩

/-- Embedding of `EGraph::root(unsigned n)`, lines 93-95. -/
def root (g : EGraph) (n : Nat) : Nat × EGraph :=
  match g.uf.find n with
  | (r, uf1) => (r, ⟨uf1, g.nodes⟩)

/-- The loop of `EGraph::get(const expr &e0)`, fast_math.cpp lines 97-140, entered with
the flags accumulated so far in `n.flags`. `Reassoc` is the value of
`FastMathFlags::Reassoc` (ir/attrs.h is not among the sources). The second operand is
interned before the first, as in the source. -/
def get_loop [LinearOrder expr] (Reassoc : Nat) : expr → Nat → EGraph → Nat × EGraph
  | .fpadd rounding a b, flags, g =>
    match get_loop Reassoc b 0 g with
    | (op2, g1) =>
      match get_loop Reassoc a 0 g1 with
      | (op1, g2) => g2.get_node ⟨.Add, op1, op2, .null, rounding, flags⟩
  | .fpsub rounding a b, flags, g =>
    match get_loop Reassoc b 0 g with
    | (op2, g1) =>
      match get_loop Reassoc a 0 g1 with
      | (op1, g2) => g2.get_node ⟨.Sub, op1, op2, .null, rounding, flags⟩
  | .fpmul rounding a b, flags, g =>
    match get_loop Reassoc b 0 g with
    | (op2, g1) =>
      match get_loop Reassoc a 0 g1 with
      | (op1, g2) => g2.get_node ⟨.Mul, op1, op2, .null, rounding, flags⟩
  | .fpdiv rounding a b, flags, g =>
    match get_loop Reassoc b 0 g with
    | (op2, g1) =>
      match get_loop Reassoc a 0 g1 with
      | (op1, g2) => g2.get_node ⟨.Div, op1, op2, .null, rounding, flags⟩
  | .fpneg a, flags, g =>
    match get_loop Reassoc a 0 g with
    | (op1, g1) => g1.get_node ⟨.Neg, op1, 0, .null, .null, flags⟩
  | .reassoc a, flags, g => get_loop Reassoc a (flags ||| Reassoc) g
  | e, flags, g => g.get_node ⟨.Leaf, 0, 0, e, .null, flags⟩

/-- Embedding of the public `EGraph::get(const expr &e0)`, lines 97-140. -/
def get [LinearOrder expr] (Reassoc : Nat) (g : EGraph) (e0 : expr) : Nat × EGraph :=
  get_loop Reassoc e0 0 g

/-- The body of the `for` loop of `EGraph::saturate`, lines 145-167, for one entry
`node_val` of `nodes_copy`. The blocks guarded by the `Reassoc` and `Contract` flags
are empty in the source. -/
def saturate_step [LinearOrder expr] (g : EGraph) (node_val : Node × Nat) : EGraph :=
  if node_val.1.operation = .Add ∨ node_val.1.operation = .Mul then
    g.decl_equivalent { node_val.1 with op1 := node_val.1.op2, op2 := node_val.1.op1 }
      node_val.2
  else g

/-- Embedding of `EGraph::saturate()`, lines 142-171: `fuel` bounds the number of
passes of the `while (true)` loop, `none` reports that it was used up. -/
def saturate [LinearOrder expr] : Nat → EGraph → Option EGraph
  | 0, _ => none
  | fuel + 1, g =>
    let nodes_copy := g.nodes
    let g1 := nodes_copy.foldl saturate_step g
    if g1.nodes.length = nodes_copy.length then some g1 else saturate fuel g1

end EGraph

/-- Embedding of `IR::float_refined(a, b)`, fast_math.cpp lines 233-256, over the
e-graph of the C++20 branch (`Pre20.float_refined` is the function as compiled). The
returned `expr` is the boolean constant `true` or `false`; `fuel` is passed to
`saturate`. The debug output (the macro `DEBUG_FMF`) is left out: it reads the roots of
the nodes once before any merge, when each id is its own root, and once after both roots
were read. -/
def float_refined [LinearOrder expr] (Reassoc : Nat) (fuel : Nat) (a b : expr) :
    Option Bool :=
  match EGraph.empty.get Reassoc a with
  | (na, g1) =>
    match g1.get Reassoc b with
    | (nb, g2) =>
      if na = nb then some true
      else
        match g2.saturate fuel with
        | none => none
        | some g3 =>
          match g3.root na with
          | (na1, g4) =>
            match g4.root nb with
            | (nb1, _) => if na1 = nb1 then some true else some false

/-! ## The node map as compiled (before C++20)

The sources build only before C++20 (`util::optional::getPointer` of constant.h line 31
is not a member of `std::optional`), so the node map `std::map<Node, unsigned>` of
fast_math.cpp line 76 is ordered by the hand-written `Node::operator<` of lines 48-65
(`Node.lt_pre20`). That comparison is not a strict weak order, and what the map does
with it is what the red-black tree of the library does: this section embeds the tree of
libstdc++ (`bits/stl_tree.h` and `tree.cc` of GCC 12), pointer by pointer. -/

namespace Pre20

/-- The struct `std::_Rb_tree_node_base`: the colour and the pointers to the parent and
the two children. A pointer is `none` (null), `some 0` (the header `_M_header` of the
tree, which is `end()`) or `some (i + 1)` (the node allocated by the `i`-th insertion). -/
structure Rb_tree_node_base where
  red : Bool
  parent : Option Nat
  left : Option Nat
  right : Option Nat
  deriving DecidableEq, Repr

/-- The memory of a `std::map<K, V>`: `links[0]` is the header (its `parent` is the
root, its `left` the leftmost and its `right` the rightmost node), `links[i + 1]` the
node of the `i`-th insertion and `vals[i]` the entry stored in it; the length of `vals`
is `_M_node_count`. Nodes are never erased by the code embedded here. -/
structure Rb_tree (K V : Type) where
  links : List Rb_tree_node_base
  vals : List (K × V)
  deriving DecidableEq, Repr

namespace Rb_tree

variable {K V : Type}

/-- The empty tree, `_Rb_tree_header::_M_reset`: the header is red, has no root and is
its own leftmost and rightmost node. -/
def empty : Rb_tree K V := ⟨[⟨true, none, some 0, some 0⟩], []⟩

/-- Reading the node a pointer points to; no result for the null pointer. -/
def rd (l : List Rb_tree_node_base) (p : Option Nat) : Option Rb_tree_node_base :=
  match p with
  | none => none
  | some i => l[i]?

/-- Writing to the node a pointer points to; no result for the null pointer. -/
def wr (l : List Rb_tree_node_base) (p : Option Nat)
    (f : Rb_tree_node_base → Rb_tree_node_base) : Option (List Rb_tree_node_base) :=
  match p with
  | none => none
  | some i =>
    match l[i]? with
    | none => none
    | some n => some (l.set i (f n))

/-- The entry of the node `p` points to (`*iterator`); the header and the null pointer
have none. -/
def val (t : Rb_tree K V) (p : Option Nat) : Option (K × V) :=
  match p with
  | some (i + 1) => t.vals[i]?
  | _ => none

/-- The key of the node `p` points to, `_S_key(p)`. -/
def key (t : Rb_tree K V) (p : Option Nat) : Option K :=
  (t.val p).map Prod.fst

/-- Assignment to the mapped value through an iterator, `I->second = v`. -/
def set_second (t : Rb_tree K V) (p : Option Nat) (v : V) : Option (Rb_tree K V) :=
  match p with
  | some (i + 1) =>
    match t.vals[i]? with
    | some kv => some { t with vals := t.vals.set i (kv.1, v) }
    | none => none
  | _ => none

/-- The loop `while (y->_M_right != 0) y = y->_M_right;`; `fuel` bounds the number of
nodes visited, and a loop that visits more nodes than there are does not end. -/
def descend_right (l : List Rb_tree_node_base) : Nat → Option Nat → Option (Option Nat)
  | 0, _ => none
  | fuel + 1, y => do
    let ny ← rd l y
    match ny.right with
    | none => pure y
    | some r => descend_right l fuel (some r)

/-- The loop `while (x->_M_left != 0) x = x->_M_left;`. -/
def descend_left (l : List Rb_tree_node_base) : Nat → Option Nat → Option (Option Nat)
  | 0, _ => none
  | fuel + 1, x => do
    let nx ← rd l x
    match nx.left with
    | none => pure x
    | some r => descend_left l fuel (some r)

/-- The loop `while (x == y->_M_left) { x = y; y = y->_M_parent; }` of
`_Rb_tree_decrement`; the result is `y`. -/
def climb_left (l : List Rb_tree_node_base) : Nat → Option Nat → Option Nat →
    Option (Option Nat)
  | 0, _, _ => none
  | fuel + 1, x, y => do
    let ny ← rd l y
    if x = ny.left then climb_left l fuel y ny.parent else pure y

/-- The loop `while (x == y->_M_right) { x = y; y = y->_M_parent; }` of
`_Rb_tree_increment`; the result is the pair `(x, y)`. -/
def climb_right (l : List Rb_tree_node_base) : Nat → Option Nat → Option Nat →
    Option (Option Nat × Option Nat)
  | 0, _, _ => none
  | fuel + 1, x, y => do
    let ny ← rd l y
    if x = ny.right then climb_right l fuel y ny.parent else pure (x, y)

/-- Embedding of `_Rb_tree_decrement(x)` (tree.cc), the `--` of an iterator. -/
def decrement (l : List Rb_tree_node_base) (x : Option Nat) : Option (Option Nat) := do
  let nx ← rd l x
  let at_header ←
    if nx.red then do
      let np ← rd l nx.parent
      pure (decide (np.parent = x))
    else pure false
  if at_header then pure nx.right
  else
    match nx.left with
    | some y => descend_right l (l.length + 1) (some y)
    | none => climb_left l (l.length + 1) x nx.parent

/-- Embedding of `_Rb_tree_increment(x)` (tree.cc), the `++` of an iterator. -/
def increment (l : List Rb_tree_node_base) (x : Option Nat) : Option (Option Nat) := do
  let nx ← rd l x
  match nx.right with
  | some r => descend_left l (l.length + 1) (some r)
  | none => do
    let (x1, y) ← climb_right l (l.length + 1) x nx.parent
    let nx1 ← rd l x1
    if nx1.right ≠ y then pure y else pure x1

/-- Embedding of `local_Rb_tree_rotate_left(x, root)` (tree.cc); `root` is the reference
to `_M_header._M_parent`. Every statement reads the memory the previous one left. -/
def rotate_left (l : List Rb_tree_node_base) (x : Option Nat) :
    Option (List Rb_tree_node_base) := do
  -- y = x->right
  let y := (← rd l x).right
  -- x->right = y->left
  let yl := (← rd l y).left
  let l ← wr l x (fun n => { n with right := yl })
  -- if (y->left != 0) y->left->parent = x
  let yl := (← rd l y).left
  let l ← match yl with
    | none => pure l
    | some _ => wr l yl (fun n => { n with parent := x })
  -- y->parent = x->parent
  let xp := (← rd l x).parent
  let l ← wr l y (fun n => { n with parent := xp })
  -- if (x == root) root = y
  -- else if (x == x->parent->left) x->parent->left = y else x->parent->right = y
  let root := (← rd l (some 0)).parent
  let l ←
    if x = root then wr l (some 0) (fun n => { n with parent := y })
    else do
      let xp := (← rd l x).parent
      let xpl := (← rd l xp).left
      if x = xpl then wr l xp (fun n => { n with left := y })
      else wr l xp (fun n => { n with right := y })
  -- y->left = x
  let l ← wr l y (fun n => { n with left := x })
  -- x->parent = y
  wr l x (fun n => { n with parent := y })

/-- Embedding of `local_Rb_tree_rotate_right(x, root)` (tree.cc). -/
def rotate_right (l : List Rb_tree_node_base) (x : Option Nat) :
    Option (List Rb_tree_node_base) := do
  -- y = x->left
  let y := (← rd l x).left
  -- x->left = y->right
  let yr := (← rd l y).right
  let l ← wr l x (fun n => { n with left := yr })
  -- if (y->right != 0) y->right->parent = x
  let yr := (← rd l y).right
  let l ← match yr with
    | none => pure l
    | some _ => wr l yr (fun n => { n with parent := x })
  -- y->parent = x->parent
  let xp := (← rd l x).parent
  let l ← wr l y (fun n => { n with parent := xp })
  -- if (x == root) root = y
  -- else if (x == x->parent->right) x->parent->right = y else x->parent->left = y
  let root := (← rd l (some 0)).parent
  let l ←
    if x = root then wr l (some 0) (fun n => { n with parent := y })
    else do
      let xp := (← rd l x).parent
      let xpr := (← rd l xp).right
      if x = xpr then wr l xp (fun n => { n with right := y })
      else wr l xp (fun n => { n with left := y })
  -- y->right = x
  let l ← wr l y (fun n => { n with right := x })
  -- x->parent = y
  wr l x (fun n => { n with parent := y })

/-- The rebalancing loop of `_Rb_tree_insert_and_rebalance` (tree.cc),
`while (x != root && x->_M_parent->_M_color == _S_red)`. Every recolouring iteration
turns two red nodes black and one node red, so the loop does not run more often than
there are nodes; `fuel` is that bound. -/
def rebalance (l : List Rb_tree_node_base) : Nat → Option Nat →
    Option (List Rb_tree_node_base)
  | 0, _ => none
  | fuel + 1, x => do
    let root := (← rd l (some 0)).parent
    if x = root then pure l
    else do
      let xp := (← rd l x).parent
      if !(← rd l xp).red then pure l
      else do
        let xpp := (← rd l xp).parent
        if xp = (← rd l xpp).left then do
          let y := (← rd l xpp).right
          let y_red ← match y with
            | none => pure false
            | some _ => do pure (← rd l y).red
          if y_red then do
            let l ← wr l xp (fun n => { n with red := false })
            let l ← wr l y (fun n => { n with red := false })
            let l ← wr l xpp (fun n => { n with red := true })
            rebalance l fuel xpp
          else do
            let (l, x) ←
              if x = (← rd l xp).right then do
                let l ← rotate_left l xp
                pure (l, xp)
              else pure (l, x)
            let xp := (← rd l x).parent
            let l ← wr l xp (fun n => { n with red := false })
            let l ← wr l xpp (fun n => { n with red := true })
            let l ← rotate_right l xpp
            rebalance l fuel x
        else do
          let y := (← rd l xpp).left
          let y_red ← match y with
            | none => pure false
            | some _ => do pure (← rd l y).red
          if y_red then do
            let l ← wr l xp (fun n => { n with red := false })
            let l ← wr l y (fun n => { n with red := false })
            let l ← wr l xpp (fun n => { n with red := true })
            rebalance l fuel xpp
          else do
            let (l, x) ←
              if x = (← rd l xp).left then do
                let l ← rotate_right l xp
                pure (l, xp)
              else pure (l, x)
            let xp := (← rd l x).parent
            let l ← wr l xp (fun n => { n with red := false })
            let l ← wr l xpp (fun n => { n with red := true })
            let l ← rotate_left l xpp
            rebalance l fuel x

/-- Embedding of `_Rb_tree_insert_and_rebalance(insert_left, x, p, header)` (tree.cc):
the new node `x` is linked below `p`, on the left if `insert_left`, the leftmost and
rightmost pointers of the header are maintained, and the tree is rebalanced. -/
def insert_and_rebalance (insert_left : Bool) (x p : Option Nat)
    (l : List Rb_tree_node_base) : Option (List Rb_tree_node_base) := do
  let l ← wr l x (fun _ => ⟨true, p, none, none⟩)
  let l ←
    if insert_left then do
      let l ← wr l p (fun n => { n with left := x })
      if p = some 0 then
        wr l (some 0) (fun n => { n with parent := x, right := x })
      else if p = (← rd l (some 0)).left then
        wr l (some 0) (fun n => { n with left := x })
      else pure l
    else do
      let l ← wr l p (fun n => { n with right := x })
      if p = (← rd l (some 0)).right then
        wr l (some 0) (fun n => { n with right := x })
      else pure l
  let l ← rebalance l (l.length + 1) x
  let root := (← rd l (some 0)).parent
  wr l root (fun n => { n with red := false })

/-- The loop of `_Rb_tree::_M_lower_bound(x, y, k)` (stl_tree.h):
`if (!comp(key(x), k)) y = x, x = left(x); else x = right(x);`. -/
def lower_bound_loop (lt : K → K → Bool) (t : Rb_tree K V) (k : K) :
    Nat → Option Nat → Option Nat → Option (Option Nat)
  | _, none, y => some y
  | 0, some _, _ => none
  | fuel + 1, some x, y => do
    let kx ← t.key (some x)
    let nx ← rd t.links (some x)
    if !lt kx k then lower_bound_loop lt t k fuel nx.left (some x)
    else lower_bound_loop lt t k fuel nx.right y

/-- Embedding of `std::map::lower_bound(k)`: the loop is entered at the root with
`y = end()`. -/
def lower_bound (lt : K → K → Bool) (t : Rb_tree K V) (k : K) : Option (Option Nat) := do
  let root := (← rd t.links (some 0)).parent
  lower_bound_loop lt t k (t.links.length + 1) root (some 0)

/-- The loop of `_Rb_tree::_M_get_insert_unique_pos(k)` (stl_tree.h), which descends
from the root by `comp(k, key(x))`; the result is the last node `y` and the last value
of `comp`. -/
def unique_pos_loop (lt : K → K → Bool) (t : Rb_tree K V) (k : K) :
    Nat → Option Nat → Option Nat → Bool → Option (Option Nat × Bool)
  | _, none, y, comp => some (y, comp)
  | 0, some _, _, _ => none
  | fuel + 1, some x, _, _ => do
    let kx ← t.key (some x)
    let nx ← rd t.links (some x)
    if lt k kx then unique_pos_loop lt t k fuel nx.left (some x) true
    else unique_pos_loop lt t k fuel nx.right (some x) false

/-- Embedding of `_Rb_tree::_M_get_insert_unique_pos(k)` (stl_tree.h). The result is the
pair `(x, y)` of the library: insertion below `y` if `y` is not null, the node `x` with
an equivalent key otherwise. -/
def get_insert_unique_pos (lt : K → K → Bool) (t : Rb_tree K V) (k : K) :
    Option (Option Nat × Option Nat) := do
  let header ← rd t.links (some 0)
  let (y, comp) ← unique_pos_loop lt t k (t.links.length + 1) header.parent (some 0) true
  if comp && decide (y = header.left) then pure (none, y)
  else do
    let j ← if comp then decrement t.links y else pure y
    let kj ← t.key j
    if lt kj k then pure (none, y) else pure (j, none)

/-- Embedding of `_Rb_tree::_M_get_insert_hint_unique_pos(pos, k)` (stl_tree.h). -/
def get_insert_hint_unique_pos (lt : K → K → Bool) (t : Rb_tree K V) (pos : Option Nat)
    (k : K) : Option (Option Nat × Option Nat) := do
  let header ← rd t.links (some 0)
  if pos = some 0 then
    if t.vals.length > 0 then do
      let kr ← t.key header.right
      if lt kr k then pure (none, header.right) else get_insert_unique_pos lt t k
    else get_insert_unique_pos lt t k
  else do
    let kp ← t.key pos
    if lt k kp then
      -- First, try before...
      if pos = header.left then pure (header.left, header.left)
      else do
        let before ← decrement t.links pos
        let kb ← t.key before
        if lt kb k then
          if (← rd t.links before).right = none then pure (none, before)
          else pure (pos, pos)
        else get_insert_unique_pos lt t k
    else if lt kp k then
      -- ... then try after.
      if pos = header.right then pure (none, header.right)
      else do
        let after ← increment t.links pos
        let ka ← t.key after
        if lt k ka then
          if (← rd t.links pos).right = none then pure (none, pos)
          else pure (after, after)
        else get_insert_unique_pos lt t k
    else
      -- Equivalent keys.
      pure (pos, none)

/-- Embedding of `_Rb_tree::_M_insert_node(x, p, z)` (stl_tree.h): `insert_left` is
recomputed as `x != 0 || p == end() || comp(key(z), key(p))`, then the new node is
linked and counted. The result is the tree and the iterator to the new node. -/
def insert_node (lt : K → K → Bool) (t : Rb_tree K V) (x p : Option Nat) (kv : K × V) :
    Option (Rb_tree K V × Option Nat) := do
  let insert_left ←
    if x ≠ none ∨ p = some 0 then pure true
    else do
      let kp ← t.key p
      pure (lt kv.1 kp)
  let z := some t.links.length
  let links ← insert_and_rebalance insert_left z p (t.links ++ [⟨true, none, none, none⟩])
  pure (⟨links, t.vals ++ [kv]⟩, z)

/-- Embedding of `std::map::emplace_hint(pos, key, value)`,
`_Rb_tree::_M_emplace_hint_unique` (stl_tree.h): the node is inserted where
`_M_get_insert_hint_unique_pos` says, or dropped when that function reports a node with
an equivalent key, to which the iterator then points. -/
def emplace_hint (lt : K → K → Bool) (t : Rb_tree K V) (pos : Option Nat) (kv : K × V) :
    Option (Rb_tree K V × Option Nat) := do
  let res ← get_insert_hint_unique_pos lt t pos kv.1
  match res.2 with
  | some p => insert_node lt t res.1 (some p) kv
  | none => pure (t, res.1)

/-- The entries that a copy of the map holds, in the order in which a range-based `for`
visits them. The copy constructor (`_Rb_tree::_M_copy`) clones the nodes reachable from
the root through the child pointers and sets the leftmost and rightmost node of the
clone anew, so the iteration of the clone is the in-order traversal of that part of the
tree. `fuel` bounds the depth: a deeper path repeats a node, and cloning does not end. -/
def copy_entries (t : Rb_tree K V) : Nat → Option Nat → Option (List (K × V))
  | _, none => some []
  | 0, some _ => none
  | fuel + 1, some x => do
    let nx ← rd t.links (some x)
    let kv ← t.val (some x)
    let ls ← copy_entries t fuel nx.left
    let rs ← copy_entries t fuel nx.right
    pure (ls ++ kv :: rs)

/-- The entries visited by `for (auto &node : map)` on the map itself: from `begin()`,
the leftmost pointer of the header, by `++` until `end()`. An iteration that visits more
nodes than there are does not end. -/
def entries_loop (t : Rb_tree K V) : Nat → Option Nat → Option (List (K × V))
  | 0, _ => none
  | fuel + 1, cur =>
    if cur = some 0 then some []
    else do
      let kv ← t.val cur
      let next ← increment t.links cur
      let rest ← entries_loop t fuel next
      pure (kv :: rest)

/-- The entries of the map in iteration order. -/
def entries (t : Rb_tree K V) : Option (List (K × V)) := do
  let header ← rd t.links (some 0)
  entries_loop t (t.links.length + 1) header.left

/-- The value of `size()`, the member `_M_node_count`. -/
def size (t : Rb_tree K V) : Nat := t.vals.length

end Rb_tree

/-- Embedding of `util::detail::map_try_emplace_impl(map, key, args...)`, compat.h lines
41-55, on the tree of the library. The result is the map, the iterator and the
`inserted` flag, which is true whenever `emplace_hint` was called. -/
def map_try_emplace {K V : Type} (lt : K → K → Bool) (map : Rb_tree K V) (key : K)
    (args : V) : Option (Rb_tree K V × Option Nat × Bool) := do
  let lower ← map.lower_bound lt key
  let found ←
    if lower ≠ some 0 then do
      let kl ← map.key lower
      pure (!lt key kl)
    else pure false
  if found then
    -- key already exists, do nothing.
    pure (map, lower, false)
  else do
    -- key did not yet exist, insert it.
    let (map1, I) ← map.emplace_hint lt lower (key, args)
    pure (map1, I, true)

/-- The class `EGraph`, fast_math.cpp lines 74-196, with the node map as the tree of
the library, ordered by `Node.lt_pre20`. -/
structure EGraph where
  uf : UnionFind
  nodes : Rb_tree Node Nat
  deriving DecidableEq

namespace EGraph

/-- A freshly constructed `EGraph g;`. -/
def empty : EGraph := ⟨⟨[]⟩, Rb_tree.empty⟩

/-- Embedding of the private `EGraph::get(Node &&n)`, fast_math.cpp lines 78-85. -/
def get_node [LinearOrder expr] (g : EGraph) (n : Node) : Option (Nat × EGraph) := do
  let (nodes1, I, inserted) ← map_try_emplace Node.lt_pre20 g.nodes n 0
  if inserted then
    match g.uf.mk with
    | (id, uf1) => do
      let nodes2 ← nodes1.set_second I id
      pure (id, ⟨uf1, nodes2⟩)
  else do
    let kv ← nodes1.val I
    pure (kv.2, ⟨g.uf, nodes1⟩)

/-- Embedding of `EGraph::decl_equivalent(Node &&node, unsigned n1)`, lines 87-90. -/
def decl_equivalent [LinearOrder expr] (g : EGraph) (node : Node) (n1 : Nat) :
    Option EGraph := do
  let (nodes1, I, _) ← map_try_emplace Node.lt_pre20 g.nodes node n1
  let kv ← nodes1.val I
  pure ⟨g.uf.merge n1 kv.2, nodes1⟩

/-- Embedding of `EGraph::root(unsigned n)`, lines 93-95. -/
def root (g : EGraph) (n : Nat) : Nat × EGraph :=
  match g.uf.find n with
  | (r, uf1) => (r, ⟨uf1, g.nodes⟩)

/-- The loop of `EGraph::get(const expr &e0)`, fast_math.cpp lines 97-140, entered with
the flags accumulated so far in `n.flags`. `Reassoc` is the value of
`FastMathFlags::Reassoc` (ir/attrs.h is not among the sources). The second operand is
interned before the first, as in the source. -/
def get_loop [LinearOrder expr] (Reassoc : Nat) : expr → Nat → EGraph → Option (Nat × EGraph)
  | .fpadd rounding a b, flags, g => do
    let (op2, g1) ← get_loop Reassoc b 0 g
    let (op1, g2) ← get_loop Reassoc a 0 g1
    g2.get_node ⟨.Add, op1, op2, .null, rounding, flags⟩
  | .fpsub rounding a b, flags, g => do
    let (op2, g1) ← get_loop Reassoc b 0 g
    let (op1, g2) ← get_loop Reassoc a 0 g1
    g2.get_node ⟨.Sub, op1, op2, .null, rounding, flags⟩
  | .fpmul rounding a b, flags, g => do
    let (op2, g1) ← get_loop Reassoc b 0 g
    let (op1, g2) ← get_loop Reassoc a 0 g1
    g2.get_node ⟨.Mul, op1, op2, .null, rounding, flags⟩
  | .fpdiv rounding a b, flags, g => do
    let (op2, g1) ← get_loop Reassoc b 0 g
    let (op1, g2) ← get_loop Reassoc a 0 g1
    g2.get_node ⟨.Div, op1, op2, .null, rounding, flags⟩
  | .fpneg a, flags, g => do
    let (op1, g1) ← get_loop Reassoc a 0 g
    g1.get_node ⟨.Neg, op1, 0, .null, .null, flags⟩
  | .reassoc a, flags, g => get_loop Reassoc a (flags ||| Reassoc) g
  | e, flags, g => g.get_node ⟨.Leaf, 0, 0, e, .null, flags⟩

/-- Embedding of the public `EGraph::get(const expr &e0)`, lines 97-140. -/
def get [LinearOrder expr] (Reassoc : Nat) (g : EGraph) (e0 : expr) : Option (Nat × EGraph) :=
  get_loop Reassoc e0 0 g

/-- The body of the `for` loop of `EGraph::saturate`, lines 145-167, for one entry
`node_val` of `nodes_copy`. The blocks guarded by the `Reassoc` and `Contract` flags
are empty in the source. -/
def saturate_step [LinearOrder expr] (g : EGraph) (node_val : Node × Nat) : Option EGraph :=
  if node_val.1.operation = .Add ∨ node_val.1.operation = .Mul then
    g.decl_equivalent { node_val.1 with op1 := node_val.1.op2, op2 := node_val.1.op1 }
      node_val.2
  else some g

/-- The `for` loop of `EGraph::saturate` over the entries of `nodes_copy`. -/
def saturate_pass [LinearOrder expr] : List (Node × Nat) → EGraph → Option EGraph
  | [], g => some g
  | node_val :: rest, g => do
    let g1 ← g.saturate_step node_val
    saturate_pass rest g1

/-- One pass of the `while (true)` loop of `EGraph::saturate`, lines 144-167: the copy
`nodes_copy` of the map is taken and the `for` loop runs over it. -/
def saturate_once [LinearOrder expr] (g : EGraph) : Option EGraph := do
  let root := (← Rb_tree.rd g.nodes.links (some 0)).parent
  let nodes_copy ← g.nodes.copy_entries (g.nodes.links.length + 1) root
  saturate_pass nodes_copy g

/-- Embedding of `EGraph::saturate()`, lines 142-171: `fuel` bounds the number of
passes of the `while (true)` loop, `none` reports that it was used up or that a pass
has no result. The size of `nodes_copy` is the size the map had when it was copied. -/
def saturate [LinearOrder expr] : Nat → EGraph → Option EGraph
  | 0, _ => none
  | fuel + 1, g => do
    let g1 ← g.saturate_once
    if g1.nodes.size = g.nodes.size then some g1 else saturate fuel g1

/-- The calls of `g.root` made by `Node::print`, lines 199-224: none for a `Leaf`,
`root(op1)` for a `Neg`, `root(op1)` and then `root(op2)` otherwise. -/
def print_node (g : EGraph) (n : Node) : EGraph :=
  if n.operation = .Leaf then g
  else
    match g.root n.op1 with
    | (_, g1) => if n.operation = .Neg then g1 else (g1.root n.op2).2

/-- The first loop of `operator<<`, lines 175-180: the root of every entry, in the
order of iteration, with the node. -/
def print_roots : List (Node × Nat) → EGraph → List (Nat × Node) × EGraph
  | [], g => ([], g)
  | node :: rest, g =>
    match g.root node.2 with
    | (r, g1) =>
      match print_roots rest g1 with
      | (sorted, g2) => ((r, node.1) :: sorted, g2)

/-- Embedding of `operator<<(ostream &, EGraph &g)`, lines 173-195, as far as it changes
`g` (through the path compression of `root`): the map itself is iterated, classes are
printed by increasing root and nodes of a class in the order of iteration. It has no
result when the iteration of the map has none. -/
def print (g : EGraph) : Option EGraph := do
  let nodes ← g.nodes.entries
  match print_roots nodes g with
  | (sorted, g1) =>
    pure ((List.range ((sorted.map (fun x => x.1 + 1)).foldl max 0)).foldl
      (fun g2 i => (sorted.filter (fun x => x.1 = i)).foldl
        (fun g3 x => g3.print_node x.2) g2) g1)

end EGraph

/-- Embedding of `IR::float_refined(a, b)`, fast_math.cpp lines 233-256, as compiled:
`DEBUG_FMF` is defined in line 9, so the e-graph is printed before and after `saturate`.
The returned `expr` is the boolean constant `true` or `false`; `fuel` is passed to
`saturate`; `none` reports that a step has no result (a null or header dereference, a
loop of the library that does not end) or that `fuel` passes were not enough. -/
def float_refined [LinearOrder expr] (Reassoc : Nat) (fuel : Nat) (a b : expr) :
    Option Bool := do
  let (na, g1) ← EGraph.empty.get Reassoc a
  let (nb, g2) ← g1.get Reassoc b
  let g3 ← g2.print
  if na = nb then pure true
  else do
    let g4 ← g3.saturate fuel
    match g4.root na with
    | (na1, g5) =>
      match g5.root nb with
      | (nb1, g6) => do
        let _ ← g6.print
        if na1 = nb1 then pure true else pure false

end Pre20

/-! ## Constants (src/ir/constant.cpp, src/ir/constant.h) -/

/-- The class `IntConst`, constant.h lines 21-31: the members `i` and `s`, one of which
is set by the constructors of constant.cpp lines 20-24. -/
structure IntConst where
  i : Option Int
  s : Option String
  deriving DecidableEq

/-- Embedding of `IntConst::IntConst(Type &type, int64_t val)`, constant.cpp lines
20-21. -/
def IntConst.of_int (val : Int) : IntConst := ⟨some val, none⟩

/-- The value `min_bits` of `IntConst::getTypeConstraints()`, constant.cpp lines 32-36:
`(*v >= 0 ? 63 : 64) - num_sign_bits(*v)` for `v = i.getPointer()`, computed in
`unsigned`; the argument of `num_sign_bits` is `*v` converted to `uint64_t`.
`util::optional::getPointer()` (optional.h lines 293-294) returns the address of
`Storage.getValue()`, which asserts `hasVal` and is never null: on a constant built from
a string the call has no result, and the branch that leaves `min_bits` at 0 is never
taken. -/
def IntConst.min_bits (c : IntConst) : Option Nat :=
  match c.i with
  | none => none
  | some v =>
    (num_sign_bits (v % 2 ^ 64).toNat).map
      (fun s => ((if v ≥ 0 then 63 else 64) + 2 ^ 32 - s) % 2 ^ 32)

/-- The enumeration `ConstantFn::Fn`, constant.h line 75. -/
inductive ConstantFn.Fn where
  | LOG2
  | WIDTH
  deriving DecidableEq, Repr

/-- The struct `ConstantFnException`, constant.h lines 84-87. -/
structure ConstantFnException where
  str : String
  deriving DecidableEq

/-- The class `ConstantFn`, constant.h lines 74-82, with the name it sets in its base
class `Value`. The class `Value` is declared in ir/value.h, which is not among the
sources: it is a parameter, read through `getName`. -/
structure ConstantFn (Value : Type) where
  fn : ConstantFn.Fn
  args : List Value
  name : String

/-- The loop of the constructor that appends the names of the arguments, constant.cpp
lines 163-170, with the variables `first` and `str`. -/
def ConstantFn.name_loop {Value : Type} (getName : Value → String) :
    List Value → Bool → String → String
  | [], _, str => str
  | arg :: rest, first, str =>
    ConstantFn.name_loop getName rest false
      ((if !first then str ++ ", " else str) ++ getName arg)

/-- Embedding of the constructor `ConstantFn::ConstantFn(type, name, args)`,
constant.cpp lines 144-173: a thrown `ConstantFnException` is the result `error`. -/
def ConstantFn.construct {Value : Type} (getName : Value → String) (name : String)
    (args : List Value) : Except ConstantFnException (ConstantFn Value) :=
  match (if name = "log2" then some (ConstantFn.Fn.LOG2, 1)
    else if name = "width" then some (ConstantFn.Fn.WIDTH, 1)
    else none : Option (ConstantFn.Fn × Nat)) with
  | none => .error ⟨"Unknown function: " ++ name⟩
  | some (fn, num_args) =>
    if args.length ≠ num_args then
      .error ⟨"Expected " ++ toString num_args ++ " parameters for " ++ name ++
        ", but got " ++ toString args.length⟩
    else
      .ok ⟨fn, args, ConstantFn.name_loop getName args true (name ++ "(") ++ ")"⟩

/-! ## A concrete expression order and boolean interface

An instance of the external primitive, used to evaluate the definitions on examples:
expressions are ordered by a numeric code, and the boolean combinators fold the
constants `true` and `false`. -/

/-- A numbering of the expressions, injective by `Nat.pair`. -/
def expr.code : expr → Nat
  | .null => Nat.pair 0 0
  | .var id => Nat.pair 1 id
  | .tt => Nat.pair 2 0
  | .ff => Nat.pair 3 0
  | .and a b => Nat.pair 4 (Nat.pair a.code b.code)
  | .or a b => Nat.pair 5 (Nat.pair a.code b.code)
  | .ite c a b => Nat.pair 6 (Nat.pair c.code (Nat.pair a.code b.code))
  | .fpadd r a b => Nat.pair 7 (Nat.pair r.code (Nat.pair a.code b.code))
  | .fpsub r a b => Nat.pair 8 (Nat.pair r.code (Nat.pair a.code b.code))
  | .fpmul r a b => Nat.pair 9 (Nat.pair r.code (Nat.pair a.code b.code))
  | .fpdiv r a b => Nat.pair 10 (Nat.pair r.code (Nat.pair a.code b.code))
  | .fpneg a => Nat.pair 11 a.code
  | .reassoc a => Nat.pair 12 a.code

theorem expr.code_eq : ∀ x y : expr, x.code = y.code → x = y := by
  intro x
  induction x with
  | null => intro y h; cases y <;> simp_all [expr.code, Nat.pair_eq_pair]
  | var id => intro y h; cases y <;> simp_all [expr.code, Nat.pair_eq_pair]
  | tt => intro y h; cases y <;> simp_all [expr.code, Nat.pair_eq_pair]
  | ff => intro y h; cases y <;> simp_all [expr.code, Nat.pair_eq_pair]
  | and a b iha ihb =>
    intro y h; cases y <;> simp [expr.code, Nat.pair_eq_pair] at h ⊢
    exact ⟨iha _ h.1, ihb _ h.2⟩
  | or a b iha ihb =>
    intro y h; cases y <;> simp [expr.code, Nat.pair_eq_pair] at h ⊢
    exact ⟨iha _ h.1, ihb _ h.2⟩
  | ite c a b ihc iha ihb =>
    intro y h; cases y <;> simp [expr.code, Nat.pair_eq_pair] at h ⊢
    exact ⟨ihc _ h.1, iha _ h.2.1, ihb _ h.2.2⟩
  | fpadd c a b ihc iha ihb =>
    intro y h; cases y <;> simp [expr.code, Nat.pair_eq_pair] at h ⊢
    exact ⟨ihc _ h.1, iha _ h.2.1, ihb _ h.2.2⟩
  | fpsub c a b ihc iha ihb =>
    intro y h; cases y <;> simp [expr.code, Nat.pair_eq_pair] at h ⊢
    exact ⟨ihc _ h.1, iha _ h.2.1, ihb _ h.2.2⟩
  | fpmul c a b ihc iha ihb =>
    intro y h; cases y <;> simp [expr.code, Nat.pair_eq_pair] at h ⊢
    exact ⟨ihc _ h.1, iha _ h.2.1, ihb _ h.2.2⟩
  | fpdiv c a b ihc iha ihb =>
    intro y h; cases y <;> simp [expr.code, Nat.pair_eq_pair] at h ⊢
    exact ⟨ihc _ h.1, iha _ h.2.1, ihb _ h.2.2⟩
  | fpneg a iha =>
    intro y h; cases y <;> simp [expr.code, Nat.pair_eq_pair] at h ⊢
    exact iha _ h
  | reassoc a iha =>
    intro y h; cases y <;> simp [expr.code, Nat.pair_eq_pair] at h ⊢
    exact iha _ h

theorem expr.code_injective : Function.Injective expr.code :=
  fun x y h => expr.code_eq x y h

/-- The order of expressions by their code. -/
@[reducible] def expr.code_order : LinearOrder expr :=
  LinearOrder.lift' expr.code expr.code_injective

/-- Disjunction with constant folding. -/
def expr.mk_or (a b : expr) : expr :=
  if b = .ff ∨ a = .tt then a
  else if b = .tt ∨ a = .ff then b
  else .or a b

/-- Conjunction with constant folding. -/
def expr.mk_and (a b : expr) : expr :=
  if a = .ff ∨ b = .tt then a
  else if a = .tt ∨ b = .ff then b
  else .and a b

/-- The boolean interface on `expr`. -/
def expr.ops : ExprOps expr where
  isTrue e := decide (e = .tt)
  isFalse e := decide (e = .ff)
  or := expr.mk_or
  and := expr.mk_and

/-! ## A concrete boolean and bit-vector primitive

A second instance of the external primitive, used to evaluate `ChoiceExpr` on examples:
boolean terms over variables and over comparisons of the selector with literals, and
value terms built from constants by conditional selection. -/

/-- Boolean and value terms: `var` is a boolean variable, `num` a value constant,
`choice bits` the selector variable of the given width. -/
inductive bvexpr where
  | null
  | tt
  | ff
  | var (id : Nat)
  | num (n : Nat)
  | choice (bits : Nat)
  | not (a : bvexpr)
  | and (a b : bvexpr)
  | or (a b : bvexpr)
  | ite (c a b : bvexpr)
  | eq_uint (a : bvexpr) (n : Nat)
  deriving DecidableEq, Repr

/-- A numbering of the terms, injective by `Nat.pair`. -/
def bvexpr.code : bvexpr → Nat
  | .null => Nat.pair 0 0
  | .tt => Nat.pair 1 0
  | .ff => Nat.pair 2 0
  | .var id => Nat.pair 3 id
  | .num n => Nat.pair 4 n
  | .choice bits => Nat.pair 5 bits
  | .not a => Nat.pair 6 a.code
  | .and a b => Nat.pair 7 (Nat.pair a.code b.code)
  | .or a b => Nat.pair 8 (Nat.pair a.code b.code)
  | .ite c a b => Nat.pair 9 (Nat.pair c.code (Nat.pair a.code b.code))
  | .eq_uint a n => Nat.pair 10 (Nat.pair a.code n)

theorem bvexpr.bv_code_eq : ∀ x y : bvexpr, x.code = y.code → x = y := by
  intro x
  induction x with
  | null => intro y h; cases y <;> simp_all [bvexpr.code, Nat.pair_eq_pair]
  | tt => intro y h; cases y <;> simp_all [bvexpr.code, Nat.pair_eq_pair]
  | ff => intro y h; cases y <;> simp_all [bvexpr.code, Nat.pair_eq_pair]
  | var id => intro y h; cases y <;> simp_all [bvexpr.code, Nat.pair_eq_pair]
  | num n => intro y h; cases y <;> simp_all [bvexpr.code, Nat.pair_eq_pair]
  | choice bits => intro y h; cases y <;> simp_all [bvexpr.code, Nat.pair_eq_pair]
  | not a iha =>
    intro y h; cases y <;> simp [bvexpr.code, Nat.pair_eq_pair] at h ⊢
    exact iha _ h
  | and a b iha ihb =>
    intro y h; cases y <;> simp [bvexpr.code, Nat.pair_eq_pair] at h ⊢
    exact ⟨iha _ h.1, ihb _ h.2⟩
  | or a b iha ihb =>
    intro y h; cases y <;> simp [bvexpr.code, Nat.pair_eq_pair] at h ⊢
    exact ⟨iha _ h.1, ihb _ h.2⟩
  | ite c a b ihc iha ihb =>
    intro y h; cases y <;> simp [bvexpr.code, Nat.pair_eq_pair] at h ⊢
    exact ⟨ihc _ h.1, iha _ h.2.1, ihb _ h.2.2⟩
  | eq_uint a n iha =>
    intro y h; cases y <;> simp [bvexpr.code, Nat.pair_eq_pair] at h ⊢
    exact ⟨iha _ h.1, h.2⟩

theorem bvexpr.bv_code_injective : Function.Injective bvexpr.code :=
  fun x y h => bvexpr.bv_code_eq x y h

/-- The order of the terms by their code. -/
@[reducible] def bvexpr.code_order : LinearOrder bvexpr :=
  LinearOrder.lift' bvexpr.code bvexpr.bv_code_injective

/-- The operations of the primitive on `bvexpr`: the combinators build the term, the
fold of an `OrExpr` is the disjunction of its terms, `false` when there is none. -/
def bvexpr.ops : ChoiceOps bvexpr where
  isTrue e := decide (e = .tt)
  isFalse e := decide (e = .ff)
  or := .or
  and := .and
  not := .not
  mkIf := .ite
  mk_or l := l.foldr .or .ff
  mkFreshVar := .choice
  eq_uint := .eq_uint
  null := .null
  mkTrue := .tt

/-- The truth value of a boolean term when the boolean variable `i` has the value `σ i`
and the selector has the value `q`. A selector of width `bits` is compared with a
literal modulo `2 ^ bits`. -/
def bvexpr.holds (σ : Nat → Bool) (q : Nat) : bvexpr → Bool
  | .tt => true
  | .var id => σ id
  | .not a => !a.holds σ q
  | .and a b => a.holds σ q && b.holds σ q
  | .or a b => a.holds σ q || b.holds σ q
  | .ite c a b => if c.holds σ q then a.holds σ q else b.holds σ q
  | .eq_uint (.choice bits) n => decide (q % 2 ^ bits = n % 2 ^ bits)
  | _ => false

/-- The value of a value term under the same assignment. -/
def bvexpr.value (σ : Nat → Bool) (q : Nat) : bvexpr → Nat
  | .num n => n
  | .ite c a b => if c.holds σ q then a.value σ q else b.value σ q
  | _ => 0

instance : Inhabited bvexpr := ⟨.null⟩

/-! ## Auxiliary definitions used in the statements -/

section MapSpecDefs

variable {K V : Type}

/-- The mapped value of `key` in a key-ordered list, found as `lower_bound` finds it. -/
def map_find (lt : K → K → Bool) : List (K × V) → K → Option V
  | [], _ => none
  | (k, v) :: rest, key =>
    if lt k key then map_find lt rest key else if lt key k then none else some v

/-- The key-ordered list with `(key, v)` inserted at the lower bound of `key`, unchanged
when the key is there already. -/
def ordered_insert (lt : K → K → Bool) (key : K) (v : V) : List (K × V) → List (K × V)
  | [] => [(key, v)]
  | (k, x) :: rest =>
    if lt k key then (k, x) :: ordered_insert lt key v rest
    else if lt key k then (key, v) :: (k, x) :: rest
    else (k, x) :: rest

end MapSpecDefs

namespace DisjointExpr

variable {T E : Type}

/-- What `add` does to the entries for a domain that is neither constant: the entry of
`val` gets the disjunction of its domain with `domain`, or `(val, domain)` is inserted
at its place in the key order. -/
def insert_or [LinearOrder T] (ops : ExprOps E) (val : T) (domain : E) :
    List (T × E) → List (T × E)
  | [] => [(val, domain)]
  | (k, d) :: rest =>
    if k < val then (k, d) :: insert_or ops val domain rest
    else if val < k then (val, domain) :: (k, d) :: rest
    else (k, ops.or d domain) :: rest

/-- The nested conditional the fold threads through the entries `l` from the running
value `seed`: `mkIf(dn, vn, ... mkIf(d1, v1, seed))`. -/
def nested_if (mkIf : E → T → T → T) (seed : T) (l : List (T × E)) : T :=
  l.foldl (fun acc x => mkIf x.2 x.1 acc) seed

/-- No two bindings of the list have a domain that is the constant true. -/
def AtMostOneTrue (ops : ExprOps E) (l : List (T × E)) : Prop :=
  l.Pairwise (fun x y => ¬ (ops.isTrue x.2 = true ∧ ops.isTrue y.2 = true))

end DisjointExpr

/-- Constant folding by the disjunction of the expression primitive: the constant false
is its unit, its result is the constant true exactly when an operand is, and the
constant false exactly when both operands are. -/
structure ExprOps.OrFoldsConstants {E : Type} (ops : ExprOps E) : Prop where
  or_false_left : ∀ a b, ops.isFalse a = true → ops.or a b = b
  or_false_right : ∀ a b, ops.isFalse b = true → ops.or a b = a
  isTrue_or : ∀ a b, ops.isTrue (ops.or a b) = (ops.isTrue a || ops.isTrue b)
  isFalse_or : ∀ a b, ops.isFalse (ops.or a b) = (ops.isFalse a && ops.isFalse b)

/-- The nodes the commutativity rule applies to. -/
def Node.commutative (nd : Node) : Prop := nd.operation = .Add ∨ nd.operation = .Mul

/-- Modelled from the spec: the meaning of the terms of the external primitive under
one assignment to the free variables (section 6 of the specification). `holds q e` is
the truth value of the boolean term `e` and `value q t` the value of the data term `t`
when the selector variable has the value `q`; the selector of width `bits` is compared
with a literal as a bit-vector, modulo `2 ^ bits`. -/
structure ChoiceSem (E T V : Type) (ops : ChoiceOps E) (mkIf : E → T → T → T) where
  holds : Nat → E → Bool
  value : Nat → T → V
  holds_not : ∀ q e, holds q (ops.not e) = !holds q e
  holds_mkIf : ∀ q c a b,
    holds q (ops.mkIf c a b) = if holds q c = true then holds q a else holds q b
  holds_mk_or : ∀ q l, holds q (ops.mk_or l) = l.any (holds q)
  holds_eq_uint : ∀ bits q n,
    holds q (ops.eq_uint (ops.mkFreshVar bits) n) = decide (q % 2 ^ bits = n % 2 ^ bits)
  value_mkIf : ∀ q c a b,
    value q (mkIf c a b) = if holds q c = true then value q a else value q b

/-- The selector variable is fresh: it occurs in no stored domain and in no stored value,
whose meaning therefore does not depend on the value of the selector. -/
def ChoiceSem.Fresh {E T V : Type} {ops : ChoiceOps E} {mkIf : E → T → T → T}
    (sem : ChoiceSem E T V ops mkIf) (l : List (T × E)) : Prop :=
  ∀ p ∈ l, ∀ q q1, sem.holds q p.2 = sem.holds q1 p.2 ∧ sem.value q p.1 = sem.value q1 p.1

theorem bvexpr.holds_mk_or (σ : Nat → Bool) (q : Nat) (l : List bvexpr) :
    (bvexpr.ops.mk_or l).holds σ q = l.any (bvexpr.holds σ q) := by
  induction l with
  | nil => rfl
  | cons a rest ih =>
    have h : bvexpr.ops.mk_or (a :: rest) = .or a (bvexpr.ops.mk_or rest) := rfl
    rw [h, List.any_cons, ← ih]
    rfl

/-- The meaning of the terms of `bvexpr` under the assignment `σ` to the boolean
variables. -/
def bvexpr.sem (σ : Nat → Bool) : ChoiceSem bvexpr bvexpr Nat bvexpr.ops bvexpr.ite where
  holds q e := e.holds σ q
  value q t := t.value σ q
  holds_not _ _ := rfl
  holds_mkIf _ _ _ _ := rfl
  holds_mk_or q l := bvexpr.holds_mk_or σ q l
  holds_eq_uint _ _ _ := rfl
  value_mkIf _ _ _ _ := rfl

/-- Modelled from the spec: the meaning of the terms of the external primitive under one
assignment to the free variables, as far as the fold of a `DisjointExpr` reads it
(section 6 of the specification): `holds e` is the truth value of the boolean term `e`,
`value t` the value of the data term `t`; `T::mkIf` is if-then-else, and a term that
`isTrue()` recognizes as the constant true holds. -/
structure FoldSem (E T V : Type) (ops : ExprOps E) (mkIf : E → T → T → T) where
  holds : E → Bool
  value : T → V
  value_mkIf : ∀ c a b, value (mkIf c a b) = if holds c = true then value a else value b
  holds_isTrue : ∀ e, ops.isTrue e = true → holds e = true

/-- The meaning of the terms of `bvexpr` under the assignment `σ`, for the fold. -/
def bvexpr.fold_sem (σ : Nat → Bool) :
    FoldSem bvexpr bvexpr Nat bvexpr.ops.toExprOps bvexpr.ite where
  holds e := e.holds σ 0
  value t := t.value σ 0
  value_mkIf _ _ _ := rfl
  holds_isTrue e h := by
    have : e = bvexpr.tt := of_decide_eq_true h
    rw [this]
    rfl

/-- The truth value of a boolean term of `expr` when the variable `i` has the value
`σ i`. -/
def expr.holds (σ : Nat → Bool) : expr → Bool
  | .tt => true
  | .var id => σ id
  | .and a b => a.holds σ && b.holds σ
  | .or a b => a.holds σ || b.holds σ
  | .ite c a b => if c.holds σ then a.holds σ else b.holds σ
  | _ => false

/-- The value of a data term of `expr` under the same assignment: the variable `i`
stands for the value `i`, and `ite` is conditional selection. -/
def expr.value (σ : Nat → Bool) : expr → Nat
  | .var id => id
  | .ite c a b => if c.holds σ then a.value σ else b.value σ
  | _ => 0

/-- The meaning of the terms of `expr` under the assignment `σ`, for the fold. -/
def expr.fold_sem (σ : Nat → Bool) : FoldSem expr expr Nat expr.ops expr.ite where
  holds e := e.holds σ
  value t := t.value σ
  value_mkIf _ _ _ := rfl
  holds_isTrue e h := by
    have : e = expr.tt := of_decide_eq_true h
    rw [this]
    rfl

/-- The links of a node map on which `saturate` does not end: the root is node 1, a
black node without a right child, whose left child is the node allocated last; the
nodes `mid` allocated in between are no longer reachable from the root. The leftmost
pointer `hl` of the header is stale. -/
def Pre20.EGraph.spin_links (hl : Option Nat) (mid : List Pre20.Rb_tree_node_base) :
    List Pre20.Rb_tree_node_base :=
  ⟨true, some 1, hl, some 1⟩ :: ⟨false, some 0, some (mid.length + 2), none⟩ ::
    (mid ++ [⟨true, some 1, none, none⟩])

/-- The entries that go with `spin_links`: the root holds `(kl, v0)` and the node
allocated last holds `(ka, j)`. -/
def Pre20.EGraph.spin_vals (kl ka : Node) (v0 j : Nat) (midv : List (Node × Nat)) :
    List (Node × Nat) :=
  (kl, v0) :: (midv ++ [(ka, j)])

/-- The first statements of `float_refined`, lines 234-239: the ids of `a` and of `b` in
a fresh e-graph and the e-graph after the debug output, on which `saturate` is called
when the ids differ. -/
def Pre20.interned [LinearOrder expr] (Reassoc : Nat) (a b : expr) :
    Option (Nat × Nat × Pre20.EGraph) := do
  let (na, g1) ← Pre20.EGraph.empty.get Reassoc a
  let (nb, g2) ← g1.get Reassoc b
  let g3 ← g2.print
  pure (na, nb, g3)

/-- The e-graph after `n` passes of the loop of `saturate`, whatever the exit test of
line 168 says; no result if one of the passes has none. -/
def Pre20.EGraph.passes [LinearOrder expr] : Nat → Pre20.EGraph → Option Pre20.EGraph
  | 0, g => some g
  | n + 1, g => g.saturate_once.bind (Pre20.EGraph.passes n)

/-- The links of a node map on which `saturate` does not end, in general: the root is
the node `r`, the rightmost node is node 1, a black node without a right child whose
left child is the node allocated last, a red leaf; `R` are the nodes allocated in
between, reachable from the root or not. -/
def Pre20.EGraph.loop_links (r : Nat) (p1 hl : Option Nat)
    (R : List Pre20.Rb_tree_node_base) : List Pre20.Rb_tree_node_base :=
  ⟨true, some r, hl, some 1⟩ :: ⟨false, p1, some (R.length + 2), none⟩ ::
    (R ++ [⟨true, some 1, none, none⟩])

/-- The number of entries of a list to which the commutativity rule applies. -/
def Pre20.EGraph.count_commutative (E : List (Node × Nat)) : Nat :=
  (E.filter (fun e => e.1.operation = .Add ∨ e.1.operation = .Mul)).length

/-- What makes `saturate` loop on the e-graphs with the forest `U`, the links
`loop_links r p1 hl (fix ++ mid)` and the entries
`spin_vals k1 ka v1 j (fixv ++ midv)`, whatever the nodes `mid` allocated after the
fixed ones: the leftmost pointer is not the rightmost node, the root is black, a copy
of the map holds the entries `E1`, the entry `(ka, j)` of the node allocated last and
the entries `E2`, in this order, and for every key `k` in `P`, among them the swapped
nodes of `E1`, the lookup of `k` ends at `end()` and each of `k` and the key `k1` of
the rightmost node is less than the other. -/
structure Pre20.EGraph.LoopShape [LinearOrder expr] (r : Nat) (p1 hl : Option Nat)
    (k1 : Node) (v1 : Nat) (U : List Nat) (fix : List Pre20.Rb_tree_node_base)
    (fixv : List (Node × Nat)) (E1 E2 : List (Node × Nat)) (P : Node → Prop) : Prop where
  hl_ne : hl ≠ some 1
  len : fixv.length = fix.length
  root_black : ∀ mid, ∃ nr,
    Pre20.Rb_tree.rd (Pre20.EGraph.loop_links r p1 hl (fix ++ mid)) (some r) = some nr ∧
      nr.red = false
  lt_right : ∀ k, P k → Node.lt_pre20 k1 k = true ∧ Node.lt_pre20 k k1 = true
  lower : ∀ k, P k → ∀ mid midv ka j, midv.length = mid.length →
    Pre20.Rb_tree.lower_bound Node.lt_pre20
      (⟨Pre20.EGraph.loop_links r p1 hl (fix ++ mid),
        Pre20.EGraph.spin_vals k1 ka v1 j (fixv ++ midv)⟩ : Pre20.Rb_tree Node Nat) k =
      some (some 0)
  copy : ∀ mid midv ka j, midv.length = mid.length →
    Pre20.Rb_tree.copy_entries
      (⟨Pre20.EGraph.loop_links r p1 hl (fix ++ mid),
        Pre20.EGraph.spin_vals k1 ka v1 j (fixv ++ midv)⟩ : Pre20.Rb_tree Node Nat)
      ((Pre20.EGraph.loop_links r p1 hl (fix ++ mid)).length + 1) (some r) =
      some (E1 ++ (ka, j) :: E2)
  first : ∀ e ∈ E1, (e.1.operation = .Add ∨ e.1.operation = .Mul) →
    P { e.1 with op1 := e.1.op2, op2 := e.1.op1 } ∧ U.getD e.2 e.2 = e.2
  second : ∀ e ∈ E2, ¬ (e.1.operation = .Add ∨ e.1.operation = .Mul)

/-! # Theorems -/

/-! ## Lemmas on `map_try_emplace` -/

section MapLemmas

variable {K V : Type}

theorem map_try_emplace_nil (lt : K → K → Bool) (key : K) (args : V) :
    map_try_emplace lt [] key args = ([(key, args)], 0, true) := rfl

theorem map_try_emplace_cons (lt : K → K → Bool) (k : K) (v : V) (rest : List (K × V))
    (key : K) (args : V) :
    map_try_emplace lt ((k, v) :: rest) key args =
      if lt k key then
        ((k, v) :: (map_try_emplace lt rest key args).1,
          (map_try_emplace lt rest key args).2.1 + 1,
          (map_try_emplace lt rest key args).2.2)
      else if lt key k then ((key, args) :: (k, v) :: rest, 0, true)
      else ((k, v) :: rest, 0, false) := by
  unfold map_try_emplace map_try_emplace_impl
  by_cases h : lt k key = true
  · simp only [lower_bound, h, if_true, List.get?_cons_succ]
    cases hg : rest.get? (lower_bound lt rest key) with
    | none => simp [emplace_hint]
    | some kv =>
      obtain ⟨k1, v1⟩ := kv
      by_cases h1 : lt key k1 = true <;> simp [h1, emplace_hint]
  · simp only [lower_bound, h, List.get?_cons_zero]
    by_cases h1 : lt key k = true <;> simp [h1, emplace_hint]

end MapLemmas

/-! ## Lemmas on `DisjointExpr` -/

namespace DisjointExpr

variable {T E : Type}

theorem emplace_eq_insert_or [LinearOrder T] (ops : ExprOps E) (val : T) (domain : E)
    (l : List (T × E)) :
    (if !(map_try_emplace key_lt l val domain).2.2 then
        update_second (fun d => ops.or d domain) (map_try_emplace key_lt l val domain).1
          (map_try_emplace key_lt l val domain).2.1
      else (map_try_emplace key_lt l val domain).1) = insert_or ops val domain l := by
  induction l with
  | nil => simp [map_try_emplace_nil, insert_or]
  | cons x rest ih =>
    obtain ⟨k, d⟩ := x
    rw [map_try_emplace_cons]
    by_cases h : k < val
    · simp only [key_lt, h, decide_True, if_true, insert_or]
      rw [← ih]
      by_cases hi : (map_try_emplace key_lt rest val domain).2.2 = true
      · simp [hi]
      · simp [hi, update_second]
    · by_cases h1 : val < k
      · simp [key_lt, h, h1, insert_or]
      · simp [key_lt, h, h1, insert_or, update_second]

theorem add_vals [LinearOrder T] (ops : ExprOps E) (m : DisjointExpr T E) (val : T)
    (domain : E) :
    (m.add ops val domain).vals =
      if ops.isFalse domain then m.vals
      else if ops.isTrue domain then [(val, domain)]
      else insert_or ops val domain m.vals := by
  unfold add
  by_cases hf : ops.isFalse domain = true
  · simp [hf]
  · by_cases ht : ops.isTrue domain = true
    · simp [hf, ht, map_try_emplace_nil]
    · simp only [hf, ht, if_false]
      rw [← emplace_eq_insert_or]
      by_cases hi : (map_try_emplace key_lt m.vals val domain).2.2 = true <;> simp [hi]

theorem add_default_val [LinearOrder T] (ops : ExprOps E) (m : DisjointExpr T E) (val : T)
    (domain : E) : (m.add ops val domain).default_val = m.default_val := by
  unfold add
  by_cases hf : ops.isFalse domain = true
  · simp [hf]
  · rw [if_neg hf]
    dsimp only
    generalize map_try_emplace key_lt (if ops.isTrue domain = true then [] else m.vals)
      val domain = r
    obtain ⟨vals1, I, inserted⟩ := r
    cases inserted <;> rfl

theorem call_loop_some (ops : ExprOps E) (mkIf : E → T → T → T) (dflt : Option T)
    (l : List (T × E)) (r : T) (h : ∀ x ∈ l, ops.isTrue x.2 = false) :
    call_loop ops mkIf dflt l (some r) = some (nested_if mkIf r l) := by
  induction l generalizing r with
  | nil => simp [call_loop, nested_if]
  | cons x rest ih =>
    obtain ⟨v, d⟩ := x
    have hd : ops.isTrue d = false := h (v, d) (List.mem_cons_self _ _)
    simp only [call_loop, hd]
    rw [ih _ (fun y hy => h y (List.mem_cons_of_mem _ hy))]
    simp [nested_if]

theorem call_cons (ops : ExprOps E) (mkIf : E → T → T → T) (dflt : Option T)
    (v : T) (d : E) (rest : List (T × E)) (hd : ops.isTrue d = false)
    (h : ∀ x ∈ rest, ops.isTrue x.2 = false) :
    call ops mkIf ⟨(v, d) :: rest, dflt⟩ = some (nested_if mkIf v rest) := by
  simp only [call, call_loop, hd]
  exact call_loop_some ops mkIf dflt rest v h

theorem call_nil (ops : ExprOps E) (mkIf : E → T → T → T) (dflt : Option T) :
    call ops mkIf ⟨[], dflt⟩ = dflt := by
  simp [call, call_loop]

theorem call_single (ops : ExprOps E) (mkIf : E → T → T → T) (dflt : Option T)
    (v : T) (d : E) : call ops mkIf ⟨[(v, d)], dflt⟩ = some v := by
  by_cases hd : ops.isTrue d = true <;> simp [call, call_loop, hd]

end DisjointExpr

namespace DisjointExpr

variable {T E : Type}

theorem lookup_loop_some [DecidableEq E] (l : List (T × E)) (q : E) (v : T)
    (h : lookup_loop l q = some v) : (v, q) ∈ l := by
  induction l with
  | nil => simp [lookup_loop] at h
  | cons x rest ih =>
    obtain ⟨k, d⟩ := x
    by_cases hd : d = q
    · simp [lookup_loop, hd] at h
      simp [h, hd]
    · simp only [lookup_loop, hd, if_false] at h
      exact List.mem_cons_of_mem _ (ih h)

theorem lookup_loop_none [DecidableEq E] (l : List (T × E)) (q : E) :
    lookup_loop l q = none ↔ ∀ x ∈ l, x.2 ≠ q := by
  induction l with
  | nil => simp [lookup_loop]
  | cons x rest ih =>
    obtain ⟨k, d⟩ := x
    by_cases hd : d = q
    · simp [lookup_loop, hd]
    · simp [lookup_loop, hd, ih]

theorem add_true [LinearOrder T] (ops : ExprOps E) (m : DisjointExpr T E) (v : T) (d : E)
    (ht : ops.isTrue d = true) (hf : ops.isFalse d = false) :
    m.add ops v d = ⟨[(v, d)], m.default_val⟩ := by
  have h1 := add_vals ops m v d
  have h2 := add_default_val ops m v d
  simp only [hf, ht, if_true] at h1
  cases hm : m.add ops v d with
  | mk vals dflt => rw [hm] at h1 h2; simp at h1 h2; rw [h1, h2]

theorem add_false [LinearOrder T] (ops : ExprOps E) (m : DisjointExpr T E) (v : T) (d : E)
    (hf : ops.isFalse d = true) : m.add ops v d = m := by
  simp [add, hf]

end DisjointExpr

namespace DisjointExpr

variable {T E : Type}

theorem insert_or_mem_back [LinearOrder T] (ops : ExprOps E) (val : T) (c : E)
    (l : List (T × E)) (k : T) (x : E) (hk : k ≠ val)
    (h : (k, x) ∈ insert_or ops val c l) : (k, x) ∈ l := by
  induction l with
  | nil => simp [insert_or] at h; exact absurd h.1 hk
  | cons y rest ih =>
    obtain ⟨k1, d1⟩ := y
    by_cases h1 : k1 < val
    · simp only [insert_or, h1, if_true, List.mem_cons] at h
      rcases h with h | h
      · rw [h]; exact List.mem_cons_self _ _
      · exact List.mem_cons_of_mem _ (ih h)
    · by_cases h2 : val < k1
      · simp only [insert_or, h1, h2, if_true, if_false, List.mem_cons] at h
        rcases h with h | h | h
        · exact absurd (Prod.mk.inj h).1 hk
        · rw [h]; exact List.mem_cons_self _ _
        · exact List.mem_cons_of_mem _ h
      · have hkv : k1 = val := le_antisymm (not_lt.mp h2) (not_lt.mp h1)
        simp only [insert_or, h1, h2, if_false, List.mem_cons] at h
        rcases h with h | h
        · exact absurd ((Prod.mk.inj h).1.trans hkv) hk
        · exact List.mem_cons_of_mem _ h

theorem insert_or_mem_forth [LinearOrder T] (ops : ExprOps E) (val : T) (c : E)
    (l : List (T × E)) (k : T) (x : E) (hk : k ≠ val)
    (h : (k, x) ∈ l) : (k, x) ∈ insert_or ops val c l := by
  induction l with
  | nil => simp at h
  | cons y rest ih =>
    obtain ⟨k1, d1⟩ := y
    rw [List.mem_cons] at h
    by_cases h1 : k1 < val
    · simp only [insert_or, h1, if_true, List.mem_cons]
      rcases h with h | h
      · exact Or.inl h
      · exact Or.inr (ih h)
    · by_cases h2 : val < k1
      · simp only [insert_or, h1, h2, if_true, if_false, List.mem_cons]
        exact Or.inr h
      · have hkv : k1 = val := le_antisymm (not_lt.mp h2) (not_lt.mp h1)
        simp only [insert_or, h1, h2, if_false, List.mem_cons]
        rcases h with h | h
        · exact absurd ((Prod.mk.inj h).1.trans hkv) hk
        · exact Or.inr h

theorem insert_or_mem_key [LinearOrder T] (ops : ExprOps E) (val : T) (c : E)
    (l : List (T × E)) :
    ∃ stored, (val, stored) ∈ insert_or ops val c l ∧
      (stored = c ∨ ∃ prev, (val, prev) ∈ l ∧ stored = ops.or prev c) := by
  induction l with
  | nil => exact ⟨c, by simp [insert_or], Or.inl rfl⟩
  | cons y rest ih =>
    obtain ⟨k1, d1⟩ := y
    by_cases h1 : k1 < val
    · obtain ⟨s, hs, hs2⟩ := ih
      refine ⟨s, ?_, ?_⟩
      · simp only [insert_or, h1, if_true]; exact List.mem_cons_of_mem _ hs
      · rcases hs2 with hs2 | ⟨prev, hp, hs2⟩
        · exact Or.inl hs2
        · exact Or.inr ⟨prev, List.mem_cons_of_mem _ hp, hs2⟩
    · by_cases h2 : val < k1
      · exact ⟨c, by simp [insert_or, h1, h2], Or.inl rfl⟩
      · have hkv : k1 = val := le_antisymm (not_lt.mp h2) (not_lt.mp h1)
        refine ⟨ops.or d1 c, ?_, Or.inr ⟨d1, ?_, rfl⟩⟩
        · simp [insert_or, h1, h2, hkv]
        · simp [hkv]

theorem insert_or_true_entry [LinearOrder T] (ops : ExprOps E)
    (hor : ∀ a b, ops.isTrue (ops.or a b) = true → ops.isTrue a = true ∨ ops.isTrue b = true)
    (val : T) (c : E) (hc : ops.isTrue c = false) (l : List (T × E)) (z : T × E)
    (hz : z ∈ insert_or ops val c l) (hzt : ops.isTrue z.2 = true) :
    ∃ w ∈ l, ops.isTrue w.2 = true := by
  induction l with
  | nil =>
    simp only [insert_or, List.mem_singleton] at hz
    rw [hz] at hzt; simp [hc] at hzt
  | cons y rest ih =>
    obtain ⟨k1, d1⟩ := y
    by_cases h1 : k1 < val
    · simp only [insert_or, h1, if_true, List.mem_cons] at hz
      rcases hz with hz | hz
      · exact ⟨(k1, d1), List.mem_cons_self _ _, hz ▸ hzt⟩
      · obtain ⟨w, hw, hwt⟩ := ih hz
        exact ⟨w, List.mem_cons_of_mem _ hw, hwt⟩
    · by_cases h2 : val < k1
      · simp only [insert_or, h1, h2, if_true, if_false, List.mem_cons] at hz
        rcases hz with hz | hz | hz
        · rw [hz] at hzt; simp [hc] at hzt
        · exact ⟨(k1, d1), List.mem_cons_self _ _, hz ▸ hzt⟩
        · exact ⟨z, List.mem_cons_of_mem _ hz, hzt⟩
      · simp only [insert_or, h1, h2, if_false, List.mem_cons] at hz
        rcases hz with hz | hz
        · rw [hz] at hzt
          rcases hor d1 c hzt with h | h
          · exact ⟨(k1, d1), List.mem_cons_self _ _, h⟩
          · simp [hc] at h
        · exact ⟨z, List.mem_cons_of_mem _ hz, hzt⟩

theorem insert_or_at_most_one_true [LinearOrder T] (ops : ExprOps E)
    (hor : ∀ a b, ops.isTrue (ops.or a b) = true → ops.isTrue a = true ∨ ops.isTrue b = true)
    (val : T) (c : E) (hc : ops.isTrue c = false) (l : List (T × E))
    (h : AtMostOneTrue ops l) : AtMostOneTrue ops (insert_or ops val c l) := by
  unfold AtMostOneTrue at h ⊢
  induction l with
  | nil => simp [insert_or]
  | cons y rest ih =>
    obtain ⟨k1, d1⟩ := y
    rw [List.pairwise_cons] at h
    by_cases h1 : k1 < val
    · simp only [insert_or, h1, if_true, List.pairwise_cons]
      refine ⟨?_, ih h.2⟩
      intro z hz hboth
      obtain ⟨w, hw, hwt⟩ := insert_or_true_entry ops hor val c hc rest z hz hboth.2
      exact h.1 w hw ⟨hboth.1, hwt⟩
    · by_cases h2 : val < k1
      · simp only [insert_or, h1, h2, if_true, if_false, List.pairwise_cons]
        refine ⟨?_, h⟩
        intro z _ hboth
        simp [hc] at hboth
      · simp only [insert_or, h1, h2, if_false, List.pairwise_cons]
        refine ⟨?_, h.2⟩
        intro z hz hboth
        rcases hor d1 c hboth.1 with hd | hd
        · exact h.1 z hz ⟨hd, hboth.2⟩
        · simp [hc] at hd

theorem add_at_most_one_true [LinearOrder T] (ops : ExprOps E)
    (hor : ∀ a b, ops.isTrue (ops.or a b) = true → ops.isTrue a = true ∨ ops.isTrue b = true)
    (m : DisjointExpr T E) (val : T) (c : E) (h : AtMostOneTrue ops m.vals) :
    AtMostOneTrue ops (m.add ops val c).vals := by
  rw [add_vals]
  by_cases hf : ops.isFalse c = true
  · simpa [hf] using h
  · by_cases ht : ops.isTrue c = true
    · simp [hf, ht, AtMostOneTrue]
    · simp only [hf, ht, if_false]
      exact insert_or_at_most_one_true ops hor val c (by simpa using ht) m.vals h

theorem foldl_add_at_most_one_true [LinearOrder T] (ops : ExprOps E)
    (hor : ∀ a b, ops.isTrue (ops.or a b) = true → ops.isTrue a = true ∨ ops.isTrue b = true)
    (domain : E) (l : List (T × E)) (m : DisjointExpr T E) (h : AtMostOneTrue ops m.vals) :
    AtMostOneTrue ops
      (l.foldl (fun acc t => acc.add ops t.1 (ops.and t.2 domain)) m).vals := by
  induction l generalizing m with
  | nil => exact h
  | cons t rest ih => exact ih _ (add_at_most_one_true ops hor m _ _ h)

theorem reachable_at_most_one_true [LinearOrder T] (ops : ExprOps E)
    (hor : ∀ a b, ops.isTrue (ops.or a b) = true → ops.isTrue a = true ∨ ops.isTrue b = true)
    (m : DisjointExpr T E) (h : Reachable ops m) : AtMostOneTrue ops m.vals := by
  induction h with
  | ctor d => simp [with_default, AtMostOneTrue]
  | add val domain _ ih => exact add_at_most_one_true ops hor _ val domain ih
  | add_disj domain _ _ heq ih _ =>
    unfold add_disj at heq
    split at heq
    · simp at heq
    · simp only [Option.some.injEq] at heq
      rw [← heq]
      exact foldl_add_at_most_one_true ops hor domain _ _ ih

theorem at_most_one_true_filter (ops : ExprOps E) (l : List (T × E))
    (h : AtMostOneTrue ops l) : (l.filter (fun x => ops.isTrue x.2)).length ≤ 1 := by
  unfold AtMostOneTrue at h
  induction l with
  | nil => simp
  | cons y rest ih =>
    rw [List.pairwise_cons] at h
    by_cases hy : ops.isTrue y.2 = true
    · have hnone : rest.filter (fun x => ops.isTrue x.2) = [] := by
        rw [List.filter_eq_nil_iff]
        intro z hz hzt
        exact h.1 z hz ⟨hy, hzt⟩
      simp [List.filter_cons, hy, hnone]
    · simp only [List.filter_cons, hy]
      exact ih h.2

theorem call_loop_true_entry (ops : ExprOps E) (mkIf : E → T → T → T) (dflt : Option T)
    (l : List (T × E)) (h : AtMostOneTrue ops l) (v : T) (d : E) (hv : (v, d) ∈ l)
    (hd : ops.isTrue d = true) (ret : Option T) :
    call_loop ops mkIf dflt l ret = some v := by
  unfold AtMostOneTrue at h
  induction l generalizing ret with
  | nil => simp at hv
  | cons y rest ih =>
    obtain ⟨k1, d1⟩ := y
    rw [List.pairwise_cons] at h
    rw [List.mem_cons] at hv
    by_cases h1 : ops.isTrue d1 = true
    · rcases hv with hv | hv
      · simp [call_loop, h1, (Prod.mk.inj hv).1]
      · exact absurd ⟨h1, hd⟩ (h.1 (v, d) hv)
    · rcases hv with hv | hv
      · rw [(Prod.mk.inj hv).2] at hd; exact absurd hd h1
      · simp only [call_loop, h1]
        exact ih h.2 hv _

end DisjointExpr

/-! ## Claims on `DisjointExpr` -/

/-- C4, counterexample. The map with default value `var 2` and the single binding
`(var 1, var 0)` folds to `var 1`: the default value does not seed the nested
conditional, the result is not `mkIf(var 0, var 1, var 2)`. -/
theorem C4_fold_ignores_default_cex :
    DisjointExpr.call expr.ops expr.ite ⟨[(expr.var 1, expr.var 0)], some (expr.var 2)⟩
        = some (expr.var 1) ∧
      DisjointExpr.call expr.ops expr.ite ⟨[(expr.var 1, expr.var 0)], some (expr.var 2)⟩
        ≠ some (DisjointExpr.nested_if expr.ite (expr.var 2) [(expr.var 1, expr.var 0)]) := by
  decide

/-- C4, amended. The fold of a map with bindings `(v1,d1), ..., (vn,dn)` in key order,
`n ≥ 1`, none of whose domains is the constant true, is the nested conditional seeded
with the value of the first binding, `mkIf(dn, vn, ... mkIf(d2, v2, v1) ...)`, whatever
the default value; a single binding `(v, d)` folds to `v`; the default value is the
result of the map without bindings. -/
theorem C4_fold_nested_conditional {T E : Type} (ops : ExprOps E) (mkIf : E → T → T → T)
    (default_val : Option T) (v1 : T) (d1 : E) (rest : List (T × E))
    (h1 : ops.isTrue d1 = false) (hrest : ∀ x ∈ rest, ops.isTrue x.2 = false) :
    DisjointExpr.call ops mkIf ⟨(v1, d1) :: rest, default_val⟩
        = some (DisjointExpr.nested_if mkIf v1 rest) ∧
      DisjointExpr.call ops mkIf ⟨[(v1, d1)], default_val⟩ = some v1 ∧
      DisjointExpr.call ops mkIf ⟨[], default_val⟩ = default_val :=
  ⟨DisjointExpr.call_cons ops mkIf default_val v1 d1 rest h1 hrest,
    DisjointExpr.call_single ops mkIf default_val v1 d1,
    DisjointExpr.call_nil ops mkIf default_val⟩

/-- C4, witness: default `var 2`, bindings `(var 1, var 0)` and `(var 3, var 4)`. -/
theorem C4_fold_nested_conditional_witness :
    expr.ops.isTrue (expr.var 0) = false ∧
      DisjointExpr.call expr.ops expr.ite
        ⟨[(expr.var 1, expr.var 0), (expr.var 3, expr.var 4)], some (expr.var 2)⟩
        = some (expr.ite (expr.var 4) (expr.var 3) (expr.var 1)) :=
  ⟨by decide,
    (C4_fold_nested_conditional expr.ops expr.ite (some (expr.var 2)) (expr.var 1)
      (expr.var 0) [(expr.var 3, expr.var 4)] (by decide) (by decide)).1⟩

/-- C5. Whatever the bindings and the default value of `m`, right after `add(v, d)` with
`d` the constant true the fold returns exactly `v`. -/
theorem C5_add_true_then_fold {T E : Type} [LinearOrder T] (ops : ExprOps E)
    (mkIf : E → T → T → T) (m : DisjointExpr T E) (v : T) (d : E)
    (ht : ops.isTrue d = true) (hf : ops.isFalse d = false) :
    DisjointExpr.call ops mkIf (m.add ops v d) = some v := by
  rw [DisjointExpr.add_true ops m v d ht hf]
  exact DisjointExpr.call_single ops mkIf m.default_val v d

/-- C5, witness: `add(var 7, true)` on a map with two bindings and a default value. -/
theorem C5_add_true_then_fold_witness :
    expr.ops.isTrue expr.tt = true ∧ expr.ops.isFalse expr.tt = false ∧
      DisjointExpr.call expr.ops expr.ite
        (@DisjointExpr.add _ _ expr.code_order expr.ops
          ⟨[(expr.var 1, expr.var 0), (expr.var 3, expr.var 4)], some (expr.var 2)⟩
          (expr.var 7) expr.tt) = some (expr.var 7) :=
  ⟨by decide, by decide,
    @C5_add_true_then_fold _ _ expr.code_order expr.ops expr.ite
      ⟨[(expr.var 1, expr.var 0), (expr.var 3, expr.var 4)], some (expr.var 2)⟩
      (expr.var 7) expr.tt (by decide) (by decide)⟩

/-- C7. `add(v, d)` with `d` the constant false returns the map unchanged: the stored
bindings and the default value are the same, hence so are the fold and every lookup. -/
theorem C7_add_false_unchanged {T E : Type} [LinearOrder T] [DecidableEq E]
    (ops : ExprOps E) (mkIf : E → T → T → T) (m : DisjointExpr T E) (v : T) (d : E)
    (hf : ops.isFalse d = true) :
    (m.add ops v d).vals = m.vals ∧ (m.add ops v d).default_val = m.default_val ∧
      DisjointExpr.call ops mkIf (m.add ops v d) = DisjointExpr.call ops mkIf m ∧
      ∀ q, (m.add ops v d).lookup q = m.lookup q := by
  rw [DisjointExpr.add_false ops m v d hf]
  exact ⟨rfl, rfl, rfl, fun _ => rfl⟩

/-- C7, witness: `add(var 7, false)` on a map with two bindings and a default value. -/
theorem C7_add_false_unchanged_witness :
    expr.ops.isFalse expr.ff = true ∧
      (@DisjointExpr.add _ _ expr.code_order expr.ops
          ⟨[(expr.var 1, expr.var 0), (expr.var 3, expr.var 4)], some (expr.var 2)⟩
          (expr.var 7) expr.ff).vals = [(expr.var 1, expr.var 0), (expr.var 3, expr.var 4)] :=
  ⟨by decide,
    (@C7_add_false_unchanged _ _ expr.code_order _ expr.ops expr.ite
      ⟨[(expr.var 1, expr.var 0), (expr.var 3, expr.var 4)], some (expr.var 2)⟩
      (expr.var 7) expr.ff (by decide)).1⟩

/-- C9. `lookup(q)` returns `v` only if `v` is stored with a domain equal to `q`; it
reports absence exactly when no stored domain equals `q`; and for a map built from the
single binding `(v, d)` with `d` the constant true, `lookup(d)` returns `v`, which is
also what the fold returns. -/
theorem C9_lookup_exact_match {T E : Type} [LinearOrder T] [DecidableEq E]
    (ops : ExprOps E) (mkIf : E → T → T → T) (m : DisjointExpr T E) (q : E) :
    (∀ v, m.lookup q = some v → (v, q) ∈ m.vals) ∧
      (m.lookup q = none ↔ ∀ x ∈ m.vals, x.2 ≠ q) ∧
      (∀ (default_val : Option T) (v : T) (d : E),
        ops.isTrue d = true → ops.isFalse d = false →
        ((DisjointExpr.with_default default_val).add ops v d).lookup d = some v ∧
          DisjointExpr.call ops mkIf ((DisjointExpr.with_default default_val).add ops v d)
            = some v) := by
  refine ⟨fun v h => DisjointExpr.lookup_loop_some m.vals q v h,
    DisjointExpr.lookup_loop_none m.vals q, ?_⟩
  intro default_val v d ht hf
  rw [DisjointExpr.add_true ops _ v d ht hf]
  exact ⟨by simp [DisjointExpr.lookup, DisjointExpr.lookup_loop],
    DisjointExpr.call_single ops mkIf _ v d⟩

/-- C9, witness: the map built from the single binding `(var 7, true)`. -/
theorem C9_lookup_exact_match_witness :
    expr.ops.isTrue expr.tt = true ∧ expr.ops.isFalse expr.tt = false ∧
      (@DisjointExpr.add _ _ expr.code_order expr.ops (DisjointExpr.with_default none)
        (expr.var 7) expr.tt).lookup expr.tt = some (expr.var 7) :=
  ⟨by decide, by decide,
    ((@C9_lookup_exact_match _ _ expr.code_order _ expr.ops expr.ite
      (DisjointExpr.with_default none) expr.tt).2.2 none (expr.var 7) expr.tt
      (by decide) (by decide)).1⟩

/-- C8, counterexample. After `add(var 1, true)` and `add(var 2, var 0)` on an empty map
the binding `(var 1, true)` has a constant-true domain and the map holds a second
binding. -/
theorem C8_true_binding_not_alone_cex :
    @DisjointExpr.Reachable expr expr expr.code_order expr.ops
        (@DisjointExpr.add _ _ expr.code_order expr.ops
          (@DisjointExpr.add _ _ expr.code_order expr.ops (DisjointExpr.with_default none)
            (expr.var 1) expr.tt) (expr.var 2) (expr.var 0)) ∧
      (@DisjointExpr.add _ _ expr.code_order expr.ops
          (@DisjointExpr.add _ _ expr.code_order expr.ops (DisjointExpr.with_default none)
            (expr.var 1) expr.tt) (expr.var 2) (expr.var 0)).vals
        = [(expr.var 1, expr.tt), (expr.var 2, expr.var 0)] ∧
      expr.ops.isTrue expr.tt = true :=
  ⟨@DisjointExpr.Reachable.add _ _ expr.code_order _ _ _ _
    (@DisjointExpr.Reachable.add _ _ expr.code_order _ _ _ _
      (@DisjointExpr.Reachable.ctor _ _ expr.code_order _ none)), by decide, by decide⟩

/-- C8, amended. Right after `add(v, d)` with `d` the constant true the map holds exactly
the one binding `(v, d)`: the earlier bindings are cleared. Bindings added afterwards are
kept next to it, so a reachable map can hold a constant-true binding together with
others; but, provided the disjunction of the primitive is the constant true only when
an operand is, a reachable map holds at most one binding whose domain is the constant
true, and its fold returns the value of that binding. -/
theorem C8_true_binding_clears_earlier {T E : Type} [LinearOrder T] (ops : ExprOps E)
    (mkIf : E → T → T → T)
    (hor : ∀ a b, ops.isTrue (ops.or a b) = true → ops.isTrue a = true ∨ ops.isTrue b = true) :
    (∀ (m : DisjointExpr T E) (v : T) (d : E), ops.isTrue d = true → ops.isFalse d = false →
        (m.add ops v d).vals = [(v, d)]) ∧
      (∀ m : DisjointExpr T E, DisjointExpr.Reachable ops m →
        (m.vals.filter (fun x => ops.isTrue x.2)).length ≤ 1 ∧
        ∀ v d, (v, d) ∈ m.vals → ops.isTrue d = true →
          DisjointExpr.call ops mkIf m = some v) := by
  refine ⟨fun m v d ht hf => by rw [DisjointExpr.add_true ops m v d ht hf], ?_⟩
  intro m hm
  have h := DisjointExpr.reachable_at_most_one_true ops hor m hm
  exact ⟨DisjointExpr.at_most_one_true_filter ops m.vals h,
    fun v d hv hd => DisjointExpr.call_loop_true_entry ops mkIf _ m.vals h v d hv hd none⟩

theorem expr.ops_isTrue_or (a b : expr) (h : expr.ops.isTrue (expr.ops.or a b) = true) :
    expr.ops.isTrue a = true ∨ expr.ops.isTrue b = true := by
  simp only [expr.ops, expr.mk_or, decide_eq_true_eq] at h ⊢
  split_ifs at h with h1 h2
  · exact Or.inl h
  · exact Or.inr h

/-- C8, witness: `add(var 7, true)` on a map with two bindings, for the concrete
primitive, whose disjunction folds constants. -/
theorem C8_true_binding_clears_earlier_witness :
    (∀ a b, expr.ops.isTrue (expr.ops.or a b) = true →
        expr.ops.isTrue a = true ∨ expr.ops.isTrue b = true) ∧
      expr.ops.isTrue expr.tt = true ∧ expr.ops.isFalse expr.tt = false ∧
      (@DisjointExpr.add _ _ expr.code_order expr.ops
          ⟨[(expr.var 1, expr.var 0), (expr.var 3, expr.var 4)], none⟩
          (expr.var 7) expr.tt).vals = [(expr.var 7, expr.tt)] :=
  ⟨expr.ops_isTrue_or, by decide, by decide,
    (@C8_true_binding_clears_earlier _ _ expr.code_order expr.ops expr.ite
      expr.ops_isTrue_or).1 _ (expr.var 7) expr.tt (by decide) (by decide)⟩

namespace DisjointExpr

variable {T E : Type}

theorem add_mem_back [LinearOrder T] (ops : ExprOps E) (m : DisjointExpr T E) (w : T)
    (c : E) (k : T) (x : E) (hk : k ≠ w) (h : (k, x) ∈ (m.add ops w c).vals) :
    (k, x) ∈ m.vals := by
  rw [add_vals] at h
  by_cases hf : ops.isFalse c = true
  · simpa [hf] using h
  · by_cases ht : ops.isTrue c = true
    · simp [hf, ht] at h; exact absurd h.1 hk
    · simp only [hf, ht, if_false] at h
      exact insert_or_mem_back ops w c m.vals k x hk h

theorem add_mem_forth [LinearOrder T] (ops : ExprOps E) (m : DisjointExpr T E) (w : T)
    (c : E) (k : T) (x : E) (hk : k ≠ w) (hc : ops.isTrue c = false)
    (h : (k, x) ∈ m.vals) : (k, x) ∈ (m.add ops w c).vals := by
  rw [add_vals]
  by_cases hf : ops.isFalse c = true
  · simpa [hf] using h
  · simp only [hf, hc, if_false]
    exact insert_or_mem_forth ops w c m.vals k x hk h

theorem add_mem_key [LinearOrder T] (ops : ExprOps E) (m : DisjointExpr T E) (w : T)
    (c : E) (hf : ops.isFalse c = false) :
    ∃ stored, (w, stored) ∈ (m.add ops w c).vals ∧
      (stored = c ∨ ∃ prev, (w, prev) ∈ m.vals ∧ stored = ops.or prev c) := by
  rw [add_vals]
  by_cases ht : ops.isTrue c = true
  · exact ⟨c, by simp [hf, ht], Or.inl rfl⟩
  · simp only [hf, ht, if_false]
    exact insert_or_mem_key ops w c m.vals

theorem foldl_add_mem_back [LinearOrder T] (ops : ExprOps E) (domain : E)
    (l : List (T × E)) (m : DisjointExpr T E) (k : T) (x : E)
    (hk : ∀ t ∈ l, k ≠ t.1)
    (h : (k, x) ∈ (l.foldl (fun acc t => acc.add ops t.1 (ops.and t.2 domain)) m).vals) :
    (k, x) ∈ m.vals := by
  induction l generalizing m with
  | nil => exact h
  | cons t rest ih =>
    have h1 := ih (m.add ops t.1 (ops.and t.2 domain))
      (fun t1 ht => hk t1 (List.mem_cons_of_mem _ ht)) h
    exact add_mem_back ops m t.1 _ k x (hk t (List.mem_cons_self _ _)) h1

theorem foldl_add_mem_forth [LinearOrder T] (ops : ExprOps E) (domain : E)
    (l : List (T × E)) (m : DisjointExpr T E) (k : T) (x : E)
    (hk : ∀ t ∈ l, k ≠ t.1) (hc : ∀ t ∈ l, ops.isTrue (ops.and t.2 domain) = false)
    (h : (k, x) ∈ m.vals) :
    (k, x) ∈ (l.foldl (fun acc t => acc.add ops t.1 (ops.and t.2 domain)) m).vals := by
  induction l generalizing m with
  | nil => exact h
  | cons t rest ih =>
    exact ih (m.add ops t.1 (ops.and t.2 domain))
      (fun t1 ht => hk t1 (List.mem_cons_of_mem _ ht))
      (fun t1 ht => hc t1 (List.mem_cons_of_mem _ ht))
      (add_mem_forth ops m t.1 _ k x (hk t (List.mem_cons_self _ _))
        (hc t (List.mem_cons_self _ _)) h)

theorem add_disj_binding [LinearOrder T] (ops : ExprOps E) (m other : DisjointExpr T E)
    (domain : E) (hm : m.default_val = none) (ho : other.default_val = none)
    (hsorted : KeySorted key_lt other.vals) (v : T) (dv : E) (hv : (v, dv) ∈ other.vals)
    (hf : ops.isFalse (ops.and dv domain) = false)
    (hlater : ∀ w dw, (w, dw) ∈ other.vals → v < w →
      ops.isTrue (ops.and dw domain) = false) :
    ∃ m1, m.add_disj ops other domain = some m1 ∧
      ∃ stored, (v, stored) ∈ m1.vals ∧
        (stored = ops.and dv domain ∨
          ∃ prev, (v, prev) ∈ m.vals ∧ stored = ops.or prev (ops.and dv domain)) := by
  refine ⟨other.vals.foldl (fun acc t => acc.add ops t.1 (ops.and t.2 domain)) m,
    by simp [add_disj, hm, ho], ?_⟩
  obtain ⟨l1, l2, hl⟩ := List.append_of_mem hv
  rw [hl, List.foldl_append, List.foldl_cons]
  unfold KeySorted at hsorted
  rw [hl, List.pairwise_append] at hsorted
  obtain ⟨_, hs2, hs12⟩ := hsorted
  rw [List.pairwise_cons] at hs2
  have hlt1 : ∀ t ∈ l1, t.1 < v := fun t ht => by
    simpa [key_lt] using hs12 t ht (v, dv) (List.mem_cons_self _ _)
  have hlt2 : ∀ t ∈ l2, v < t.1 := fun t ht => by
    simpa [key_lt] using hs2.1 t ht
  obtain ⟨stored, hst, hst2⟩ :=
    add_mem_key ops (l1.foldl (fun acc t => acc.add ops t.1 (ops.and t.2 domain)) m) v
      (ops.and dv domain) hf
  refine ⟨stored, ?_, ?_⟩
  · apply foldl_add_mem_forth ops domain l2 _ v stored
      (fun t ht => ne_of_lt (hlt2 t ht)) _ hst
    intro t ht
    exact hlater t.1 t.2 (by rw [hl]; simp [ht]) (hlt2 t ht)
  · rcases hst2 with h | ⟨prev, hp, h⟩
    · exact Or.inl h
    · exact Or.inr ⟨prev, foldl_add_mem_back ops domain l1 m v prev
        (fun t ht => ne_of_gt (hlt1 t ht)) hp, h⟩

end DisjointExpr

/-- C10, counterexample, for the concrete primitive, whose conjunction folds constants
(`true && true` is the constant true). `other` is built by `add(var 2, true)` and
`add(var 1, var 0)`, so it holds `(var 1, var 0)` and `(var 2, true)`; `add_disj(other, true)` on an empty map
merges `(var 1, var 0 && true)` first and clears it again when it adds
`(var 2, true && true)`: `var 1`, whose conjoined domain is not the constant false, is
not a key of the result. -/
theorem C10_add_disj_drops_binding_cex :
    (@DisjointExpr.add _ _ expr.code_order expr.ops
        (@DisjointExpr.add _ _ expr.code_order expr.ops DisjointExpr.empty
          (expr.var 2) expr.tt) (expr.var 1) (expr.var 0))
        = ⟨[(expr.var 1, expr.var 0), (expr.var 2, expr.tt)], none⟩ ∧
      expr.ops.isFalse (expr.ops.and (expr.var 0) expr.tt) = false ∧
      @DisjointExpr.add_disj _ _ expr.code_order expr.ops DisjointExpr.empty
        ⟨[(expr.var 1, expr.var 0), (expr.var 2, expr.tt)], none⟩ expr.tt
        = some ⟨[(expr.var 2, expr.tt)], none⟩ := by
  decide

/-- C10, amended. For maps `this` and `other` without default value and every domain
`d`, after `this.add_disj(other, d)` every binding `(v, dv)` of `other` whose conjoined
domain `dv && d` is not the constant false, and after which (in key order) no binding
of `other` has a conjoined domain that is the constant true, is a key of `this`, stored
with `dv && d` or with the disjunction of the domain it had in `this` and `dv && d`. -/
theorem C10_add_disj_merges_bindings {T E : Type} [LinearOrder T] (ops : ExprOps E)
    (this other : DisjointExpr T E) (d : E)
    (hthis : this.default_val = none) (hother : other.default_val = none)
    (hsorted : KeySorted DisjointExpr.key_lt other.vals)
    (v : T) (dv : E) (hv : (v, dv) ∈ other.vals)
    (hf : ops.isFalse (ops.and dv d) = false)
    (hlater : ∀ w dw, (w, dw) ∈ other.vals → v < w → ops.isTrue (ops.and dw d) = false) :
    ∃ m1, this.add_disj ops other d = some m1 ∧
      ∃ stored, (v, stored) ∈ m1.vals ∧
        (stored = ops.and dv d ∨
          ∃ prev, (v, prev) ∈ this.vals ∧ stored = ops.or prev (ops.and dv d)) :=
  DisjointExpr.add_disj_binding ops this other d hthis hother hsorted v dv hv hf hlater

/-- C10, witness: `this` holds `(var 1, var 5)`, `other` holds `(var 1, var 0)` and
`(var 2, var 3)`, the domain is `var 4`; the binding looked at is `(var 1, var 0)`. -/
theorem C10_add_disj_merges_bindings_witness :
    KeySorted (@DisjointExpr.key_lt _ expr.code_order)
        [(expr.var 1, expr.var 0), (expr.var 2, expr.var 3)] ∧
      expr.ops.isFalse (expr.ops.and (expr.var 0) (expr.var 4)) = false ∧
      ∃ m1, @DisjointExpr.add_disj _ _ expr.code_order expr.ops
          ⟨[(expr.var 1, expr.var 5)], none⟩
          ⟨[(expr.var 1, expr.var 0), (expr.var 2, expr.var 3)], none⟩ (expr.var 4) = some m1 ∧
        ∃ stored, (expr.var 1, stored) ∈ m1.vals ∧
          (stored = expr.ops.and (expr.var 0) (expr.var 4) ∨
            ∃ prev, (expr.var 1, prev) ∈ [(expr.var 1, expr.var 5)] ∧
              stored = expr.ops.or prev (expr.ops.and (expr.var 0) (expr.var 4))) :=
  ⟨by unfold KeySorted; decide, by decide,
    @C10_add_disj_merges_bindings _ _ expr.code_order expr.ops
      ⟨[(expr.var 1, expr.var 5)], none⟩
      ⟨[(expr.var 1, expr.var 0), (expr.var 2, expr.var 3)], none⟩ (expr.var 4) rfl rfl
      (by unfold KeySorted; decide) (expr.var 1) (expr.var 0) (by decide) (by decide)
      (by
        intro w dw h _
        simp only [List.mem_cons, Prod.mk.injEq, List.mem_singleton, List.not_mem_nil,
          or_false] at h
        rcases h with ⟨_, rfl⟩ | ⟨_, rfl⟩ <;> decide)⟩

namespace DisjointExpr

variable {T E : Type}

theorem insert_or_of_key [LinearOrder T] (ops : ExprOps E) (v : T) (old d : E)
    (l : List (T × E)) (hsorted : KeySorted key_lt l) (hv : (v, old) ∈ l) :
    insert_or ops v d l = l.map (fun x => if x.1 = v then (x.1, ops.or x.2 d) else x) := by
  unfold KeySorted at hsorted
  induction l with
  | nil => simp at hv
  | cons y rest ih =>
    obtain ⟨k, dk⟩ := y
    rw [List.pairwise_cons] at hsorted
    rw [List.mem_cons] at hv
    have hrest : ∀ t ∈ rest, k < t.1 := fun t ht => by simpa [key_lt] using hsorted.1 t ht
    by_cases h1 : k < v
    · have hv1 : (v, old) ∈ rest := by
        rcases hv with hv | hv
        · exact absurd (Prod.mk.inj hv).1.symm (ne_of_lt h1)
        · exact hv
      simp only [insert_or, h1, if_true, List.map_cons, ne_of_lt h1, if_false]
      rw [ih hsorted.2 hv1]
    · by_cases h2 : v < k
      · exfalso
        rcases hv with hv | hv
        · exact absurd (Prod.mk.inj hv).1 (ne_of_lt h2)
        · exact absurd (hrest _ hv) (not_lt_of_lt h2)
      · have hkv : k = v := le_antisymm (not_lt.mp h2) (not_lt.mp h1)
        subst hkv
        have hmap : rest.map (fun x => if x.1 = k then (x.1, ops.or x.2 d) else x) = rest := by
          conv_rhs => rw [← List.map_id rest]
          apply List.map_congr_left
          intro t ht
          have : t.1 ≠ k := (ne_of_lt (hrest t ht)).symm
          simp [this]
        simp [insert_or, hmap]

theorem call_add_true [LinearOrder T] (ops : ExprOps E) (mkIf : E → T → T → T)
    (m : DisjointExpr T E) (v : T) (d : E)
    (ht : ops.isTrue d = true) (hf : ops.isFalse d = false) :
    call ops mkIf (m.add ops v d) = some v := by
  rw [add_true ops m v d ht hf]
  exact call_single ops mkIf m.default_val v d

theorem add_of_key [LinearOrder T] (ops : ExprOps E) (m : DisjointExpr T E) (v : T)
    (old d : E) (hsorted : KeySorted key_lt m.vals) (hv : (v, old) ∈ m.vals)
    (ht : ops.isTrue d = false) (hf : ops.isFalse d = false) :
    (m.add ops v d).vals =
      m.vals.map (fun x => if x.1 = v then (x.1, ops.or x.2 d) else x) := by
  rw [add_vals]
  simp only [hf, ht, if_false]
  exact insert_or_of_key ops v old d m.vals hsorted hv

end DisjointExpr

theorem expr.ops_or_folds_constants : expr.ops.OrFoldsConstants where
  or_false_left a b h := by
    simp only [expr.ops, decide_eq_true_eq] at h
    simp only [expr.ops, expr.mk_or, h]
    by_cases hb : b = expr.ff <;> simp [hb]
  or_false_right a b h := by
    simp only [expr.ops, decide_eq_true_eq] at h
    simp [expr.ops, expr.mk_or, h]
  isTrue_or a b := by
    simp only [expr.ops, expr.mk_or]
    by_cases h1 : b = expr.ff <;> by_cases h2 : a = expr.tt <;> by_cases h3 : b = expr.tt <;>
      by_cases h4 : a = expr.ff <;> simp_all
  isFalse_or a b := by
    simp only [expr.ops, expr.mk_or]
    by_cases h1 : b = expr.ff <;> by_cases h2 : a = expr.tt <;> by_cases h3 : b = expr.tt <;>
      by_cases h4 : a = expr.ff <;> simp_all

namespace DisjointExpr

variable {T E V : Type}

theorem call_loop_value_congr (ops : ExprOps E) (mkIf : E → T → T → T)
    (sem : FoldSem E T V ops mkIf) (dflt : Option T) (l1 l2 : List (T × E))
    (h : List.Forall₂ (fun x y => x.1 = y.1 ∧ sem.holds x.2 = sem.holds y.2 ∧
      ops.isTrue x.2 = ops.isTrue y.2) l1 l2) :
    ∀ ret1 ret2 : Option T, ret1.map sem.value = ret2.map sem.value →
      (call_loop ops mkIf dflt l1 ret1).map sem.value =
        (call_loop ops mkIf dflt l2 ret2).map sem.value := by
  induction h with
  | nil =>
    intro ret1 ret2 hret
    cases ret1 <;> cases ret2 <;> simp_all [call_loop]
  | @cons x y r1 r2 hxy _ ih =>
    intro ret1 ret2 hret
    obtain ⟨v1, e1⟩ := x
    obtain ⟨v2, e2⟩ := y
    obtain ⟨hv, hh, ht⟩ := hxy
    simp only at hv hh ht
    subst hv
    simp only [call_loop, ht]
    by_cases htt : ops.isTrue e2 = true
    · simp [htt]
    · simp only [htt, if_false]
      apply ih
      cases ret1 <;> cases ret2 <;> simp_all [sem.value_mkIf]

theorem forall₂_same (ops : ExprOps E) (holds : E → Bool) (l : List (T × E)) :
    List.Forall₂ (fun x y : T × E => x.1 = y.1 ∧ holds x.2 = holds y.2 ∧
      ops.isTrue x.2 = ops.isTrue y.2) l l := by
  induction l with
  | nil => exact List.Forall₂.nil
  | cons a rest ih => exact List.Forall₂.cons ⟨rfl, rfl, rfl⟩ ih

theorem insert_or_twice_value [LinearOrder T] (ops : ExprOps E) (holds : E → Bool)
    (hlaws : ops.OrFoldsConstants)
    (hor : ∀ a b, holds (ops.or a b) = (holds a || holds b))
    (v : T) (d1 d2 : E) (l : List (T × E)) :
    List.Forall₂ (fun x y : T × E => x.1 = y.1 ∧ holds x.2 = holds y.2 ∧
        ops.isTrue x.2 = ops.isTrue y.2)
      (insert_or ops v d2 (insert_or ops v d1 l)) (insert_or ops v (ops.or d1 d2) l) := by
  induction l with
  | nil =>
    simp only [insert_or, lt_irrefl, if_false]
    exact List.Forall₂.cons ⟨rfl, rfl, rfl⟩ List.Forall₂.nil
  | cons y rest ih =>
    obtain ⟨k, dk⟩ := y
    by_cases h1 : k < v
    · simp only [insert_or, h1, if_true]
      exact List.Forall₂.cons ⟨rfl, rfl, rfl⟩ ih
    · by_cases h2 : v < k
      · simp only [insert_or, h1, h2, if_true, if_false, lt_irrefl]
        exact List.Forall₂.cons ⟨rfl, rfl, rfl⟩ (forall₂_same ops holds _)
      · simp only [insert_or, h1, h2, if_false]
        refine List.Forall₂.cons ⟨rfl, ?_, ?_⟩ (forall₂_same ops holds _)
        · simp only [hor, Bool.or_assoc]
        · simp only [hlaws.isTrue_or, Bool.or_assoc]

theorem call_add_twice_value [LinearOrder T] (ops : ExprOps E) (mkIf : E → T → T → T)
    (hlaws : ops.OrFoldsConstants) (sem : FoldSem E T V ops mkIf)
    (hor : ∀ a b, sem.holds (ops.or a b) = (sem.holds a || sem.holds b))
    (m : DisjointExpr T E) (v : T) (d1 d2 : E) :
    (call ops mkIf ((m.add ops v d1).add ops v d2)).map sem.value =
      (call ops mkIf (m.add ops v (ops.or d1 d2))).map sem.value := by
  by_cases hf1 : ops.isFalse d1 = true
  · rw [add_false ops m v d1 hf1, hlaws.or_false_left d1 d2 hf1]
  · by_cases hf2 : ops.isFalse d2 = true
    · rw [add_false ops _ v d2 hf2, hlaws.or_false_right d1 d2 hf2]
    · simp only [Bool.not_eq_true] at hf1 hf2
      have hf12 : ops.isFalse (ops.or d1 d2) = false := by
        rw [hlaws.isFalse_or, hf1, hf2]; rfl
      by_cases ht1 : ops.isTrue d1 = true
      · have ht12 : ops.isTrue (ops.or d1 d2) = true := by
          rw [hlaws.isTrue_or, ht1]; rfl
        rw [call_add_true ops mkIf m v _ ht12 hf12, add_true ops m v d1 ht1 hf1]
        by_cases ht2 : ops.isTrue d2 = true
        · rw [call_add_true ops mkIf _ v d2 ht2 hf2]
        · have hvals := add_vals ops (⟨[(v, d1)], m.default_val⟩ : DisjointExpr T E) v d2
          simp only [hf2, ht2, if_false, insert_or, lt_irrefl] at hvals
          cases hm : add ops (⟨[(v, d1)], m.default_val⟩ : DisjointExpr T E) v d2 with
          | mk vals dflt =>
            rw [hm] at hvals
            simp only at hvals
            rw [hvals]
            exact congrArg (Option.map sem.value) (call_single ops mkIf dflt v _)
      · by_cases ht2 : ops.isTrue d2 = true
        · have ht12 : ops.isTrue (ops.or d1 d2) = true := by
            rw [hlaws.isTrue_or, ht2]; simp
          rw [call_add_true ops mkIf m v _ ht12 hf12,
            call_add_true ops mkIf _ v d2 ht2 hf2]
        · simp only [Bool.not_eq_true] at ht1 ht2
          have ht12 : ops.isTrue (ops.or d1 d2) = false := by
            rw [hlaws.isTrue_or, ht1, ht2]; rfl
          unfold call
          rw [add_vals, add_vals, add_vals, add_default_val, add_default_val,
            add_default_val]
          simp only [hf1, hf2, hf12, ht1, ht2, ht12, if_false]
          exact call_loop_value_congr ops mkIf sem m.default_val _ _
            (insert_or_twice_value ops sem.holds hlaws hor v d1 d2 m.vals) none none rfl

end DisjointExpr

theorem expr.holds_or_pair (σ : Nat → Bool) (a b : expr) :
    (expr.mk_or a b).holds σ = (a.holds σ || b.holds σ) := by
  unfold expr.mk_or
  by_cases h1 : b = .ff ∨ a = .tt
  · rw [if_pos h1]
    rcases h1 with h | h <;> subst h <;> simp [expr.holds]
  · rw [if_neg h1]
    by_cases h2 : b = .tt ∨ a = .ff
    · rw [if_pos h2]
      rcases h2 with h | h <;> subst h <;> simp [expr.holds]
    · rw [if_neg h2]
      rfl

/-- C6. Provided the disjunction of the primitive folds constants and means
disjunction, for every `DisjointExpr` `m`, every value `v` and all domains `d1`, `d2`,
under every assignment to the free variables the fold of `m` after `add(v, d1)` followed
by `add(v, d2)` has the same value as the fold of `m` after the single call
`add(v, d1 || d2)` (both folds yield no value together). When `v` is already a key and
the new domain is neither constant, the stored domain becomes the disjunction of the
old and the new domain, and the other bindings are unchanged. -/
theorem C6_add_same_key_twice {T E V : Type} [LinearOrder T] (ops : ExprOps E)
    (mkIf : E → T → T → T) (hlaws : ops.OrFoldsConstants) (sem : FoldSem E T V ops mkIf)
    (hor : ∀ a b, sem.holds (ops.or a b) = (sem.holds a || sem.holds b))
    (m : DisjointExpr T E) (v : T) (d1 d2 : E) :
    (DisjointExpr.call ops mkIf ((m.add ops v d1).add ops v d2)).map sem.value
        = (DisjointExpr.call ops mkIf (m.add ops v (ops.or d1 d2))).map sem.value ∧
      ∀ old d, KeySorted DisjointExpr.key_lt m.vals → (v, old) ∈ m.vals →
        ops.isTrue d = false → ops.isFalse d = false →
        (m.add ops v d).vals =
          m.vals.map (fun x => if x.1 = v then (x.1, ops.or x.2 d) else x) :=
  ⟨DisjointExpr.call_add_twice_value ops mkIf hlaws sem hor m v d1 d2,
    fun old d hs hv ht hf => DisjointExpr.add_of_key ops m v old d hs hv ht hf⟩

/-- C6, witness: the key `var 2`, already bound under the domain `var 11` in the map
that also holds `(var 1, var 10)`, is added under `var 12` and then under `var 13`,
with the assignment that makes `var 13` alone true: both folds have the value 2. -/
theorem C6_add_same_key_twice_witness :
    expr.ops.OrFoldsConstants ∧
      (∀ a b, (expr.ops.or a b).holds (fun i => decide (i = 13)) =
        (a.holds (fun i => decide (i = 13)) || b.holds (fun i => decide (i = 13)))) ∧
      (DisjointExpr.call expr.ops expr.ite
          (@DisjointExpr.add _ _ expr.code_order expr.ops
            (@DisjointExpr.add _ _ expr.code_order expr.ops
              ⟨[(expr.var 1, expr.var 10), (expr.var 2, expr.var 11)], none⟩
              (expr.var 2) (expr.var 12))
            (expr.var 2) (expr.var 13))).map (expr.value (fun i => decide (i = 13)))
        = (DisjointExpr.call expr.ops expr.ite
          (@DisjointExpr.add _ _ expr.code_order expr.ops
            ⟨[(expr.var 1, expr.var 10), (expr.var 2, expr.var 11)], none⟩ (expr.var 2)
            (expr.ops.or (expr.var 12) (expr.var 13)))).map
              (expr.value (fun i => decide (i = 13))) ∧
      (DisjointExpr.call expr.ops expr.ite
          (@DisjointExpr.add _ _ expr.code_order expr.ops
            (@DisjointExpr.add _ _ expr.code_order expr.ops
              ⟨[(expr.var 1, expr.var 10), (expr.var 2, expr.var 11)], none⟩
              (expr.var 2) (expr.var 12))
            (expr.var 2) (expr.var 13))).map (expr.value (fun i => decide (i = 13)))
        = some 2 :=
  ⟨expr.ops_or_folds_constants, expr.holds_or_pair _,
    (@C6_add_same_key_twice _ _ _ expr.code_order expr.ops expr.ite
      expr.ops_or_folds_constants (expr.fold_sem (fun i => decide (i = 13)))
      (expr.holds_or_pair _)
      ⟨[(expr.var 1, expr.var 10), (expr.var 2, expr.var 11)], none⟩ (expr.var 2)
      (expr.var 12) (expr.var 13)).1,
    by decide⟩

/-! ## The node map in key order (the C++20 branch): interning of leaves -/

section MapSpec

variable {K V : Type}

theorem map_try_emplace_inserted (lt : K → K → Bool) (l : List (K × V)) (key : K) (args : V) :
    (map_try_emplace lt l key args).2.2 = (map_find lt l key).isNone := by
  induction l with
  | nil => rfl
  | cons y rest ih =>
    obtain ⟨k, x⟩ := y
    rw [map_try_emplace_cons]
    by_cases h1 : lt k key = true
    · simp [h1, map_find, ih]
    · by_cases h2 : lt key k = true <;> simp [h1, h2, map_find]

theorem map_try_emplace_found (lt : K → K → Bool) (l : List (K × V)) (key : K) (args x : V)
    (h : map_find lt l key = some x) :
    (map_try_emplace lt l key args).1 = l ∧
      second_at l (map_try_emplace lt l key args).2.1 = some x := by
  induction l with
  | nil => simp [map_find] at h
  | cons y rest ih =>
    obtain ⟨k, x1⟩ := y
    rw [map_try_emplace_cons]
    by_cases h1 : lt k key = true
    · simp only [map_find, h1, if_true, Bool.false_eq_true, ↓reduceIte] at h
      simp only [h1, if_true, (ih h).1, true_and, Bool.false_eq_true, ↓reduceIte]
      simpa [second_at] using (ih h).2
    · by_cases h2 : lt key k = true
      · simp [map_find, h1, h2] at h
      · simp only [map_find, h1, h2, if_false, Option.some.injEq, Bool.false_eq_true, ↓reduceIte] at h
        simp [h1, h2, second_at, h]

theorem map_try_emplace_fresh (lt : K → K → Bool) (l : List (K × V)) (key : K) (args : V)
    (h : map_find lt l key = none) (f : V → V) :
    (map_try_emplace lt l key args).1 = ordered_insert lt key args l ∧
      second_at (map_try_emplace lt l key args).1 (map_try_emplace lt l key args).2.1
        = some args ∧
      update_second f (map_try_emplace lt l key args).1 (map_try_emplace lt l key args).2.1
        = ordered_insert lt key (f args) l := by
  induction l with
  | nil => simp [map_try_emplace_nil, ordered_insert, second_at, update_second]
  | cons y rest ih =>
    obtain ⟨k, x1⟩ := y
    rw [map_try_emplace_cons]
    by_cases h1 : lt k key = true
    · simp only [map_find, h1, if_true, Bool.false_eq_true, ↓reduceIte] at h
      obtain ⟨ih1, ih2, ih3⟩ := ih h
      simp only [h1, if_true, ordered_insert, ih1, update_second, true_and, Bool.false_eq_true, ↓reduceIte]
      refine ⟨?_, ?_⟩
      · simpa [second_at, ih1] using ih2
      · rw [← ih3, ih1]
    · by_cases h2 : lt key k = true
      · simp [h1, h2, ordered_insert, second_at, update_second]
      · simp [map_find, h1, h2] at h

end MapSpec

namespace EGraph

theorem get_node_eq [LinearOrder expr] (g : EGraph) (n : Node) :
    g.get_node n =
      match map_find Node.lt g.nodes n with
      | some id => (id, g)
      | none =>
        (g.uf.id.length,
          ⟨⟨g.uf.id ++ [g.uf.id.length]⟩, ordered_insert Node.lt n g.uf.id.length g.nodes⟩) := by
  unfold get_node
  cases hf : map_find Node.lt g.nodes n with
  | none =>
    have hi := map_try_emplace_inserted Node.lt g.nodes n 0
    have hfr := map_try_emplace_fresh Node.lt g.nodes n 0 hf (fun _ => g.uf.id.length)
    rw [hf] at hi
    simp only [Option.isNone_none] at hi
    simp only [hi, if_true, UnionFind.mk, hfr.2.2]
  | some id =>
    have hi := map_try_emplace_inserted Node.lt g.nodes n 0
    have hfo := map_try_emplace_found Node.lt g.nodes n 0 id hf
    rw [hf] at hi
    simp only [Option.isNone_some] at hi
    simp only [hi, Bool.false_eq_true, if_false, hfo.1, hfo.2, Option.getD_some]

end EGraph

namespace EGraph

theorem get_loop_leaf [LinearOrder expr] (Reassoc : Nat) (e : expr) (he : e.is_leaf = true) (flags : Nat)
    (g : EGraph) :
    get_loop Reassoc e flags g = g.get_node ⟨.Leaf, 0, 0, e, .null, flags⟩ := by
  cases e <;> simp [expr.is_leaf] at he <;> simp [get_loop]

end EGraph

theorem float_refined_eq [LinearOrder expr] (Reassoc fuel : Nat) (a b : expr) :
    float_refined Reassoc fuel a b =
      if (EGraph.empty.get Reassoc a).1 = ((EGraph.empty.get Reassoc a).2.get Reassoc b).1 then
        some true
      else
        match ((EGraph.empty.get Reassoc a).2.get Reassoc b).2.saturate fuel with
        | none => none
        | some g3 =>
          if (g3.uf.find (EGraph.empty.get Reassoc a).1).1 =
              ((g3.uf.find (EGraph.empty.get Reassoc a).1).2.find
                ((EGraph.empty.get Reassoc a).2.get Reassoc b).1).1 then some true
          else some false := rfl

/-! ## Lemmas on the integer logarithms -/

theorem clz_loop_lt (k x : Nat) (h : x % 2 ^ k ≠ 0) : clz_loop k x < k := by
  induction k with
  | zero => simp [Nat.mod_one] at h
  | succ k ih =>
    rw [clz_loop]
    split
    · omega
    · rename_i hb
      have hk : x % 2 ^ k ≠ 0 := by
        intro h0
        apply h
        rw [Nat.mod_pow_succ, h0]
        have : x / 2 ^ k % 2 = 0 := by omega
        rw [this]
        simp
      have := ih hk
      omega

theorem ilog2_ceil_selector (n : Nat) (h0 : 0 < n) (h : n < 2 ^ 32) :
    ∃ bits, ilog2_ceil n false = some bits ∧ 32 ≤ bits := by
  have hm : n % 2 ^ 32 = n := Nat.mod_eq_of_lt h
  have hne : n % 2 ^ 32 ≠ 0 := by omega
  have hclz := clz_loop_lt 32 (n % 2 ^ 32) (by rw [Nat.mod_mod]; exact hne)
  have hn0 : n ≠ 0 := by omega
  simp only [ilog2_ceil, ilog2, details.bit_width, builtin_clz, if_neg hne, if_neg hn0,
    Option.map_some']
  refine ⟨_, rfl, ?_⟩
  split <;> omega

/-! ## Lemmas on `ChoiceExpr` -/

namespace ChoiceExpr

variable {T E V : Type}

theorem holds_cmp (ops : ChoiceOps E) (mkIf : E → T → T → T) (sem : ChoiceSem E T V ops mkIf)
    (bits q n : Nat) (hq : q < 2 ^ bits) (hn : n < 2 ^ bits) :
    sem.holds q (ops.eq_uint (ops.mkFreshVar bits) n) = decide (q = n) := by
  rw [sem.holds_eq_uint, Nat.mod_eq_of_lt hq, Nat.mod_eq_of_lt hn]

theorem reverse_cons_get (x : T × E) (rest : List (T × E)) (q : Nat) :
    (x :: rest).reverse[q]? =
      if q < rest.length then rest.reverse[q]? else if q = rest.length then some x else none := by
  rw [List.reverse_cons]
  by_cases h1 : q < rest.length
  · rw [if_pos h1, List.getElem?_append_left (by simpa using h1)]
  · rw [if_neg h1, List.getElem?_append_right (by simpa using h1)]
    by_cases h2 : q = rest.length
    · subst h2; simp
    · rw [if_neg h2]
      have : q - rest.reverse.length ≠ 0 := by simp; omega
      cases hk : q - rest.reverse.length with
      | zero => exact absurd hk this
      | succ k => simp

theorem call_loop_pre (ops : ChoiceOps E) (mkIf : E → T → T → T)
    (sem : ChoiceSem E T V ops mkIf) (bits q : Nat) (hq : q < 2 ^ bits) (l : List (T × E)) :
    ∀ (ret : T) (pre : E) (first : Bool), l.length ≤ 2 ^ bits →
      sem.holds q (call_loop ops mkIf (ops.mkFreshVar bits) l l.length ret pre first).2 =
        match l.reverse[q]? with
        | some p => sem.holds q p.2
        | none => sem.holds q pre := by
  induction l with
  | nil => intro ret pre first _; simp [call_loop]
  | cons x rest ih =>
    obtain ⟨v, d⟩ := x
    intro ret pre first hl
    have hl1 : rest.length < 2 ^ bits := by simp at hl; omega
    simp only [call_loop, List.length_cons, Nat.add_sub_cancel]
    rw [ih _ _ _ (by omega), reverse_cons_get]
    by_cases h1 : q < rest.length
    · rw [if_pos h1]
      have hlt : q < rest.reverse.length := by simpa using h1
      rw [List.getElem?_eq_getElem hlt]
    · rw [if_neg h1]
      have hnone : rest.reverse[q]? = none := by
        rw [List.getElem?_eq_none_iff]; simp; omega
      rw [hnone]
      simp only [sem.holds_mkIf, holds_cmp ops mkIf sem bits q rest.length hq hl1,
        decide_eq_true_eq]
      by_cases h2 : q = rest.length
      · rw [if_pos h2, if_pos h2]
      · rw [if_neg h2, if_neg h2]

theorem call_loop_ret (ops : ChoiceOps E) (mkIf : E → T → T → T)
    (sem : ChoiceSem E T V ops mkIf) (bits q : Nat) (hq : q < 2 ^ bits) (l : List (T × E)) :
    ∀ (ret : T) (pre : E), l.length ≤ 2 ^ bits →
      sem.value q (call_loop ops mkIf (ops.mkFreshVar bits) l l.length ret pre false).1 =
        match l.reverse[q]? with
        | some p => sem.value q p.1
        | none => sem.value q ret := by
  induction l with
  | nil => intro ret pre _; simp [call_loop]
  | cons x rest ih =>
    obtain ⟨v, d⟩ := x
    intro ret pre hl
    have hl1 : rest.length < 2 ^ bits := by simp at hl; omega
    simp only [call_loop, List.length_cons, Nat.add_sub_cancel]
    rw [ih _ _ (by omega), reverse_cons_get]
    by_cases h1 : q < rest.length
    · rw [if_pos h1]
      have hlt : q < rest.reverse.length := by simpa using h1
      rw [List.getElem?_eq_getElem hlt]
    · rw [if_neg h1]
      have hnone : rest.reverse[q]? = none := by
        rw [List.getElem?_eq_none_iff]; simp; omega
      rw [hnone]
      simp only [Bool.false_eq_true, ↓reduceIte, sem.value_mkIf,
        holds_cmp ops mkIf sem bits q rest.length hq hl1, decide_eq_true_eq]
      by_cases h2 : q = rest.length
      · rw [if_pos h2, if_pos h2]
      · rw [if_neg h2, if_neg h2]

end ChoiceExpr

namespace ChoiceExpr

variable {T E V : Type}

theorem call_eq [Inhabited T] (ops : ChoiceOps E) (mkIf : E → T → T → T) (c : ChoiceExpr T E)
    (h2 : 2 ≤ c.vals.length) (hs : c.vals.length + 1 < 2 ^ 32) :
    ∃ bits, 32 ≤ bits ∧ c.call ops mkIf =
      some ((call_loop ops mkIf (ops.mkFreshVar bits) c.vals c.vals.length default
          (ops.not (c.domain ops)) true).1, c.domain ops, ops.mkFreshVar bits,
        (call_loop ops mkIf (ops.mkFreshVar bits) c.vals c.vals.length default
          (ops.not (c.domain ops)) true).2) := by
  obtain ⟨bits, hb, hbits⟩ := ilog2_ceil_selector (c.vals.length + 1) (by omega) hs
  refine ⟨bits, hbits, ?_⟩
  obtain ⟨vals⟩ := c
  match vals, h2 with
  | x :: y :: rest, _ =>
    simp only [call, List.length_cons] at hb ⊢
    rw [hb]

theorem call_loop_select (ops : ChoiceOps E) (mkIf : E → T → T → T)
    (sem : ChoiceSem E T V ops mkIf) (bits q : Nat) (hq : q < 2 ^ bits) (x : T × E)
    (rest : List (T × E)) (hl : (x :: rest).length ≤ 2 ^ bits) (p : T × E)
    (hp : (x :: rest).reverse[q]? = some p) (ret0 : T) (pre0 : E) :
    sem.holds q (call_loop ops mkIf (ops.mkFreshVar bits) (x :: rest) (x :: rest).length
        ret0 pre0 true).2 = sem.holds q p.2 ∧
      sem.value q (call_loop ops mkIf (ops.mkFreshVar bits) (x :: rest) (x :: rest).length
        ret0 pre0 true).1 = sem.value q p.1 := by
  constructor
  · rw [call_loop_pre ops mkIf sem bits q hq _ _ _ _ hl, hp]
  · obtain ⟨v, d⟩ := x
    have hl1 : rest.length ≤ 2 ^ bits := by simp at hl; omega
    simp only [call_loop, List.length_cons, Nat.add_sub_cancel, ↓reduceIte]
    rw [call_loop_ret ops mkIf sem bits q hq _ _ _ hl1]
    rw [reverse_cons_get] at hp
    by_cases h1 : q < rest.length
    · rw [if_pos h1] at hp
      rw [hp]
    · rw [if_neg h1] at hp
      have hnone : rest.reverse[q]? = none := by
        rw [List.getElem?_eq_none_iff]; simp; omega
      rw [hnone]
      by_cases h2 : q = rest.length
      · rw [if_pos h2] at hp
        cases hp
        rfl
      · rw [if_neg h2] at hp
        cases hp

theorem call_loop_out (ops : ChoiceOps E) (mkIf : E → T → T → T)
    (sem : ChoiceSem E T V ops mkIf) (bits q : Nat) (hq : q < 2 ^ bits)
    (l : List (T × E)) (hl : l.length ≤ 2 ^ bits) (hout : l.length ≤ q) (ret0 : T) (pre0 : E) :
    sem.holds q (call_loop ops mkIf (ops.mkFreshVar bits) l l.length ret0 pre0 true).2 =
      sem.holds q pre0 := by
  rw [call_loop_pre ops mkIf sem bits q hq _ _ _ _ hl]
  have hnone : l.reverse[q]? = none := by
    rw [List.getElem?_eq_none_iff]; simp; omega
  rw [hnone]

theorem holds_domain (ops : ChoiceOps E) (mkIf : E → T → T → T)
    (sem : ChoiceSem E T V ops mkIf) (c : ChoiceExpr T E) (q : Nat) :
    sem.holds q (c.domain ops) = c.vals.any (fun p => sem.holds q p.2) := by
  rw [domain, sem.holds_mk_or]
  induction c.vals with
  | nil => rfl
  | cons x rest ih => simp only [List.map_cons, List.any_cons, ih]

theorem mem_reverse_get (l : List (T × E)) (p : T × E) (hp : p ∈ l) :
    ∃ q, q < l.length ∧ l.reverse[q]? = some p := by
  have hp1 : p ∈ l.reverse := List.mem_reverse.mpr hp
  obtain ⟨q, hq, hget⟩ := List.getElem_of_mem hp1
  refine ⟨q, by simpa using hq, ?_⟩
  rw [List.getElem?_eq_getElem hq, hget]

theorem reverse_get_mem (l : List (T × E)) (p : T × E) (q : Nat)
    (hp : l.reverse[q]? = some p) : p ∈ l ∧ q < l.length := by
  obtain ⟨hq, hget⟩ := List.getElem?_eq_some_iff.mp hp
  refine ⟨?_, by simpa using hq⟩
  rw [← List.mem_reverse, ← hget]
  exact List.getElem_mem _

end ChoiceExpr

namespace ChoiceExpr

variable {T E V : Type}

theorem collapse_sem [Inhabited T] (ops : ChoiceOps E) (mkIf : E → T → T → T)
    (sem : ChoiceSem E T V ops mkIf) (c : ChoiceExpr T E) (bits : Nat)
    (hN : 2 ≤ c.vals.length) (hlen : c.vals.length < 2 ^ bits) (hfresh : sem.Fresh c.vals) :
    (∀ q, sem.holds q (c.domain ops) = c.vals.any (fun p => sem.holds 0 p.2)) ∧
      (∀ q p, q < 2 ^ bits → c.vals.reverse[q]? = some p →
        sem.holds q (call_loop ops mkIf (ops.mkFreshVar bits) c.vals c.vals.length default
            (ops.not (c.domain ops)) true).2 = sem.holds 0 p.2 ∧
          sem.value q (call_loop ops mkIf (ops.mkFreshVar bits) c.vals c.vals.length default
            (ops.not (c.domain ops)) true).1 = sem.value 0 p.1) ∧
      (∀ q, q < 2 ^ bits → c.vals.length ≤ q →
        sem.holds q (call_loop ops mkIf (ops.mkFreshVar bits) c.vals c.vals.length default
            (ops.not (c.domain ops)) true).2 = !sem.holds q (c.domain ops)) := by
  refine ⟨?_, ?_, ?_⟩
  · intro q
    rw [holds_domain ops mkIf sem c q]
    have hany : ∀ l : List (T × E), sem.Fresh l →
        l.any (fun p => sem.holds q p.2) = l.any (fun p => sem.holds 0 p.2) := by
      intro l hl
      induction l with
      | nil => rfl
      | cons x rest ih =>
        simp only [List.any_cons]
        rw [ih (fun p hp => hl p (List.mem_cons_of_mem _ hp)),
          (hl x (List.mem_cons_self _ _) q 0).1]
    exact hany c.vals hfresh
  · intro q p hq hget
    obtain ⟨hmem, _⟩ := reverse_get_mem _ _ _ hget
    obtain ⟨vals⟩ := c
    match vals, hN with
    | x :: rest, _ =>
      obtain ⟨h1, h2⟩ := call_loop_select ops mkIf sem bits q hq x rest (by simp at hlen ⊢; omega)
        p hget default (ops.not (domain ops ⟨x :: rest⟩))
      exact ⟨h1.trans (hfresh p hmem q 0).1, h2.trans (hfresh p hmem q 0).2⟩
  · intro q hq hout
    rw [call_loop_out ops mkIf sem bits q hq c.vals (by omega) hout, sem.holds_not]

theorem collapse_spec [Inhabited T] (ops : ChoiceOps E) (mkIf : E → T → T → T)
    (sem : ChoiceSem E T V ops mkIf) (c : ChoiceExpr T E)
    (hN : 2 ≤ c.vals.length) (hsize : c.vals.length + 1 < 2 ^ 32) (hfresh : sem.Fresh c.vals) :
    ∃ ret dom bits pre, c.call ops mkIf = some (ret, dom, ops.mkFreshVar bits, pre) ∧
      c.vals.length < 2 ^ bits ∧
      (∀ q, sem.holds q dom = c.vals.any (fun p => sem.holds 0 p.2)) ∧
      (∀ q p, q < 2 ^ bits → c.vals.reverse[q]? = some p →
        sem.holds q pre = sem.holds 0 p.2 ∧ sem.value q ret = sem.value 0 p.1) ∧
      (∀ q, q < 2 ^ bits → c.vals.length ≤ q → sem.holds q pre = !sem.holds q dom) := by
  obtain ⟨bits, hb, hcall⟩ := call_eq ops mkIf c hN hsize
  have hpow : 2 ^ 32 ≤ 2 ^ bits := Nat.pow_le_pow_right (by omega) hb
  have hlen : c.vals.length < 2 ^ bits := by omega
  exact ⟨_, _, bits, _, hcall, hlen, collapse_sem ops mkIf sem c bits hN hlen hfresh⟩

end ChoiceExpr

/-! ## Claims on `ChoiceExpr` -/

/-- C11. For every `ChoiceExpr` with `N ≥ 2` bindings (`N + 1 < 2^32`, the range of the
`unsigned` counter), whose stored domains and values do not mention the fresh selector,
the collapse returns a tuple `(ret, dom, qvar, pre)` with `qvar` a fresh variable of some
width `bits`, `N < 2^bits`, such that under every assignment to the free variables:
if at least one stored domain holds, the values taken by `ret` over the selector values
`q < 2^bits` that satisfy `pre` are exactly the values of the bindings whose domain
holds; and if no stored domain holds, `pre` is satisfied exactly by the selector values
`q ≥ N`. -/
theorem C11_collapse_encodes_choices {T E V : Type} [Inhabited T] (ops : ChoiceOps E)
    (mkIf : E → T → T → T) (sem : ChoiceSem E T V ops mkIf) (c : ChoiceExpr T E)
    (hN : 2 ≤ c.vals.length) (hsize : c.vals.length + 1 < 2 ^ 32) (hfresh : sem.Fresh c.vals) :
    ∃ ret dom bits pre, c.call ops mkIf = some (ret, dom, ops.mkFreshVar bits, pre) ∧
      c.vals.length < 2 ^ bits ∧
      ((∃ p ∈ c.vals, sem.holds 0 p.2 = true) →
        ∀ v, (∃ q, q < 2 ^ bits ∧ sem.holds q pre = true ∧ sem.value q ret = v) ↔
          (∃ p ∈ c.vals, sem.holds 0 p.2 = true ∧ sem.value 0 p.1 = v)) ∧
      ((∀ p ∈ c.vals, sem.holds 0 p.2 = false) →
        ∀ q, q < 2 ^ bits → (sem.holds q pre = true ↔ c.vals.length ≤ q)) := by
  obtain ⟨ret, dom, bits, pre, hcall, hlen, hdom, hin, hout⟩ :=
    ChoiceExpr.collapse_spec ops mkIf sem c hN hsize hfresh
  refine ⟨ret, dom, bits, pre, hcall, hlen, ?_, ?_⟩
  · rintro ⟨p0, hp0, hh0⟩ v
    have hd : ∀ q, sem.holds q dom = true := by
      intro q
      rw [hdom q, List.any_eq_true]
      exact ⟨p0, hp0, hh0⟩
    constructor
    · rintro ⟨q, hq, hpre, hval⟩
      cases hget : c.vals.reverse[q]? with
      | none =>
        have hge : c.vals.length ≤ q := by
          have := List.getElem?_eq_none_iff.mp hget
          simpa using this
        rw [hout q hq hge, hd q] at hpre
        cases hpre
      | some p =>
        obtain ⟨h1, h2⟩ := hin q p hq hget
        exact ⟨p, (ChoiceExpr.reverse_get_mem _ _ _ hget).1, h1 ▸ hpre, h2 ▸ hval⟩
    · rintro ⟨p, hmem, hh, hval⟩
      obtain ⟨q, hq, hget⟩ := ChoiceExpr.mem_reverse_get _ p hmem
      obtain ⟨h1, h2⟩ := hin q p (by omega) hget
      exact ⟨q, by omega, h1.trans hh, h2.trans hval⟩
  · intro hnone q hq
    have hd : sem.holds q dom = false := by
      rw [hdom q, List.any_eq_false]
      intro p hp
      rw [hnone p hp]
      simp
    constructor
    · intro hpre
      by_contra hlt
      have hlt1 : q < c.vals.length := by omega
      obtain ⟨p, hget⟩ : ∃ p, c.vals.reverse[q]? = some p :=
        ⟨_, List.getElem?_eq_getElem (by simpa using hlt1)⟩
      rw [(hin q p hq hget).1, hnone p (ChoiceExpr.reverse_get_mem _ _ _ hget).1] at hpre
      cases hpre
    · intro hge
      rw [hout q hq hge, hd]
      rfl

/-- C11, witness: the bindings `(1, x0)` and `(2, x1)` under the assignment that makes
`x0` true and `x1` false. -/
theorem C11_collapse_encodes_choices_witness :
    2 ≤ (⟨[(bvexpr.num 1, bvexpr.var 0), (bvexpr.num 2, bvexpr.var 1)]⟩ :
        ChoiceExpr bvexpr bvexpr).vals.length ∧
      (bvexpr.sem (fun i => decide (i = 0))).Fresh
        [(bvexpr.num 1, bvexpr.var 0), (bvexpr.num 2, bvexpr.var 1)] ∧
      ∃ ret dom bits pre,
        ChoiceExpr.call bvexpr.ops bvexpr.ite
          ⟨[(bvexpr.num 1, bvexpr.var 0), (bvexpr.num 2, bvexpr.var 1)]⟩ =
            some (ret, dom, bvexpr.ops.mkFreshVar bits, pre) ∧
        2 < 2 ^ bits ∧
        ((∃ p ∈ [(bvexpr.num 1, bvexpr.var 0), (bvexpr.num 2, bvexpr.var 1)],
            p.2.holds (fun i => decide (i = 0)) 0 = true) →
          ∀ v, (∃ q, q < 2 ^ bits ∧ pre.holds (fun i => decide (i = 0)) q = true ∧
              ret.value (fun i => decide (i = 0)) q = v) ↔
            (∃ p ∈ [(bvexpr.num 1, bvexpr.var 0), (bvexpr.num 2, bvexpr.var 1)],
              p.2.holds (fun i => decide (i = 0)) 0 = true ∧
                p.1.value (fun i => decide (i = 0)) 0 = v)) ∧
        ((∀ p ∈ [(bvexpr.num 1, bvexpr.var 0), (bvexpr.num 2, bvexpr.var 1)],
            p.2.holds (fun i => decide (i = 0)) 0 = false) →
          ∀ q, q < 2 ^ bits → (pre.holds (fun i => decide (i = 0)) q = true ↔ 2 ≤ q)) :=
  ⟨by decide,
    fun p hp q q1 => by
      simp only [List.mem_cons, List.mem_singleton, List.not_mem_nil, or_false] at hp
      rcases hp with rfl | rfl <;> exact ⟨rfl, rfl⟩,
    C11_collapse_encodes_choices bvexpr.ops bvexpr.ite (bvexpr.sem (fun i => decide (i = 0)))
      ⟨[(bvexpr.num 1, bvexpr.var 0), (bvexpr.num 2, bvexpr.var 1)]⟩ (by decide) (by decide)
      (fun p hp q q1 => by
        simp only [List.mem_cons, List.mem_singleton, List.not_mem_nil, or_false] at hp
        rcases hp with rfl | rfl <;> exact ⟨rfl, rfl⟩)⟩

namespace ChoiceExpr

variable {T E : Type}

theorem choice_add_vals [LinearOrder T] (ops : ExprOps E) (c : ChoiceExpr T E) (val : T)
    (domain : E) :
    (c.add ops val domain).vals =
      if ops.isFalse domain then c.vals
      else DisjointExpr.insert_or ops val domain c.vals := by
  unfold add
  by_cases hf : ops.isFalse domain = true
  · simp [hf]
  · simp only [hf, if_false]
    rw [← DisjointExpr.emplace_eq_insert_or]
    by_cases hi : (map_try_emplace DisjointExpr.key_lt c.vals val domain).2.2 = true <;>
      simp [hi]

theorem add_mem_other [LinearOrder T] (ops : ExprOps E) (c : ChoiceExpr T E) (v : T) (d : E)
    (k : T) (e : E) (hk : k ≠ v) : (k, e) ∈ (c.add ops v d).vals ↔ (k, e) ∈ c.vals := by
  rw [choice_add_vals]
  split
  · exact Iff.rfl
  · exact ⟨DisjointExpr.insert_or_mem_back ops v d c.vals k e hk,
      DisjointExpr.insert_or_mem_forth ops v d c.vals k e hk⟩

theorem add_three [LinearOrder T] (ops : ExprOps E) (v1 v2 v3 : T) (d1 d2 d3 : E)
    (h12 : v1 ≠ v2) (h13 : v1 ≠ v3) (h23 : v2 ≠ v3) (hd1 : ops.isFalse d1 = false)
    (hd2 : ops.isFalse d2 = false) (hd3 : ops.isFalse d3 = false) :
    (v1, d1) ∈ (((empty.add ops v1 d1).add ops v2 d2).add ops v3 d3).vals ∧
      (v2, d2) ∈ (((empty.add ops v1 d1).add ops v2 d2).add ops v3 d3).vals ∧
      (v3, d3) ∈ (((empty.add ops v1 d1).add ops v2 d2).add ops v3 d3).vals ∧
      (((empty.add ops v1 d1).add ops v2 d2).add ops v3 d3).vals.length = 3 := by
  have e1 : (empty.add ops v1 d1).vals = [(v1, d1)] := by
    rw [choice_add_vals, hd1]; rfl
  have e2 : ((empty.add ops v1 d1).add ops v2 d2).vals =
      if v1 < v2 then [(v1, d1), (v2, d2)] else [(v2, d2), (v1, d1)] := by
    rw [choice_add_vals, hd2, e1]
    simp only [Bool.false_eq_true, if_false, DisjointExpr.insert_or]
    rcases lt_trichotomy v1 v2 with h | h | h
    · simp [h]
    · exact absurd h h12
    · simp [h, not_lt_of_gt h]
  have e3 : (((empty.add ops v1 d1).add ops v2 d2).add ops v3 d3).vals =
      DisjointExpr.insert_or ops v3 d3 ((empty.add ops v1 d1).add ops v2 d2).vals := by
    rw [choice_add_vals, hd3]; rfl
  rw [e3, e2]
  rcases lt_trichotomy v1 v2 with a | a | a
  · rcases lt_trichotomy v1 v3 with b | b | b
    · rcases lt_trichotomy v2 v3 with c | c | c
      · simp [DisjointExpr.insert_or, a, b, c]
      · exact absurd c h23
      · simp [DisjointExpr.insert_or, a, b, c, not_lt_of_gt c]
    · exact absurd b h13
    · simp [DisjointExpr.insert_or, a, b, not_lt_of_gt b]
  · exact absurd a h12
  · rcases lt_trichotomy v2 v3 with c | c | c
    · rcases lt_trichotomy v1 v3 with b | b | b
      · simp [DisjointExpr.insert_or, not_lt_of_gt a, b, c]
      · exact absurd b h13
      · simp [DisjointExpr.insert_or, not_lt_of_gt a, b, c, not_lt_of_gt b]
    · exact absurd c h23
    · simp [DisjointExpr.insert_or, not_lt_of_gt a, c, not_lt_of_gt c]

end ChoiceExpr

/-- C12. A `ChoiceExpr` to which exactly one pair `(v, d)` has been added, `d` not the
constant false (which `add` discards), holds the single binding `(v, d)`, and the
collapse returns the tuple `(v, d, expr(), true)`: value and domain verbatim, the empty
expression as the selector and the constant true as the precondition. -/
theorem C12_single_binding_collapse {T E : Type} [LinearOrder T] [Inhabited T]
    (ops : ChoiceOps E) (mkIf : E → T → T → T) (v : T) (d : E)
    (hd : ops.isFalse d = false) :
    (ChoiceExpr.empty.add ops.toExprOps v d).vals = [(v, d)] ∧
      (ChoiceExpr.empty.add ops.toExprOps v d).call ops mkIf =
        some (v, d, ops.null, ops.mkTrue) := by
  have e1 : (ChoiceExpr.empty.add ops.toExprOps v d).vals = [(v, d)] := by
    rw [ChoiceExpr.choice_add_vals, hd]; rfl
  refine ⟨e1, ?_⟩
  unfold ChoiceExpr.call
  rw [e1]

/-- C12, witness: the pair `(1, x0)`. -/
theorem C12_single_binding_collapse_witness :
    bvexpr.ops.isFalse (bvexpr.var 0) = false ∧
      (@ChoiceExpr.add bvexpr bvexpr bvexpr.code_order bvexpr.ops.toExprOps ChoiceExpr.empty
          (bvexpr.num 1) (bvexpr.var 0)).call bvexpr.ops bvexpr.ite =
        some (bvexpr.num 1, bvexpr.var 0, bvexpr.null, bvexpr.tt) :=
  ⟨by decide,
    (@C12_single_binding_collapse bvexpr bvexpr bvexpr.code_order _ bvexpr.ops bvexpr.ite
      (bvexpr.num 1) (bvexpr.var 0) (by decide)).2⟩

/-- C16. `ChoiceExpr::add` has no absorbing behaviour: for every `ChoiceExpr` `c`,
`add(v, d)` keeps exactly the bindings of the keys other than `v`, each with its
domain, whatever `d` is (the constant true included); and after adding three pairs with
pairwise distinct values and non-false domains to an empty `ChoiceExpr`, the three
bindings are its entries, each with the domain it was added with. -/
theorem C16_add_keeps_other_bindings {T E : Type} [LinearOrder T] (ops : ExprOps E)
    (v1 v2 v3 : T) (d1 d2 d3 : E)
    (h12 : v1 ≠ v2) (h13 : v1 ≠ v3) (h23 : v2 ≠ v3) (hd1 : ops.isFalse d1 = false)
    (hd2 : ops.isFalse d2 = false) (hd3 : ops.isFalse d3 = false) :
    (∀ (c : ChoiceExpr T E) (v : T) (d : E) (k : T) (e : E), k ≠ v →
        ((k, e) ∈ (c.add ops v d).vals ↔ (k, e) ∈ c.vals)) ∧
      (v1, d1) ∈ (((ChoiceExpr.empty.add ops v1 d1).add ops v2 d2).add ops v3 d3).vals ∧
      (v2, d2) ∈ (((ChoiceExpr.empty.add ops v1 d1).add ops v2 d2).add ops v3 d3).vals ∧
      (v3, d3) ∈ (((ChoiceExpr.empty.add ops v1 d1).add ops v2 d2).add ops v3 d3).vals ∧
      (((ChoiceExpr.empty.add ops v1 d1).add ops v2 d2).add ops v3 d3).vals.length = 3 :=
  ⟨fun c v d k e hk => ChoiceExpr.add_mem_other ops c v d k e hk,
    ChoiceExpr.add_three ops v1 v2 v3 d1 d2 d3 h12 h13 h23 hd1 hd2 hd3⟩

/-- C16, witness: the pairs `(1, x0)`, `(2, true)` and `(3, x1)`, the second with the
constant true as its domain. -/
theorem C16_add_keeps_other_bindings_witness :
    bvexpr.ops.isTrue bvexpr.tt = true ∧
      (@ChoiceExpr.add bvexpr bvexpr bvexpr.code_order bvexpr.ops.toExprOps
        (@ChoiceExpr.add bvexpr bvexpr bvexpr.code_order bvexpr.ops.toExprOps
          (@ChoiceExpr.add bvexpr bvexpr bvexpr.code_order bvexpr.ops.toExprOps
            ChoiceExpr.empty (bvexpr.num 1) (bvexpr.var 0))
          (bvexpr.num 2) bvexpr.tt)
        (bvexpr.num 3) (bvexpr.var 1)).vals.length = 3 :=
  ⟨by decide,
    (@C16_add_keeps_other_bindings bvexpr bvexpr bvexpr.code_order bvexpr.ops.toExprOps
      (bvexpr.num 1) (bvexpr.num 2) (bvexpr.num 3) (bvexpr.var 0) bvexpr.tt (bvexpr.var 1)
      (by decide) (by decide) (by decide) (by decide) (by decide) (by decide)).2.2.2.2⟩

namespace ChoiceExpr

variable {T E V : Type}

theorem collapse_two [Inhabited T] (ops : ChoiceOps E) (mkIf : E → T → T → T)
    (v1 v2 : T) (d1 d2 : E) :
    ∃ ret dom bits pre,
      call ops mkIf ⟨[(v1, d1), (v2, d2)]⟩ = some (ret, dom, ops.mkFreshVar bits, pre) ∧
      2 < 2 ^ bits ∧
      ∀ sem : ChoiceSem E T V ops mkIf, sem.Fresh [(v1, d1), (v2, d2)] →
        (sem.holds 0 pre = sem.holds 0 d2 ∧ sem.value 0 ret = sem.value 0 v2) ∧
        (sem.holds 1 pre = sem.holds 0 d1 ∧ sem.value 1 ret = sem.value 0 v1) ∧
        (∀ q, 2 ≤ q → q < 2 ^ bits →
          sem.holds q pre = !(sem.holds 0 d1 || sem.holds 0 d2)) := by
  obtain ⟨bits, hb, hcall⟩ := call_eq ops mkIf ⟨[(v1, d1), (v2, d2)]⟩ (by simp) (by simp)
  have hpow : 2 ^ 32 ≤ 2 ^ bits := Nat.pow_le_pow_right (by omega) hb
  refine ⟨_, _, bits, _, hcall, by omega, ?_⟩
  intro sem hfresh
  obtain ⟨hdom, hin, hout⟩ :=
    collapse_sem ops mkIf sem ⟨[(v1, d1), (v2, d2)]⟩ bits (by simp) (by simp; omega) hfresh
  refine ⟨hin 0 (v2, d2) (by omega) rfl, hin 1 (v1, d1) (by omega) rfl, ?_⟩
  intro q h2 hq
  rw [hout q hq (by simpa using h2), hdom q]
  simp

theorem collapse_two_domain [Inhabited T] (ops : ChoiceOps E) (mkIf : E → T → T → T)
    (v1 v2 : T) (d1 d2 : E) :
    ∃ ret dom bits pre,
      call ops mkIf ⟨[(v1, d1), (v2, d2)]⟩ = some (ret, dom, ops.mkFreshVar bits, pre) ∧
      dom = ops.mk_or [d1, d2] ∧
      2 < 2 ^ bits ∧
      ∀ sem : ChoiceSem E T V ops mkIf, sem.Fresh [(v1, d1), (v2, d2)] →
        (sem.holds 0 pre = sem.holds 0 d2 ∧ sem.value 0 ret = sem.value 0 v2) ∧
        (sem.holds 1 pre = sem.holds 0 d1 ∧ sem.value 1 ret = sem.value 0 v1) ∧
        (∀ q, 2 ≤ q → q < 2 ^ bits →
          sem.holds q pre = !(sem.holds 0 d1 || sem.holds 0 d2)) := by
  obtain ⟨bits, hb, hcall⟩ := call_eq ops mkIf ⟨[(v1, d1), (v2, d2)]⟩ (by simp) (by simp)
  have hpow : 2 ^ 32 ≤ 2 ^ bits := Nat.pow_le_pow_right (by omega) hb
  refine ⟨_, _, bits, _, hcall, rfl, by omega, ?_⟩
  intro sem hfresh
  obtain ⟨hdom, hin, hout⟩ :=
    collapse_sem ops mkIf sem ⟨[(v1, d1), (v2, d2)]⟩ bits (by simp) (by simp; omega) hfresh
  refine ⟨hin 0 (v2, d2) (by omega) rfl, hin 1 (v1, d1) (by omega) rfl, ?_⟩
  intro q h2 hq
  rw [hout q hq (by simpa using h2), hdom q]
  simp

end ChoiceExpr

/-- C14, counterexample. The bindings `(1, x0 ∧ ¬x0)` and `(2, x1 ∧ ¬x1)` are both
stored (neither domain is the constant false); the domains are disjoint and their
disjunction holds under no assignment, yet the precondition of the collapse holds when
the selector has the out-of-range value 2. -/
theorem C14_precondition_out_of_range_cex :
    (@ChoiceExpr.add bvexpr bvexpr bvexpr.code_order bvexpr.ops.toExprOps
        (@ChoiceExpr.add bvexpr bvexpr bvexpr.code_order bvexpr.ops.toExprOps
          ChoiceExpr.empty (bvexpr.num 1) (bvexpr.and (bvexpr.var 0) (bvexpr.not (bvexpr.var 0))))
        (bvexpr.num 2) (bvexpr.and (bvexpr.var 1) (bvexpr.not (bvexpr.var 1)))) =
        ⟨[(bvexpr.num 1, bvexpr.and (bvexpr.var 0) (bvexpr.not (bvexpr.var 0))),
          (bvexpr.num 2, bvexpr.and (bvexpr.var 1) (bvexpr.not (bvexpr.var 1)))]⟩ ∧
      (∀ σ q, (bvexpr.ops.or (bvexpr.and (bvexpr.var 0) (bvexpr.not (bvexpr.var 0)))
        (bvexpr.and (bvexpr.var 1) (bvexpr.not (bvexpr.var 1)))).holds σ q = false) ∧
      (ChoiceExpr.call bvexpr.ops bvexpr.ite
          ⟨[(bvexpr.num 1, bvexpr.and (bvexpr.var 0) (bvexpr.not (bvexpr.var 0))),
            (bvexpr.num 2, bvexpr.and (bvexpr.var 1) (bvexpr.not (bvexpr.var 1)))]⟩).map
        (fun r => r.2.2.2.holds (fun _ => false) 2) = some true := by
  refine ⟨by decide, ?_, by decide⟩
  intro σ q
  show ((σ 0 && !σ 0) || (σ 1 && !σ 1)) = false
  cases σ 0 <;> cases σ 1 <;> rfl

/-- C14, amended. For a `ChoiceExpr` holding two bindings `(v1, d1)` and `(v2, d2)`
(disjoint or not) whose domains and values do not mention the fresh selector, the
precondition produced by the collapse is satisfiable with an in-range selector value
(0 or 1) if and only if `d1 || d2` is satisfiable; and under every assignment to the
free variables an out-of-range selector value (from 2 up to the width of the selector,
which has such values) satisfies the precondition exactly when neither domain holds. -/
theorem C14_precondition_in_range {A T E V : Type} [Inhabited T] (ops : ChoiceOps E)
    (mkIf : E → T → T → T) (sem : A → ChoiceSem E T V ops mkIf) (v1 v2 : T) (d1 d2 : E)
    (hfresh : ∀ a, (sem a).Fresh [(v1, d1), (v2, d2)]) :
    ∃ ret dom bits pre,
      ChoiceExpr.call ops mkIf ⟨[(v1, d1), (v2, d2)]⟩ =
        some (ret, dom, ops.mkFreshVar bits, pre) ∧
      2 < 2 ^ bits ∧
      ((∃ a q, q < 2 ∧ (sem a).holds q pre = true) ↔
        (∃ a, (sem a).holds 0 d1 = true ∨ (sem a).holds 0 d2 = true)) ∧
      (∀ a q, 2 ≤ q → q < 2 ^ bits →
        ((sem a).holds q pre = true ↔
          ¬ ((sem a).holds 0 d1 = true ∨ (sem a).holds 0 d2 = true))) := by
  obtain ⟨ret, dom, bits, pre, hcall, hbits, hsem⟩ :=
    ChoiceExpr.collapse_two (V := V) ops mkIf v1 v2 d1 d2
  refine ⟨ret, dom, bits, pre, hcall, hbits, ?_, ?_⟩
  · constructor
    · rintro ⟨a, q, hq, hpre⟩
      obtain ⟨h0, h1, _⟩ := hsem (sem a) (hfresh a)
      refine ⟨a, ?_⟩
      rcases Nat.lt_succ_iff_lt_or_eq.mp hq with hq0 | hq1
      · have : q = 0 := by omega
        subst this
        exact Or.inr (h0.1 ▸ hpre)
      · subst hq1
        exact Or.inl (h1.1 ▸ hpre)
    · rintro ⟨a, h | h⟩
      · exact ⟨a, 1, by omega, (hsem (sem a) (hfresh a)).2.1.1.trans h⟩
      · exact ⟨a, 0, by omega, (hsem (sem a) (hfresh a)).1.1.trans h⟩
  · intro a q h2 hq
    rw [(hsem (sem a) (hfresh a)).2.2 q h2 hq]
    cases (sem a).holds 0 d1 <;> cases (sem a).holds 0 d2 <;> simp

/-- C14, witness: the bindings `(1, x0)` and `(2, ¬x0)` over all assignments to the
boolean variables. -/
theorem C14_precondition_in_range_witness :
    (∀ σ, (bvexpr.sem σ).Fresh
        [(bvexpr.num 1, bvexpr.var 0), (bvexpr.num 2, bvexpr.not (bvexpr.var 0))]) ∧
      ∃ ret dom bits pre,
        ChoiceExpr.call bvexpr.ops bvexpr.ite
            ⟨[(bvexpr.num 1, bvexpr.var 0), (bvexpr.num 2, bvexpr.not (bvexpr.var 0))]⟩ =
          some (ret, dom, bvexpr.ops.mkFreshVar bits, pre) ∧
        2 < 2 ^ bits ∧
        ((∃ (σ : Nat → Bool) (q : Nat), q < 2 ∧ pre.holds σ q = true) ↔
          (∃ σ : Nat → Bool, (bvexpr.var 0).holds σ 0 = true ∨
            (bvexpr.not (bvexpr.var 0)).holds σ 0 = true)) ∧
        (∀ (σ : Nat → Bool) (q : Nat), 2 ≤ q → q < 2 ^ bits →
          (pre.holds σ q = true ↔
            ¬ ((bvexpr.var 0).holds σ 0 = true ∨
              (bvexpr.not (bvexpr.var 0)).holds σ 0 = true))) :=
  ⟨fun σ p hp q q1 => by
      simp only [List.mem_cons, List.mem_singleton, List.not_mem_nil, or_false] at hp
      rcases hp with rfl | rfl <;> exact ⟨rfl, rfl⟩,
    C14_precondition_in_range bvexpr.ops bvexpr.ite bvexpr.sem
      (bvexpr.num 1) (bvexpr.num 2) (bvexpr.var 0) (bvexpr.not (bvexpr.var 0))
      (fun σ p hp q q1 => by
        simp only [List.mem_cons, List.mem_singleton, List.not_mem_nil, or_false] at hp
        rcases hp with rfl | rfl <;> exact ⟨rfl, rfl⟩)⟩

/-- C15. For a `ChoiceExpr` holding two bindings `(v1, d1)` and `(v2, d2)` whose domains
and values do not mention the fresh selector, under every assignment to the free
variables at which the domains are disjoint, the collapse returns a tuple whose domain
is `d1 || d2` and whose selector has more than two values, and: under every selector
value `q` that satisfies the produced precondition, the produced value evaluates to
`v1` if `d1` holds and to `v2` if `d2` holds; the precondition is satisfied exactly by
`q = 1` when `d1` holds, by `q = 0` when `d2` holds, and by the values from 2 up when
neither holds (so it can be satisfied whenever a domain holds); and the produced value
evaluates to `v1` at `q = 1` and to `v2` at `q = 0`. -/
theorem C15_disjoint_choice_value {T E V : Type} [Inhabited T] (ops : ChoiceOps E)
    (mkIf : E → T → T → T) (sem : ChoiceSem E T V ops mkIf) (v1 v2 : T) (d1 d2 : E)
    (hfresh : sem.Fresh [(v1, d1), (v2, d2)])
    (hdisj : ¬ (sem.holds 0 d1 = true ∧ sem.holds 0 d2 = true)) :
    ∃ ret dom bits pre,
      ChoiceExpr.call ops mkIf ⟨[(v1, d1), (v2, d2)]⟩ =
        some (ret, dom, ops.mkFreshVar bits, pre) ∧
      dom = ops.mk_or [d1, d2] ∧
      (∀ q, sem.holds q dom = (sem.holds q d1 || sem.holds q d2)) ∧
      2 < 2 ^ bits ∧
      (∀ q, q < 2 ^ bits → sem.holds q pre = true →
        (sem.holds q d1 = true → sem.value q ret = sem.value q v1) ∧
        (sem.holds q d2 = true → sem.value q ret = sem.value q v2)) ∧
      (∀ q, q < 2 ^ bits →
        (sem.holds q pre = true ↔
          (q = 1 ∧ sem.holds q d1 = true) ∨ (q = 0 ∧ sem.holds q d2 = true) ∨
            (2 ≤ q ∧ sem.holds q d1 = false ∧ sem.holds q d2 = false))) ∧
      sem.value 1 ret = sem.value 1 v1 ∧ sem.value 0 ret = sem.value 0 v2 := by
  obtain ⟨ret, dom, bits, pre, hcall, hdom, hbits, hsem⟩ :=
    ChoiceExpr.collapse_two_domain (V := V) ops mkIf v1 v2 d1 d2
  obtain ⟨h0, h1, hout⟩ := hsem sem hfresh
  have f1 : ∀ q, sem.holds q d1 = sem.holds 0 d1 ∧ sem.value q v1 = sem.value 0 v1 :=
    fun q => hfresh (v1, d1) (List.mem_cons_self _ _) q 0
  have f2 : ∀ q, sem.holds q d2 = sem.holds 0 d2 ∧ sem.value q v2 = sem.value 0 v2 :=
    fun q => hfresh (v2, d2) (List.mem_cons_of_mem _ (List.mem_cons_self _ _)) q 0
  refine ⟨ret, dom, bits, pre, hcall, hdom, ?_, hbits, ?_, ?_, ?_, h0.2⟩
  · intro q
    rw [hdom, sem.holds_mk_or]
    simp
  · intro q hq hpre
    rw [(f1 q).1, (f1 q).2, (f2 q).1, (f2 q).2]
    by_cases hq0 : q = 0
    · subst hq0
      have hd2 : sem.holds 0 d2 = true := h0.1 ▸ hpre
      exact ⟨fun hd1 => absurd ⟨hd1, hd2⟩ hdisj, fun _ => h0.2⟩
    · by_cases hq1 : q = 1
      · subst hq1
        have hd1 : sem.holds 0 d1 = true := h1.1 ▸ hpre
        exact ⟨fun _ => h1.2, fun hd2 => absurd ⟨hd1, hd2⟩ hdisj⟩
      · rw [hout q (by omega) hq] at hpre
        constructor
        · intro hd1; rw [hd1] at hpre; simp at hpre
        · intro hd2; rw [hd2] at hpre; simp at hpre
  · intro q hq
    rw [(f1 q).1, (f2 q).1]
    by_cases hq0 : q = 0
    · subst hq0
      rw [h0.1]
      simp
    · by_cases hq1 : q = 1
      · subst hq1
        rw [h1.1]
        simp
      · rw [hout q (by omega) hq]
        have h2 : 2 ≤ q := by omega
        cases sem.holds 0 d1 <;> cases sem.holds 0 d2 <;> simp [hq0, hq1, h2]
  · rw [(f1 1).2]
    exact h1.2

/-- C15, witness: the bindings `(1, x0)` and `(2, ¬x0)` under the assignment that makes
`x0` true. -/
theorem C15_disjoint_choice_value_witness :
    ¬ ((bvexpr.var 0).holds (fun _ => true) 0 = true ∧
        (bvexpr.not (bvexpr.var 0)).holds (fun _ => true) 0 = true) ∧
      ∃ ret dom bits pre,
        ChoiceExpr.call bvexpr.ops bvexpr.ite
            ⟨[(bvexpr.num 1, bvexpr.var 0), (bvexpr.num 2, bvexpr.not (bvexpr.var 0))]⟩ =
          some (ret, dom, bvexpr.ops.mkFreshVar bits, pre) ∧
        dom = bvexpr.ops.mk_or [bvexpr.var 0, bvexpr.not (bvexpr.var 0)] ∧
        (∀ q, dom.holds (fun _ => true) q =
          ((bvexpr.var 0).holds (fun _ => true) q ||
            (bvexpr.not (bvexpr.var 0)).holds (fun _ => true) q)) ∧
        2 < 2 ^ bits ∧
        (∀ q, q < 2 ^ bits → pre.holds (fun _ => true) q = true →
          ((bvexpr.var 0).holds (fun _ => true) q = true →
            ret.value (fun _ => true) q = 1) ∧
          ((bvexpr.not (bvexpr.var 0)).holds (fun _ => true) q = true →
            ret.value (fun _ => true) q = 2)) ∧
        (∀ q, q < 2 ^ bits →
          (pre.holds (fun _ => true) q = true ↔
            (q = 1 ∧ (bvexpr.var 0).holds (fun _ => true) q = true) ∨
              (q = 0 ∧ (bvexpr.not (bvexpr.var 0)).holds (fun _ => true) q = true) ∨
              (2 ≤ q ∧ (bvexpr.var 0).holds (fun _ => true) q = false ∧
                (bvexpr.not (bvexpr.var 0)).holds (fun _ => true) q = false))) ∧
        ret.value (fun _ => true) 1 = 1 ∧ ret.value (fun _ => true) 0 = 2 :=
  ⟨by decide,
    C15_disjoint_choice_value bvexpr.ops bvexpr.ite (bvexpr.sem (fun _ => true))
      (bvexpr.num 1) (bvexpr.num 2) (bvexpr.var 0) (bvexpr.not (bvexpr.var 0))
      (fun p hp q q1 => by
        simp only [List.mem_cons, List.mem_singleton, List.not_mem_nil, or_false] at hp
        rcases hp with rfl | rfl <;> exact ⟨rfl, rfl⟩)
      (by decide)⟩

/-- C13, evaluation. `details::bit_width(4)` is 35 and `ilog2_ceil(4, false)` and
`ilog2_ceil(3, false)` are 34, not 2: `__builtin_clz` counts the leading zeros of a
32-bit `unsigned int` and is subtracted from 64. The selector of a `ChoiceExpr` with
three bindings, and of one with two, is allocated with 34 bits. -/
theorem C13_selector_width_eval :
    details.bit_width 4 = some 35 ∧
      ilog2_ceil 4 false = some 34 ∧ ilog2_ceil 3 false = some 34 ∧
      (ChoiceExpr.call bvexpr.ops bvexpr.ite
          ⟨[(bvexpr.num 1, bvexpr.var 0), (bvexpr.num 2, bvexpr.tt),
            (bvexpr.num 3, bvexpr.var 1)]⟩).map (fun r => r.2.2.1) =
        some (bvexpr.ops.mkFreshVar 34) ∧
      (ChoiceExpr.call bvexpr.ops bvexpr.ite
          ⟨[(bvexpr.num 1, bvexpr.var 0), (bvexpr.num 2, bvexpr.var 1)]⟩).map
        (fun r => r.2.2.1) = some (bvexpr.ops.mkFreshVar 34) := by
  decide

/-! ## Claims on the e-graph -/

namespace EGraph

theorem foldl_saturate_step_noncomm [LinearOrder expr] (l : List (Node × Nat)) (g : EGraph)
    (h : ∀ e ∈ l, ¬ e.1.commutative) : l.foldl saturate_step g = g := by
  induction l generalizing g with
  | nil => rfl
  | cons e rest ih =>
    have he : g.saturate_step e = g := by
      unfold saturate_step
      have hn : ¬ (e.1.operation = .Add ∨ e.1.operation = .Mul) :=
        h e (List.mem_cons_self _ _)
      rw [if_neg hn]
    rw [List.foldl_cons, he]
    exact ih g (fun e1 he1 => h e1 (List.mem_cons_of_mem _ he1))

theorem leaf_lt [LinearOrder expr] (a b : expr) :
    Node.lt ⟨.Leaf, 0, 0, a, .null, 0⟩ ⟨.Leaf, 0, 0, b, .null, 0⟩ = decide (a < b) := by
  by_cases h : a < b
  · simp [Node.lt, h]
  · by_cases h1 : b < a
    · simp [Node.lt, h, h1]
    · simp [Node.lt, h, h1]

theorem get_two_leaves [LinearOrder expr] (Reassoc : Nat) (a b : expr) (ha : a.is_leaf = true)
    (hb : b.is_leaf = true) (hab : a ≠ b) :
    (EGraph.empty.get Reassoc a).1 = 0 ∧
      ((EGraph.empty.get Reassoc a).2.get Reassoc b).1 = 1 ∧
      ((EGraph.empty.get Reassoc a).2.get Reassoc b).2.uf = ⟨[0, 1]⟩ ∧
      ∀ e ∈ ((EGraph.empty.get Reassoc a).2.get Reassoc b).2.nodes,
        e.1.operation = .Leaf := by
  have e1 : EGraph.empty.get Reassoc a =
      (0, ⟨⟨[0]⟩, [(⟨.Leaf, 0, 0, a, .null, 0⟩, 0)]⟩) := by
    rw [get, get_loop_leaf Reassoc a ha, get_node_eq]
    rfl
  rw [e1]
  simp only [get]
  rw [get_loop_leaf Reassoc b hb, get_node_eq]
  simp only [map_find, leaf_lt]
  rcases lt_trichotomy a b with h | h | h
  · simp [h, ordered_insert, leaf_lt]
  · exact absurd h hab
  · simp [h, not_lt_of_gt h, ordered_insert, leaf_lt]

end EGraph

theorem float_refined_leaves [LinearOrder expr] (Reassoc fuel : Nat) (a b : expr)
    (ha : a.is_leaf = true) (hb : b.is_leaf = true) (hab : a ≠ b) :
    float_refined Reassoc (fuel + 1) a b = some false := by
  obtain ⟨h1, h2, h3, h4⟩ := EGraph.get_two_leaves Reassoc a b ha hb hab
  have hpass := EGraph.foldl_saturate_step_noncomm
    ((EGraph.empty.get Reassoc a).2.get Reassoc b).2.nodes
    ((EGraph.empty.get Reassoc a).2.get Reassoc b).2
    (fun e he hc => by
      have := h4 e he
      rcases hc with hc | hc <;> rw [this] at hc <;> cases hc)
  have hsat : ((EGraph.empty.get Reassoc a).2.get Reassoc b).2.saturate (fuel + 1) =
      some ((EGraph.empty.get Reassoc a).2.get Reassoc b).2 := by
    simp only [EGraph.saturate, hpass, if_true]
  rw [float_refined_eq, h1, h2, hsat]
  simp only [h3]
  decide

set_option maxRecDepth 100000 in
/-- C18, evaluation. With the operators of the branch compiled before C++20,
`operator==` is equality of all six members, but `operator<` is not asymmetric: for the
nodes `x = Add(1, 0)` and `y = Sub(0, 2)` that `EGraph::get` builds for `q - (p + q)`
on a node map in key order, both `x < y` (by `operation`) and `y < x` (by `op1`) hold,
and `x == y` does not. The defaulted three-way comparison of the C++20 branch orders the
same nodes lexicographically: `x < y` and not `y < x`. On the node map as compiled,
`EGraph::get` builds for the same expression the entries `Leaf(q)`, `Add(1, 0)`,
`Sub(3, 2)` and `Leaf(p)`, and of the nodes `Leaf(q)` and `Add(1, 0)` each is less than
the other as well (by `op1` and by `operation`). -/
theorem C18_pre20_less_not_asymmetric :
    (∀ x y : Node, Node.eq_pre20 x y = true ↔ x = y) ∧
      (⟨.Add, 1, 0, .null, .var 9, 0⟩, 2) ∈
        (@EGraph.get expr.code_order 32 EGraph.empty
          (.fpsub (.var 9) (.var 0) (.fpadd (.var 9) (.var 1) (.var 0)))).2.nodes ∧
      (⟨.Sub, 0, 2, .null, .var 9, 0⟩, 3) ∈
        (@EGraph.get expr.code_order 32 EGraph.empty
          (.fpsub (.var 9) (.var 0) (.fpadd (.var 9) (.var 1) (.var 0)))).2.nodes ∧
      @Node.lt_pre20 expr.code_order ⟨.Add, 1, 0, .null, .var 9, 0⟩
        ⟨.Sub, 0, 2, .null, .var 9, 0⟩ = true ∧
      @Node.lt_pre20 expr.code_order ⟨.Sub, 0, 2, .null, .var 9, 0⟩
        ⟨.Add, 1, 0, .null, .var 9, 0⟩ = true ∧
      Node.eq_pre20 ⟨.Add, 1, 0, .null, .var 9, 0⟩ ⟨.Sub, 0, 2, .null, .var 9, 0⟩ = false ∧
      @Node.lt expr.code_order ⟨.Add, 1, 0, .null, .var 9, 0⟩
        ⟨.Sub, 0, 2, .null, .var 9, 0⟩ = true ∧
      @Node.lt expr.code_order ⟨.Sub, 0, 2, .null, .var 9, 0⟩
        ⟨.Add, 1, 0, .null, .var 9, 0⟩ = false ∧
      (@Pre20.EGraph.get expr.code_order 32 Pre20.EGraph.empty
          (.fpsub (.var 9) (.var 0) (.fpadd (.var 9) (.var 1) (.var 0)))).bind
          (fun x => x.2.nodes.entries) =
        some [(⟨.Leaf, 0, 0, .var 0, .null, 0⟩, 0), (⟨.Add, 1, 0, .null, .var 9, 0⟩, 2),
          (⟨.Sub, 3, 2, .null, .var 9, 0⟩, 4), (⟨.Leaf, 0, 0, .var 1, .null, 0⟩, 1)] ∧
      @Node.lt_pre20 expr.code_order ⟨.Leaf, 0, 0, .var 0, .null, 0⟩
        ⟨.Add, 1, 0, .null, .var 9, 0⟩ = true ∧
      @Node.lt_pre20 expr.code_order ⟨.Add, 1, 0, .null, .var 9, 0⟩
        ⟨.Leaf, 0, 0, .var 0, .null, 0⟩ = true ∧
      Node.eq_pre20 ⟨.Leaf, 0, 0, .var 0, .null, 0⟩ ⟨.Add, 1, 0, .null, .var 9, 0⟩ = false := by
  refine ⟨?_, by decide, by decide, by decide, by decide, by decide, by decide, by decide,
    by decide, by decide, by decide, by decide⟩
  intro x y
  obtain ⟨o1, a1, b1, l1, r1, f1⟩ := x
  obtain ⟨o2, a2, b2, l2, r2, f2⟩ := y
  simp [Node.eq_pre20, and_assoc]

/-! ## Further claims on the fold of `DisjointExpr` -/

namespace DisjointExpr

variable {T E V : Type}

theorem call_loop_sem (ops : ExprOps E) (mkIf : E → T → T → T)
    (sem : FoldSem E T V ops mkIf) (dflt : Option T) (p : T × E) (l : List (T × E)) :
    ∀ ret : Option T, (∀ x ∈ l, sem.holds x.2 = true → x = p) →
      (p ∈ l ∨ ∃ r0, ret = some r0 ∧ sem.value r0 = sem.value p.1) →
      sem.holds p.2 = true →
      ∃ r, call_loop ops mkIf dflt l ret = some r ∧ sem.value r = sem.value p.1 := by
  induction l with
  | nil =>
    intro ret _ h _
    rcases h with h | ⟨r0, h1, h2⟩
    · simp at h
    · exact ⟨r0, by simp [call_loop, h1], h2⟩
  | cons x rest ih =>
    obtain ⟨v, d⟩ := x
    intro ret huniq h hp
    by_cases ht : ops.isTrue d = true
    · have hx := huniq (v, d) (List.mem_cons_self _ _) (sem.holds_isTrue d ht)
      refine ⟨v, by simp [call_loop, ht], ?_⟩
      rw [← hx]
    · simp only [call_loop, ht, Bool.false_eq_true, if_false]
      apply ih _ (fun y hy => huniq y (List.mem_cons_of_mem _ hy)) _ hp
      by_cases hd : sem.holds d = true
      · have hx := huniq (v, d) (List.mem_cons_self _ _) hd
        right
        cases ret with
        | none => exact ⟨v, rfl, by rw [← hx]⟩
        | some r1 => exact ⟨mkIf d v r1, rfl, by rw [sem.value_mkIf, if_pos hd, ← hx]⟩
      · rcases h with h | ⟨r0, h1, h2⟩
        · rcases List.mem_cons.mp h with h3 | h3
          · rw [h3] at hp
            exact absurd hp hd
          · exact Or.inl h3
        · right
          rw [h1]
          exact ⟨mkIf d v r0, rfl, by rw [sem.value_mkIf, if_neg hd, h2]⟩

theorem call_loop_some_isSome (ops : ExprOps E) (mkIf : E → T → T → T) (dflt : Option T)
    (l : List (T × E)) : ∀ r : T, ∃ r1, call_loop ops mkIf dflt l (some r) = some r1 := by
  induction l with
  | nil => intro r; exact ⟨r, by simp [call_loop]⟩
  | cons x rest ih =>
    obtain ⟨v, d⟩ := x
    intro r
    by_cases ht : ops.isTrue d = true
    · exact ⟨v, by simp [call_loop, ht]⟩
    · simp only [call_loop, ht, Bool.false_eq_true, if_false]
      exact ih _

theorem call_loop_default (ops : ExprOps E) (mkIf : E → T → T → T) (D1 D2 : Option T)
    (l : List (T × E)) : ∀ r : T,
      call_loop ops mkIf D1 l (some r) = call_loop ops mkIf D2 l (some r) := by
  induction l with
  | nil => intro r; simp [call_loop]
  | cons x rest ih =>
    obtain ⟨v, d⟩ := x
    intro r
    by_cases ht : ops.isTrue d = true
    · simp [call_loop, ht]
    · simp only [call_loop, ht, Bool.false_eq_true, if_false]
      exact ih _

theorem call_default (ops : ExprOps E) (mkIf : E → T → T → T) (D1 D2 : Option T)
    (l : List (T × E)) (hl : l ≠ []) :
    call ops mkIf ⟨l, D1⟩ = call ops mkIf ⟨l, D2⟩ := by
  cases l with
  | nil => exact absurd rfl hl
  | cons x rest =>
    obtain ⟨v, d⟩ := x
    by_cases ht : ops.isTrue d = true
    · simp [call, call_loop, ht]
    · simp only [call, call_loop, ht, Bool.false_eq_true, if_false]
      exact call_loop_default ops mkIf D1 D2 rest v

theorem call_eq_none (ops : ExprOps E) (mkIf : E → T → T → T) (m : DisjointExpr T E) :
    call ops mkIf m = none ↔ m.vals = [] ∧ m.default_val = none := by
  obtain ⟨vals, dflt⟩ := m
  cases vals with
  | nil => simp [call_nil]
  | cons x rest =>
    obtain ⟨v, d⟩ := x
    simp only [reduceCtorEq, false_and, iff_false]
    by_cases ht : ops.isTrue d = true
    · simp [call, call_loop, ht]
    · simp only [call, call_loop, ht, Bool.false_eq_true, if_false]
      obtain ⟨r1, h1⟩ := call_loop_some_isSome ops mkIf dflt rest v
      rw [h1]
      simp

end DisjointExpr

/-- C23. For every `DisjointExpr` with a binding `(v, d)` such that, under the
assignment, `d` holds and no other stored domain does, the fold returns a value that
evaluates to `v`, reading `mkIf` as if-then-else (and `isTrue()` as recognizing only
terms that hold). -/
theorem C23_fold_selects_holding_binding {T E V : Type} (ops : ExprOps E)
    (mkIf : E → T → T → T) (sem : FoldSem E T V ops mkIf) (m : DisjointExpr T E)
    (p : T × E) (hp : p ∈ m.vals) (hh : sem.holds p.2 = true)
    (huniq : ∀ x ∈ m.vals, sem.holds x.2 = true → x = p) :
    ∃ r, DisjointExpr.call ops mkIf m = some r ∧ sem.value r = sem.value p.1 :=
  DisjointExpr.call_loop_sem ops mkIf sem m.default_val p m.vals none huniq (Or.inl hp) hh

/-- C23, witness: the bindings `(1, x0)`, `(2, x1)`, `(3, x2)` with default 9 under the
assignment that makes only `x1` true. -/
theorem C23_fold_selects_holding_binding_witness :
    (bvexpr.var 1).holds (fun i => decide (i = 1)) 0 = true ∧
      ∃ r, DisjointExpr.call bvexpr.ops.toExprOps bvexpr.ite
          ⟨[(bvexpr.num 1, bvexpr.var 0), (bvexpr.num 2, bvexpr.var 1),
            (bvexpr.num 3, bvexpr.var 2)], some (bvexpr.num 9)⟩ = some r ∧
        r.value (fun i => decide (i = 1)) 0 = 2 :=
  ⟨by decide,
    C23_fold_selects_holding_binding bvexpr.ops.toExprOps bvexpr.ite
      (bvexpr.fold_sem (fun i => decide (i = 1)))
      ⟨[(bvexpr.num 1, bvexpr.var 0), (bvexpr.num 2, bvexpr.var 1),
        (bvexpr.num 3, bvexpr.var 2)], some (bvexpr.num 9)⟩
      (bvexpr.num 2, bvexpr.var 1) (by decide) (by decide)
      (fun x hx hh => by
        simp only [List.mem_cons, List.mem_singleton, List.not_mem_nil, or_false] at hx
        rcases hx with rfl | rfl | rfl
        · exact absurd hh (by decide)
        · rfl
        · exact absurd hh (by decide))⟩

/-- C24. The fold of a `DisjointExpr` returns no value if and only if the map has no
bindings and no default value; the fold of a map with no bindings and the default value
`D` returns `D`. -/
theorem C24_fold_no_value_iff {T E : Type} (ops : ExprOps E) (mkIf : E → T → T → T)
    (m : DisjointExpr T E) (D : T) :
    (DisjointExpr.call ops mkIf m = none ↔ m.vals = [] ∧ m.default_val = none) ∧
      DisjointExpr.call ops mkIf ⟨[], some D⟩ = some D :=
  ⟨DisjointExpr.call_eq_none ops mkIf m, DisjointExpr.call_nil ops mkIf (some D)⟩

/-- C26. The fold of a map with at least one binding does not depend on the default
value; with the bindings `(v1,d1), ..., (vn,dn)` in key order and no constant-true
domain the result is `mkIf(dn, vn, ... mkIf(d2, v2, v1) ...)`, the same whatever the
domain `d1` of the smallest key is (among those that are not the constant true). -/
theorem C26_fold_independent_of_default {T E : Type} (ops : ExprOps E)
    (mkIf : E → T → T → T) (v1 : T) (d1 : E) (rest : List (T × E))
    (h1 : ops.isTrue d1 = false) (hrest : ∀ x ∈ rest, ops.isTrue x.2 = false) :
    (∀ (l : List (T × E)) (D1 D2 : Option T), l ≠ [] →
        DisjointExpr.call ops mkIf ⟨l, D1⟩ = DisjointExpr.call ops mkIf ⟨l, D2⟩) ∧
      (∀ D : Option T, DisjointExpr.call ops mkIf ⟨(v1, d1) :: rest, D⟩ =
        some (DisjointExpr.nested_if mkIf v1 rest)) ∧
      (∀ (D D1 : Option T) (e1 : E), ops.isTrue e1 = false →
        DisjointExpr.call ops mkIf ⟨(v1, e1) :: rest, D1⟩ =
          DisjointExpr.call ops mkIf ⟨(v1, d1) :: rest, D⟩) :=
  ⟨fun l D1 D2 hl => DisjointExpr.call_default ops mkIf D1 D2 l hl,
    fun D => DisjointExpr.call_cons ops mkIf D v1 d1 rest h1 hrest,
    fun D D1 e1 he1 => by
      rw [DisjointExpr.call_cons ops mkIf D1 v1 e1 rest he1 hrest,
        DisjointExpr.call_cons ops mkIf D v1 d1 rest h1 hrest]⟩

/-- C26, witness: the bindings `(var 1, var 0)` and `(var 3, var 4)` with the default
values `var 2` and none. -/
theorem C26_fold_independent_of_default_witness :
    expr.ops.isTrue (expr.var 0) = false ∧
      DisjointExpr.call expr.ops expr.ite
          ⟨[(expr.var 1, expr.var 0), (expr.var 3, expr.var 4)], some (expr.var 2)⟩ =
        some (expr.ite (expr.var 4) (expr.var 3) (expr.var 1)) ∧
      DisjointExpr.call expr.ops expr.ite
          ⟨[(expr.var 1, expr.var 0), (expr.var 3, expr.var 4)], none⟩ =
        some (expr.ite (expr.var 4) (expr.var 3) (expr.var 1)) :=
  ⟨by decide,
    (C26_fold_independent_of_default expr.ops expr.ite (expr.var 1) (expr.var 0)
      [(expr.var 3, expr.var 4)] (by decide) (by decide)).2.1 (some (expr.var 2)),
    (C26_fold_independent_of_default expr.ops expr.ite (expr.var 1) (expr.var 0)
      [(expr.var 3, expr.var 4)] (by decide) (by decide)).2.1 none⟩

/-! ## Claims on the constants and on `FunctionExpr` -/

/-- C28, evaluation. For the `IntConst` built from 1 the minimum bit-width demanded by
`getTypeConstraints` is 33, from 5 it is 35 and from -2 it is 34, where 1, 3 and 2 bits
represent the values: `num_sign_bits` counts the leading zeros of the low 32 bits of
the 64-bit value and of its complement (`num_sign_bits(1)` is 30, not 62). For 0 and
-1 one of the two calls is the undefined `__builtin_clz(0)`. -/
theorem C28_min_bits_eval :
    num_sign_bits 1 = some 30 ∧
      (IntConst.of_int 1).min_bits = some 33 ∧
      (IntConst.of_int 5).min_bits = some 35 ∧
      (IntConst.of_int (-2)).min_bits = some 34 ∧
      (IntConst.of_int 0).min_bits = none ∧
      (IntConst.of_int (-1)).min_bits = none := by
  decide

/-- C29, evaluation. With the operators of the branch compiled before C++20, for the
function `x` with no entries and the default value `var 0` and the function `y` with
the entry `(var 1, var 2)` and no default value, both `x < y` (by `fn`) and `y < x` (by
`default_val`) hold, while `x == y` does not: `operator<` is not asymmetric. -/
theorem C29_function_less_not_asymmetric :
    @FunctionExpr.lt_pre20 expr expr.code_order ⟨[], some (expr.var 0)⟩
        ⟨[(expr.var 1, expr.var 2)], none⟩ = true ∧
      @FunctionExpr.lt_pre20 expr expr.code_order ⟨[(expr.var 1, expr.var 2)], none⟩
        ⟨[], some (expr.var 0)⟩ = true ∧
      FunctionExpr.eq_pre20 (⟨[], some (expr.var 0)⟩ : FunctionExpr expr)
        ⟨[(expr.var 1, expr.var 2)], none⟩ = false := by
  decide

/-- C30. Constructing a `ConstantFn` from `(name, args)` throws a `ConstantFnException`
if and only if `name` is neither `log2` nor `width`, or the number of arguments is not
1; when it succeeds, there is one argument `a`, and the name of the constant is `name`
followed by `(`, the name of `a` and `)`. -/
theorem C30_constant_fn_throws_iff {Value : Type} (getName : Value → String)
    (name : String) (args : List Value) :
    ((∃ e, ConstantFn.construct getName name args = .error e) ↔
        (¬ (name = "log2" ∨ name = "width") ∨ args.length ≠ 1)) ∧
      (∀ c, ConstantFn.construct getName name args = .ok c →
        ∃ a, args = [a] ∧ c.args = [a] ∧ c.name = name ++ "(" ++ getName a ++ ")") := by
  unfold ConstantFn.construct
  by_cases h1 : name = "log2"
  · simp only [h1, if_true]
    by_cases hl : args.length = 1
    · obtain ⟨a, ha⟩ := List.length_eq_one.mp hl
      subst ha
      simp [ConstantFn.name_loop]
    · simp [hl]
  · by_cases h2 : name = "width"
    · simp only [h2, if_true]
      by_cases hl : args.length = 1
      · obtain ⟨a, ha⟩ := List.length_eq_one.mp hl
        subst ha
        simp [ConstantFn.name_loop]
      · simp [hl]
    · simp [h1, h2]

/-! ## The node map as compiled: a loop of `saturate` that does not end -/

theorem UnionFind.find_root (U : List Nat) (j : Nat) (h : U.getD j j = j) :
    UnionFind.find ⟨U⟩ j = (j, ⟨U⟩) := by
  unfold UnionFind.find
  cases hl : U.length with
  | zero => simp [UnionFind.root_of, UnionFind.compress, hl]
  | succ n =>
    have h1 : U[j]?.getD j = j := by simpa using h
    simp [UnionFind.root_of, UnionFind.compress, hl, h1]

theorem UnionFind.merge_root (U : List Nat) (j : Nat) (h : U.getD j j = j) :
    UnionFind.merge ⟨U⟩ j j = ⟨U⟩ := by
  simp [UnionFind.merge, UnionFind.find_root U j h]

namespace Pre20

namespace Rb_tree

theorem rd_zero (a : Rb_tree_node_base) (l : List Rb_tree_node_base) :
    rd (a :: l) (some 0) = some a := by simp [rd]

theorem rd_one (a b : Rb_tree_node_base) (l : List Rb_tree_node_base) :
    rd (a :: b :: l) (some 1) = some b := by simp [rd]

theorem rd_last (a b x : Rb_tree_node_base) (R : List Rb_tree_node_base) :
    rd (a :: b :: (R ++ [x])) (some (R.length + 2)) = some x := by
  simp [rd]

theorem wr_zero (a : Rb_tree_node_base) (l : List Rb_tree_node_base)
    (f : Rb_tree_node_base → Rb_tree_node_base) :
    wr (a :: l) (some 0) f = some (f a :: l) := by simp [wr]

theorem wr_one (a b : Rb_tree_node_base) (l : List Rb_tree_node_base)
    (f : Rb_tree_node_base → Rb_tree_node_base) :
    wr (a :: b :: l) (some 1) f = some (a :: f b :: l) := by simp [wr]

theorem wr_last (a b x : Rb_tree_node_base) (R : List Rb_tree_node_base)
    (f : Rb_tree_node_base → Rb_tree_node_base) :
    wr (a :: b :: (R ++ [x])) (some (R.length + 2)) f = some (a :: b :: (R ++ [f x])) := by
  simp [wr]

theorem rebalance_black (l : List Rb_tree_node_base) (x : Option Nat) (fuel : Nat)
    (hdr nx np : Rb_tree_node_base) (h0 : rd l (some 0) = some hdr)
    (h1 : rd l x = some nx) (h2 : rd l nx.parent = some np) (h3 : np.red = false) :
    rebalance l (fuel + 1) x = some l := by
  rw [rebalance]
  simp [h0, h1, h2, h3]

theorem spin_insert_and_rebalance (hl l1 : Option Nat) (hhl : hl ≠ some 1)
    (R : List Rb_tree_node_base) (blank : Rb_tree_node_base) :
    insert_and_rebalance true (some (R.length + 2)) (some 1)
        (⟨true, some 1, hl, some 1⟩ :: ⟨false, some 0, l1, none⟩ :: (R ++ [blank])) =
      some (⟨true, some 1, hl, some 1⟩ :: ⟨false, some 0, some (R.length + 2), none⟩ ::
        (R ++ [⟨true, some 1, none, none⟩])) := by
  have hne : (some 1 : Option Nat) ≠ some 0 := by decide
  have hne2 : (some 1 : Option Nat) ≠ hl := fun h => hhl h.symm
  have hreb := rebalance_black
    (⟨true, some 1, hl, some 1⟩ :: ⟨false, some 0, some (R.length + 2), none⟩ ::
      (R ++ [⟨true, some 1, none, none⟩])) (some (R.length + 2))
    ((⟨true, some 1, hl, some 1⟩ :: ⟨false, some 0, some (R.length + 2), none⟩ ::
      (R ++ [⟨true, some 1, none, none⟩])).length) _ _ _ (rd_zero _ _) (rd_last _ _ _ _)
      (rd_one _ _ _) rfl
  simp only [insert_and_rebalance, wr_last, wr_one, rd_zero, rd_one, Option.bind_eq_bind,
    Option.some_bind, if_true, if_neg hne, if_neg hne2, Option.pure_def, hreb, wr_zero]

end Rb_tree

namespace EGraph

theorem spin_emplace [LinearOrder expr] (kl ka : Node) (v0 j : Nat) (hl : Option Nat)
    (h1 : Node.lt_pre20 kl ka = true) (h2 : Node.lt_pre20 ka kl = true) (hhl : hl ≠ some 1)
    (mid : List Rb_tree_node_base) (midv : List (Node × Nat)) :
    map_try_emplace Node.lt_pre20 ⟨spin_links hl mid, spin_vals kl ka v0 j midv⟩ ka j =
      some (⟨spin_links hl (mid ++ [⟨true, some 1, none, none⟩]),
        spin_vals kl ka v0 j (midv ++ [(ka, j)])⟩, some (mid.length + 3), true) := by
  have hlb : Rb_tree.lower_bound Node.lt_pre20
      (⟨spin_links hl mid, spin_vals kl ka v0 j midv⟩ : Rb_tree Node Nat) ka = some (some 0) := by
    simp [Rb_tree.lower_bound, spin_links, spin_vals, Rb_tree.rd, Rb_tree.lower_bound_loop,
      Rb_tree.key, Rb_tree.val, h1]
  have hpos : Rb_tree.get_insert_hint_unique_pos Node.lt_pre20
      (⟨spin_links hl mid, spin_vals kl ka v0 j midv⟩ : Rb_tree Node Nat) (some 0) ka =
      some (none, some 1) := by
    simp [Rb_tree.get_insert_hint_unique_pos, spin_links, spin_vals, Rb_tree.rd,
      Rb_tree.key, Rb_tree.val, h1]
  have hiar := Rb_tree.spin_insert_and_rebalance hl (some (mid.length + 2)) hhl
    (mid ++ [⟨true, some 1, none, none⟩]) ⟨true, none, none, none⟩
  have hins : Rb_tree.insert_node Node.lt_pre20
      (⟨spin_links hl mid, spin_vals kl ka v0 j midv⟩ : Rb_tree Node Nat) none (some 1) (ka, j) =
      some (⟨spin_links hl (mid ++ [⟨true, some 1, none, none⟩]),
        spin_vals kl ka v0 j (midv ++ [(ka, j)])⟩, some (mid.length + 3)) := by
    have e1 : mid.length + 1 + 1 + 1 = mid.length + 3 := by omega
    have e2 : mid.length + 1 + 2 = mid.length + 3 := by omega
    simp only [List.length_append, List.length_singleton, List.append_assoc,
      List.singleton_append, e2] at hiar
    simp [Rb_tree.insert_node, spin_links, spin_vals, Rb_tree.key, Rb_tree.val, h2, e1, e2,
      hiar]
  simp [map_try_emplace, hlb, Rb_tree.emplace_hint, hpos, hins]

theorem spin_decl_equivalent [LinearOrder expr] (kl ka : Node) (v0 j : Nat) (hl : Option Nat)
    (U : List Nat) (hU : U.getD j j = j)
    (h1 : Node.lt_pre20 kl ka = true) (h2 : Node.lt_pre20 ka kl = true) (hhl : hl ≠ some 1)
    (mid : List Rb_tree_node_base) (midv : List (Node × Nat)) (hlen : midv.length = mid.length) :
    decl_equivalent ⟨⟨U⟩, ⟨spin_links hl mid, spin_vals kl ka v0 j midv⟩⟩ ka j =
      some ⟨⟨U⟩, ⟨spin_links hl (mid ++ [⟨true, some 1, none, none⟩]),
        spin_vals kl ka v0 j (midv ++ [(ka, j)])⟩⟩ := by
  have hval : Rb_tree.val (⟨spin_links hl (mid ++ [⟨true, some 1, none, none⟩]),
      spin_vals kl ka v0 j (midv ++ [(ka, j)])⟩ : Rb_tree Node Nat) (some (mid.length + 3)) =
      some (ka, j) := by
    have e : mid.length + 2 = (midv ++ [(ka, j)]).length + 1 := by simp [hlen]
    simp only [Rb_tree.val, spin_vals, e, List.getElem?_cons_succ]
    exact List.getElem?_concat_length _ _
  simp [decl_equivalent, spin_emplace kl ka v0 j hl h1 h2 hhl mid midv, hval,
    UnionFind.merge_root U j hU]

theorem spin_copy_entries (kl ka : Node) (v0 j : Nat) (hl : Option Nat)
    (mid : List Rb_tree_node_base) (midv : List (Node × Nat)) (hlen : midv.length = mid.length)
    (fuel : Nat) :
    Rb_tree.copy_entries (⟨spin_links hl mid, spin_vals kl ka v0 j midv⟩ : Rb_tree Node Nat)
      (fuel + 2) (some 1) = some [(ka, j), (kl, v0)] := by
  have hrd1 : Rb_tree.rd (spin_links hl mid) (some 1) =
      some ⟨false, some 0, some (mid.length + 2), none⟩ := Rb_tree.rd_one _ _ _
  have hrd2 : Rb_tree.rd (spin_links hl mid) (some (mid.length + 2)) =
      some ⟨true, some 1, none, none⟩ := Rb_tree.rd_last _ _ _ _
  have hval1 : Rb_tree.val (⟨spin_links hl mid, spin_vals kl ka v0 j midv⟩ : Rb_tree Node Nat)
      (some 1) = some (kl, v0) := by
    simp [Rb_tree.val, spin_vals]
  have hval2 : Rb_tree.val (⟨spin_links hl mid, spin_vals kl ka v0 j midv⟩ : Rb_tree Node Nat)
      (some (mid.length + 2)) = some (ka, j) := by
    rw [← hlen]
    simp only [Rb_tree.val, spin_vals, List.getElem?_cons_succ]
    exact List.getElem?_concat_length _ _
  rw [Rb_tree.copy_entries]
  simp only [hrd1, hval1, Option.bind_eq_bind, Option.some_bind]
  have hl2 : Rb_tree.copy_entries
      (⟨spin_links hl mid, spin_vals kl ka v0 j midv⟩ : Rb_tree Node Nat) (fuel + 1)
      (some (mid.length + 2)) = some [(ka, j)] := by
    rw [Rb_tree.copy_entries]
    simp only [hrd2, hval2, Option.bind_eq_bind, Option.some_bind]
    cases fuel <;> simp [Rb_tree.copy_entries]
  rw [hl2]
  cases fuel <;> simp [Rb_tree.copy_entries]

/-- One pass of `saturate` over a state of the shape `spin_links`, `spin_vals`, in which
`kl` is a leaf, `ka` an Add or Mul node with equal operands, and each of `kl`, `ka` is
less than the other by `Node.lt_pre20`: the lookup of the operand-swapped `ka` (which is
`ka`) passes the root to the right and ends at `end()`, the insertion with that hint
goes below the rightmost node, the root, and `_M_insert_node` links it on the left, in
place of the node allocated before. The state after the pass has the same shape and
one more entry. -/
theorem spin_once [LinearOrder expr] (kl ka : Node) (v0 j : Nat) (hl : Option Nat)
    (U : List Nat) (hU : U.getD j j = j) (hkl : kl.operation = .Leaf)
    (hka : ka.operation = .Add ∨ ka.operation = .Mul) (hsw : ka.op1 = ka.op2)
    (h1 : Node.lt_pre20 kl ka = true) (h2 : Node.lt_pre20 ka kl = true) (hhl : hl ≠ some 1)
    (mid : List Rb_tree_node_base) (midv : List (Node × Nat)) (hlen : midv.length = mid.length) :
    saturate_once ⟨⟨U⟩, ⟨spin_links hl mid, spin_vals kl ka v0 j midv⟩⟩ =
      some ⟨⟨U⟩, ⟨spin_links hl (mid ++ [⟨true, some 1, none, none⟩]),
        spin_vals kl ka v0 j (midv ++ [(ka, j)])⟩⟩ := by
  have hsw1 : ({ ka with op1 := ka.op2, op2 := ka.op1 } : Node) = ka := by
    cases ka
    simp only at hsw
    subst hsw
    rfl
  have hstep1 : saturate_step ⟨⟨U⟩, ⟨spin_links hl mid, spin_vals kl ka v0 j midv⟩⟩ (ka, j) =
      some ⟨⟨U⟩, ⟨spin_links hl (mid ++ [⟨true, some 1, none, none⟩]),
        spin_vals kl ka v0 j (midv ++ [(ka, j)])⟩⟩ := by
    unfold saturate_step
    rw [if_pos hka, hsw1]
    exact spin_decl_equivalent kl ka v0 j hl U hU h1 h2 hhl mid midv hlen
  have hstep2 : ∀ g : EGraph, saturate_step g (kl, v0) = some g := by
    intro g
    unfold saturate_step
    rw [if_neg (by simp [hkl])]
  have hcopy := spin_copy_entries kl ka v0 j hl mid midv hlen (mid.length + 2)
  have hroot : Rb_tree.rd (spin_links hl mid) (some 0) =
      some ⟨true, some 1, hl, some 1⟩ := by
    simp [spin_links, Rb_tree.rd]
  have hlen1 : (spin_links hl mid).length + 1 = mid.length + 2 + 2 := by
    simp [spin_links]
  simp only [saturate_once, hroot, Option.bind_eq_bind, Option.some_bind, hlen1, hcopy,
    saturate_pass, hstep1, hstep2]

theorem spin_saturate [LinearOrder expr] (kl ka : Node) (v0 j : Nat) (hl : Option Nat)
    (U : List Nat) (hU : U.getD j j = j) (hkl : kl.operation = .Leaf)
    (hka : ka.operation = .Add ∨ ka.operation = .Mul) (hsw : ka.op1 = ka.op2)
    (h1 : Node.lt_pre20 kl ka = true) (h2 : Node.lt_pre20 ka kl = true) (hhl : hl ≠ some 1)
    (fuel : Nat) :
    ∀ (mid : List Rb_tree_node_base) (midv : List (Node × Nat)), midv.length = mid.length →
      saturate fuel ⟨⟨U⟩, ⟨spin_links hl mid, spin_vals kl ka v0 j midv⟩⟩ = none := by
  induction fuel with
  | zero => intro mid midv _; rfl
  | succ fuel ih =>
    intro mid midv hlen
    rw [saturate, spin_once kl ka v0 j hl U hU hkl hka hsw h1 h2 hhl mid midv hlen]
    have hsize : (spin_vals kl ka v0 j (midv ++ [(ka, j)])).length ≠
        (spin_vals kl ka v0 j midv).length := by
      simp [spin_vals]
    simp only [Option.bind_eq_bind, Option.some_bind, Rb_tree.size]
    rw [if_neg hsize]
    exact ih _ _ (by simp [hlen])

theorem spin_passes [LinearOrder expr] (kl ka : Node) (v0 j : Nat) (hl : Option Nat)
    (U : List Nat) (hU : U.getD j j = j) (hkl : kl.operation = .Leaf)
    (hka : ka.operation = .Add ∨ ka.operation = .Mul) (hsw : ka.op1 = ka.op2)
    (h1 : Node.lt_pre20 kl ka = true) (h2 : Node.lt_pre20 ka kl = true) (hhl : hl ≠ some 1)
    (n : Nat) :
    ∀ (mid : List Rb_tree_node_base) (midv : List (Node × Nat)), midv.length = mid.length →
      ∃ g : EGraph,
        passes n ⟨⟨U⟩, ⟨spin_links hl mid, spin_vals kl ka v0 j midv⟩⟩ = some g ∧
        g.nodes.size = midv.length + 2 + n := by
  induction n with
  | zero =>
    intro mid midv _
    exact ⟨_, rfl, by simp [Rb_tree.size, spin_vals]⟩
  | succ n ih =>
    intro mid midv hlen
    obtain ⟨g, hg, hs⟩ := ih (mid ++ [⟨true, some 1, none, none⟩]) (midv ++ [(ka, j)])
      (by simp [hlen])
    refine ⟨g, ?_, ?_⟩
    · rw [passes, spin_once kl ka v0 j hl U hU hkl hka hsw h1 h2 hhl mid midv hlen,
        Option.some_bind]
      exact hg
    · rw [hs]
      simp
      omega

end EGraph

theorem float_refined_eq_interned [LinearOrder expr] (Reassoc fuel : Nat) (a b : expr) :
    float_refined Reassoc fuel a b =
      (interned Reassoc a b).bind (fun x =>
        if x.1 = x.2.1 then some true
        else (x.2.2.saturate fuel).bind (fun g4 =>
          ((g4.root x.1).2.root x.2.1).2.print.bind (fun _ =>
            if (g4.root x.1).1 = ((g4.root x.1).2.root x.2.1).1 then some true
            else some false))) := by
  unfold float_refined interned
  cases h1 : EGraph.empty.get Reassoc a with
  | none => rfl
  | some x =>
    cases h2 : x.2.get Reassoc b with
    | none => simp [h1, h2]
    | some y =>
      cases h3 : y.2.print with
      | none => simp [h1, h2, h3]
      | some g3 =>
        simp only [h1, h2, h3, Option.bind_eq_bind, Option.some_bind, Option.pure_def]

theorem float_refined_of_saturate_none [LinearOrder expr] (Reassoc fuel : Nat) (a b : expr)
    (na nb : Nat) (g3 : EGraph) (h1 : interned Reassoc a b = some (na, nb, g3)) (hne : na ≠ nb)
    (hs : g3.saturate fuel = none) : float_refined Reassoc fuel a b = none := by
  rw [float_refined_eq_interned, h1]
  simp [hne, hs]

end Pre20

/-! ## The node map as compiled: more passes change no result -/

namespace Pre20

theorem EGraph.saturate_fuel_mono [LinearOrder expr] (fuel : Nat) :
    ∀ (g g1 : EGraph), g.saturate fuel = some g1 → ∀ k, g.saturate (fuel + k) = some g1 := by
  induction fuel with
  | zero => intro g g1 h; cases h
  | succ fuel ih =>
    intro g g1 h k
    rw [show fuel + 1 + k = (fuel + k) + 1 by omega]
    rw [EGraph.saturate] at h ⊢
    cases ho : g.saturate_once with
    | none => simp [ho] at h
    | some g2 =>
      simp only [ho, Option.bind_eq_bind, Option.some_bind] at h ⊢
      split
      · rename_i hsz
        rw [if_pos hsz] at h
        exact h
      · rename_i hsz
        rw [if_neg hsz] at h
        exact ih g2 g1 h k

theorem float_refined_fuel_mono [LinearOrder expr] (Reassoc fuel : Nat) (a b : expr) (r : Bool)
    (h : float_refined Reassoc fuel a b = some r) (k : Nat) :
    float_refined Reassoc (fuel + k) a b = some r := by
  unfold float_refined at h ⊢
  cases h1 : EGraph.empty.get Reassoc a with
  | none => simp [h1] at h
  | some x =>
    cases h2 : x.2.get Reassoc b with
    | none => simp [h1, h2] at h
    | some y =>
      cases h3 : y.2.print with
      | none => simp [h1, h2, h3] at h
      | some g3 =>
        simp only [h1, h2, h3, Option.bind_eq_bind, Option.some_bind] at h ⊢
        split
        · rename_i he
          rw [if_pos he] at h
          exact h
        · rename_i he
          rw [if_neg he] at h
          cases h4 : g3.saturate fuel with
          | none => simp [h4] at h
          | some g4 =>
            rw [EGraph.saturate_fuel_mono fuel g3 g4 h4 k]
            simpa [h4] using h

end Pre20

namespace Pre20

theorem float_refined_spins [LinearOrder expr] (Reassoc : Nat) (a b : expr) (na nb : Nat)
    (kl ka : Node) (v0 j : Nat) (hl : Option Nat) (U : List Nat)
    (mid : List Rb_tree_node_base) (midv : List (Node × Nat))
    (hint : interned Reassoc a b =
      some (na, nb, ⟨⟨U⟩, ⟨EGraph.spin_links hl mid, EGraph.spin_vals kl ka v0 j midv⟩⟩))
    (hne : na ≠ nb) (hU : U.getD j j = j) (hkl : kl.operation = .Leaf)
    (hka : ka.operation = .Add ∨ ka.operation = .Mul) (hsw : ka.op1 = ka.op2)
    (h1 : Node.lt_pre20 kl ka = true) (h2 : Node.lt_pre20 ka kl = true) (hhl : hl ≠ some 1)
    (hlen : midv.length = mid.length) :
    (∀ fuel, float_refined Reassoc fuel a b = none) ∧
      ∀ n, ∃ g : EGraph,
        (interned Reassoc a b).bind (fun x => x.2.2.passes n) = some g ∧
        g.nodes.size = midv.length + 2 + n := by
  constructor
  · intro fuel
    exact float_refined_of_saturate_none Reassoc fuel a b na nb _ hint hne
      (EGraph.spin_saturate kl ka v0 j hl U hU hkl hka hsw h1 h2 hhl fuel mid midv hlen)
  · intro n
    rw [hint, Option.some_bind]
    exact EGraph.spin_passes kl ka v0 j hl U hU hkl hka hsw h1 h2 hhl n mid midv hlen

end Pre20

/-! ## The node map as compiled: the loop of `saturate` on a map with more nodes -/

namespace Pre20

namespace Rb_tree

theorem wr_same (l : List Rb_tree_node_base) (p : Option Nat) (n : Rb_tree_node_base)
    (f : Rb_tree_node_base → Rb_tree_node_base) (h : rd l p = some n) (hf : f n = n) :
    wr l p f = some l := by
  cases p with
  | none => simp [rd] at h
  | some i =>
    simp only [rd] at h
    simp only [wr, h, hf]
    congr 1
    clear hf
    induction l generalizing i with
    | nil => simp at h
    | cons a t ih =>
      cases i with
      | zero =>
        simp only [List.getElem?_cons_zero, Option.some.injEq] at h
        rw [List.set_cons_zero, h]
      | succ i =>
        simp only [List.getElem?_cons_succ] at h
        rw [List.set_cons_succ, ih i h]

theorem loop_insert_and_rebalance (r : Nat) (p1 hl l1 : Option Nat) (hhl : hl ≠ some 1)
    (R : List Rb_tree_node_base) (blank nr : Rb_tree_node_base)
    (hroot : rd (⟨true, some r, hl, some 1⟩ :: ⟨false, p1, some (R.length + 2), none⟩ ::
      (R ++ [⟨true, some 1, none, none⟩])) (some r) = some nr) (hblack : nr.red = false) :
    insert_and_rebalance true (some (R.length + 2)) (some 1)
        (⟨true, some r, hl, some 1⟩ :: ⟨false, p1, l1, none⟩ :: (R ++ [blank])) =
      some (⟨true, some r, hl, some 1⟩ :: ⟨false, p1, some (R.length + 2), none⟩ ::
        (R ++ [⟨true, some 1, none, none⟩])) := by
  have hne : (some 1 : Option Nat) ≠ some 0 := by decide
  have hne2 : (some 1 : Option Nat) ≠ hl := fun h => hhl h.symm
  have hreb := rebalance_black
    (⟨true, some r, hl, some 1⟩ :: ⟨false, p1, some (R.length + 2), none⟩ ::
      (R ++ [⟨true, some 1, none, none⟩])) (some (R.length + 2))
    ((⟨true, some r, hl, some 1⟩ :: ⟨false, p1, some (R.length + 2), none⟩ ::
      (R ++ [⟨true, some 1, none, none⟩])).length) _ _ _ (rd_zero _ _) (rd_last _ _ _ _)
      (rd_one _ _ _) rfl
  have hwr := wr_same _ (some r) nr (fun n => { n with red := false }) hroot
    (by cases nr; simp only at hblack; subst hblack; rfl)
  simp only [insert_and_rebalance, wr_last, wr_one, rd_zero, rd_one, Option.bind_eq_bind,
    Option.some_bind, if_true, if_neg hne, if_neg hne2, Option.pure_def, hreb, hwr]

end Rb_tree

namespace EGraph

/-- Insertion of a key `k` into a map of the shape `loop_links`, when `lower_bound(k)`
is `end()` and each of `k` and the key `k1` of the rightmost node is less than the
other: the hint `end()` sends the insertion below the rightmost node, and
`_M_insert_node` links the new node on the left, in place of the node allocated
before. -/
theorem loop_emplace [LinearOrder expr] (r : Nat) (p1 hl : Option Nat) (k1 ka k : Node)
    (v1 j v : Nat) (R : List Rb_tree_node_base) (Rv : List (Node × Nat))
    (hhl : hl ≠ some 1) (nr : Rb_tree_node_base)
    (hroot : Rb_tree.rd (loop_links r p1 hl (R ++ [⟨true, some 1, none, none⟩])) (some r) =
      some nr) (hblack : nr.red = false)
    (h1 : Node.lt_pre20 k1 k = true) (h2 : Node.lt_pre20 k k1 = true)
    (hlb : Rb_tree.lower_bound Node.lt_pre20
      (⟨loop_links r p1 hl R, spin_vals k1 ka v1 j Rv⟩ : Rb_tree Node Nat) k = some (some 0)) :
    map_try_emplace Node.lt_pre20 ⟨loop_links r p1 hl R, spin_vals k1 ka v1 j Rv⟩ k v =
      some (⟨loop_links r p1 hl (R ++ [⟨true, some 1, none, none⟩]),
        spin_vals k1 k v1 v (Rv ++ [(ka, j)])⟩, some (R.length + 3), true) := by
  have hpos : Rb_tree.get_insert_hint_unique_pos Node.lt_pre20
      (⟨loop_links r p1 hl R, spin_vals k1 ka v1 j Rv⟩ : Rb_tree Node Nat) (some 0) k =
      some (none, some 1) := by
    simp [Rb_tree.get_insert_hint_unique_pos, loop_links, spin_vals, Rb_tree.rd,
      Rb_tree.key, Rb_tree.val, h1]
  have hroot1 : Rb_tree.rd ((⟨true, some r, hl, some 1⟩ : Rb_tree_node_base) ::
      ⟨false, p1, some ((R ++ [(⟨true, some 1, none, none⟩ : Rb_tree_node_base)]).length + 2),
        none⟩ ::
      ((R ++ [⟨true, some 1, none, none⟩]) ++ [⟨true, some 1, none, none⟩])) (some r) =
      some nr := hroot
  have hiar := Rb_tree.loop_insert_and_rebalance r p1 hl (some (R.length + 2)) hhl
    (R ++ [⟨true, some 1, none, none⟩]) ⟨true, none, none, none⟩ nr hroot1 hblack
  have hins : Rb_tree.insert_node Node.lt_pre20
      (⟨loop_links r p1 hl R, spin_vals k1 ka v1 j Rv⟩ : Rb_tree Node Nat) none (some 1) (k, v) =
      some (⟨loop_links r p1 hl (R ++ [⟨true, some 1, none, none⟩]),
        spin_vals k1 k v1 v (Rv ++ [(ka, j)])⟩, some (R.length + 3)) := by
    have e1 : R.length + 1 + 1 + 1 = R.length + 3 := by omega
    have e2 : R.length + 1 + 2 = R.length + 3 := by omega
    simp only [List.length_append, List.length_singleton, List.append_assoc,
      List.singleton_append, e2] at hiar
    simp [Rb_tree.insert_node, loop_links, spin_vals, Rb_tree.key, Rb_tree.val, h2, e1, e2,
      hiar]
  simp [map_try_emplace, hlb, Rb_tree.emplace_hint, hpos, hins]

theorem loop_decl_equivalent [LinearOrder expr] (r : Nat) (p1 hl : Option Nat)
    (k1 ka k : Node) (v1 j v : Nat) (U : List Nat) (hU : U.getD v v = v)
    (R : List Rb_tree_node_base) (Rv : List (Node × Nat))
    (hlen : Rv.length = R.length) (hhl : hl ≠ some 1) (nr : Rb_tree_node_base)
    (hroot : Rb_tree.rd (loop_links r p1 hl (R ++ [⟨true, some 1, none, none⟩])) (some r) =
      some nr) (hblack : nr.red = false)
    (h1 : Node.lt_pre20 k1 k = true) (h2 : Node.lt_pre20 k k1 = true)
    (hlb : Rb_tree.lower_bound Node.lt_pre20
      (⟨loop_links r p1 hl R, spin_vals k1 ka v1 j Rv⟩ : Rb_tree Node Nat) k = some (some 0)) :
    decl_equivalent ⟨⟨U⟩, ⟨loop_links r p1 hl R, spin_vals k1 ka v1 j Rv⟩⟩ k v =
      some ⟨⟨U⟩, ⟨loop_links r p1 hl (R ++ [⟨true, some 1, none, none⟩]),
        spin_vals k1 k v1 v (Rv ++ [(ka, j)])⟩⟩ := by
  have hval : Rb_tree.val (⟨loop_links r p1 hl (R ++ [⟨true, some 1, none, none⟩]),
      spin_vals k1 k v1 v (Rv ++ [(ka, j)])⟩ : Rb_tree Node Nat) (some (R.length + 3)) =
      some (k, v) := by
    have e : R.length + 2 = (Rv ++ [(ka, j)]).length + 1 := by simp [hlen]
    simp only [Rb_tree.val, spin_vals, e, List.getElem?_cons_succ]
    exact List.getElem?_concat_length _ _
  simp [decl_equivalent, loop_emplace r p1 hl k1 ka k v1 j v R Rv hhl nr hroot hblack
    h1 h2 hlb, hval, UnionFind.merge_root U v hU]

theorem saturate_pass_append [LinearOrder expr] (A B : List (Node × Nat)) :
    ∀ g : EGraph, saturate_pass (A ++ B) g = (saturate_pass A g).bind (saturate_pass B) := by
  induction A with
  | nil => intro g; rfl
  | cons a A ih =>
    intro g
    simp only [List.cons_append, saturate_pass, Option.bind_eq_bind]
    cases h : g.saturate_step a with
    | none => rfl
    | some g1 =>
      simp only [Option.some_bind]
      exact ih g1

theorem loop_step [LinearOrder expr] (r : Nat) (p1 hl : Option Nat) (k1 : Node) (v1 : Nat)
    (U : List Nat) (fix : List Rb_tree_node_base) (fixv E1 E2 : List (Node × Nat))
    (P : Node → Prop) (hS : LoopShape r p1 hl k1 v1 U fix fixv E1 E2 P)
    (e : Node × Nat) (he : e.1.operation = .Add ∨ e.1.operation = .Mul)
    (hP : P { e.1 with op1 := e.1.op2, op2 := e.1.op1 }) (hU : U.getD e.2 e.2 = e.2)
    (mid : List Rb_tree_node_base) (midv : List (Node × Nat)) (ka : Node) (j : Nat)
    (hlen : midv.length = mid.length) :
    saturate_step ⟨⟨U⟩, ⟨loop_links r p1 hl (fix ++ mid),
        spin_vals k1 ka v1 j (fixv ++ midv)⟩⟩ e =
      some ⟨⟨U⟩, ⟨loop_links r p1 hl (fix ++ (mid ++ [⟨true, some 1, none, none⟩])),
        spin_vals k1 { e.1 with op1 := e.1.op2, op2 := e.1.op1 } v1 e.2
          (fixv ++ (midv ++ [(ka, j)]))⟩⟩ := by
  obtain ⟨nr, hroot, hblack⟩ := hS.root_black (mid ++ [⟨true, some 1, none, none⟩])
  obtain ⟨h1, h2⟩ := hS.lt_right _ hP
  have hlb := hS.lower _ hP mid midv ka j hlen
  unfold saturate_step
  rw [if_pos he]
  rw [← List.append_assoc, ← List.append_assoc]
  rw [← List.append_assoc] at hroot
  exact loop_decl_equivalent r p1 hl k1 ka _ v1 j e.2 U hU (fix ++ mid) (fixv ++ midv)
    (by simp [hS.len, hlen]) hS.hl_ne nr hroot hblack h1 h2 hlb

/-- The `for` loop of `saturate` over entries whose swapped nodes are in `P`: every
entry to which the commutativity rule applies adds a node, which takes the place of
the node allocated before as the left child of the rightmost node. -/
theorem loop_pass [LinearOrder expr] (r : Nat) (p1 hl : Option Nat) (k1 : Node) (v1 : Nat)
    (U : List Nat) (fix : List Rb_tree_node_base) (fixv E1 E2 : List (Node × Nat))
    (P : Node → Prop) (hS : LoopShape r p1 hl k1 v1 U fix fixv E1 E2 P)
    (E : List (Node × Nat)) :
    (∀ e ∈ E, (e.1.operation = .Add ∨ e.1.operation = .Mul) →
      P { e.1 with op1 := e.1.op2, op2 := e.1.op1 } ∧ U.getD e.2 e.2 = e.2) →
    ∀ (mid : List Rb_tree_node_base) (midv : List (Node × Nat)) (ka : Node) (j : Nat),
      midv.length = mid.length →
      ∃ (mid1 : List Rb_tree_node_base) (midv1 : List (Node × Nat)) (ka1 : Node) (j1 : Nat),
        saturate_pass E ⟨⟨U⟩, ⟨loop_links r p1 hl (fix ++ mid),
            spin_vals k1 ka v1 j (fixv ++ midv)⟩⟩ =
          some ⟨⟨U⟩, ⟨loop_links r p1 hl (fix ++ mid1),
            spin_vals k1 ka1 v1 j1 (fixv ++ midv1)⟩⟩ ∧
        midv1.length = mid1.length ∧
        midv1.length = midv.length + count_commutative E ∧
        (count_commutative E = 0 → ka1 = ka ∧ j1 = j) := by
  induction E with
  | nil =>
    intro _ mid midv ka j hlen
    exact ⟨mid, midv, ka, j, rfl, hlen, by simp [count_commutative], fun _ => ⟨rfl, rfl⟩⟩
  | cons e E ih =>
    intro hE mid midv ka j hlen
    have hE1 : ∀ e1 ∈ E, (e1.1.operation = .Add ∨ e1.1.operation = .Mul) →
        P { e1.1 with op1 := e1.1.op2, op2 := e1.1.op1 } ∧ U.getD e1.2 e1.2 = e1.2 :=
      fun e1 h1 => hE e1 (List.mem_cons_of_mem _ h1)
    by_cases he : e.1.operation = .Add ∨ e.1.operation = .Mul
    · obtain ⟨hP, hU⟩ := hE e (List.mem_cons_self _ _) he
      have hstep := loop_step r p1 hl k1 v1 U fix fixv E1 E2 P hS e he hP hU mid midv ka j hlen
      obtain ⟨mid1, midv1, ka1, j1, hp, hl1, hl2, _⟩ :=
        ih hE1 (mid ++ [⟨true, some 1, none, none⟩]) (midv ++ [(ka, j)])
          { e.1 with op1 := e.1.op2, op2 := e.1.op1 } e.2 (by simp [hlen])
      refine ⟨mid1, midv1, ka1, j1, ?_, hl1, ?_, ?_⟩
      · simp only [saturate_pass, hstep, Option.bind_eq_bind, Option.some_bind, hp]
      · rw [hl2]
        simp [count_commutative, List.filter_cons, he]
        omega
      · intro h0
        simp [count_commutative, List.filter_cons, he] at h0
    · obtain ⟨mid1, midv1, ka1, j1, hp, hl1, hl2, hl3⟩ := ih hE1 mid midv ka j hlen
      have hstep : ∀ g : EGraph, saturate_step g e = some g := by
        intro g
        unfold saturate_step
        rw [if_neg he]
      refine ⟨mid1, midv1, ka1, j1, ?_, hl1, ?_, ?_⟩
      · simp only [saturate_pass, hstep, Option.bind_eq_bind, Option.some_bind, hp]
      · rw [hl2]
        simp [count_commutative, List.filter_cons, he]
      · intro h0
        apply hl3
        simpa [count_commutative, List.filter_cons, he] using h0

/-- One pass of `saturate` over an e-graph of the shape `LoopShape` whose node allocated
last holds an Add or Mul node `ka` with `ka` and the swapped `ka` in `P`: the pass has a
result of the same shape, with the swapped `ka` in the node allocated last and one more
entry for every entry of the copy to which the commutativity rule applies. -/
theorem loop_once [LinearOrder expr] (r : Nat) (p1 hl : Option Nat) (k1 : Node) (v1 : Nat)
    (U : List Nat) (fix : List Rb_tree_node_base) (fixv E1 E2 : List (Node × Nat))
    (P : Node → Prop) (hS : LoopShape r p1 hl k1 v1 U fix fixv E1 E2 P)
    (mid : List Rb_tree_node_base) (midv : List (Node × Nat)) (ka : Node) (j : Nat)
    (hlen : midv.length = mid.length) (hka : ka.operation = .Add ∨ ka.operation = .Mul)
    (hP : P { ka with op1 := ka.op2, op2 := ka.op1 }) (hU : U.getD j j = j) :
    ∃ (mid1 : List Rb_tree_node_base) (midv1 : List (Node × Nat)),
      saturate_once ⟨⟨U⟩, ⟨loop_links r p1 hl (fix ++ mid),
          spin_vals k1 ka v1 j (fixv ++ midv)⟩⟩ =
        some ⟨⟨U⟩, ⟨loop_links r p1 hl (fix ++ mid1),
          spin_vals k1 { ka with op1 := ka.op2, op2 := ka.op1 } v1 j (fixv ++ midv1)⟩⟩ ∧
      midv1.length = mid1.length ∧
      midv1.length = midv.length + count_commutative E1 + 1 := by
  obtain ⟨mid1, midv1, ka1, j1, hp1, hl1, hl2, _⟩ :=
    loop_pass r p1 hl k1 v1 U fix fixv E1 E2 P hS E1 hS.first mid midv ka j hlen
  have hstep := loop_step r p1 hl k1 v1 U fix fixv E1 E2 P hS (ka, j) hka hP hU
    mid1 midv1 ka1 j1 hl1
  obtain ⟨mid2, midv2, ka2, j2, hp2, hl3, hl4, hl5⟩ :=
    loop_pass r p1 hl k1 v1 U fix fixv E1 E2 P hS E2
      (fun e he hc => absurd hc (hS.second e he))
      (mid1 ++ [⟨true, some 1, none, none⟩]) (midv1 ++ [(ka1, j1)])
      { ka with op1 := ka.op2, op2 := ka.op1 } j (by simp [hl1])
  have hc0 : count_commutative E2 = 0 := by
    simp only [count_commutative, List.length_eq_zero, List.filter_eq_nil_iff]
    intro e he
    simpa using hS.second e he
  obtain ⟨e1, e2⟩ := hl5 hc0
  rw [e1, e2] at hp2
  refine ⟨mid2, midv2, ?_, hl3, ?_⟩
  · have hroot : Rb_tree.rd (loop_links r p1 hl (fix ++ mid)) (some 0) =
        some ⟨true, some r, hl, some 1⟩ := by
      simp [loop_links, Rb_tree.rd]
    simp only [saturate_once, hroot, Option.bind_eq_bind, Option.some_bind,
      hS.copy mid midv ka j hlen]
    rw [saturate_pass_append, hp1, Option.some_bind]
    simp only [saturate_pass, hstep, Option.bind_eq_bind, Option.some_bind]
    exact hp2
  · rw [hl4, hc0]
    simp [hl2]

theorem loop_saturate [LinearOrder expr] (r : Nat) (p1 hl : Option Nat) (k1 : Node) (v1 : Nat)
    (U : List Nat) (fix : List Rb_tree_node_base) (fixv E1 E2 : List (Node × Nat))
    (P : Node → Prop) (hS : LoopShape r p1 hl k1 v1 U fix fixv E1 E2 P) (j : Nat)
    (hU : U.getD j j = j) (fuel : Nat) :
    ∀ (mid : List Rb_tree_node_base) (midv : List (Node × Nat)) (ka : Node),
      midv.length = mid.length → (ka.operation = .Add ∨ ka.operation = .Mul) →
      P ka → P { ka with op1 := ka.op2, op2 := ka.op1 } →
      saturate fuel ⟨⟨U⟩, ⟨loop_links r p1 hl (fix ++ mid),
        spin_vals k1 ka v1 j (fixv ++ midv)⟩⟩ = none := by
  induction fuel with
  | zero => intro mid midv ka _ _ _ _; rfl
  | succ fuel ih =>
    intro mid midv ka hlen hka hP1 hP2
    obtain ⟨mid1, midv1, h1, hl1, hl2⟩ :=
      loop_once r p1 hl k1 v1 U fix fixv E1 E2 P hS mid midv ka j hlen hka hP2 hU
    rw [saturate, h1]
    have hsize : (spin_vals k1 { ka with op1 := ka.op2, op2 := ka.op1 } v1 j
        (fixv ++ midv1)).length ≠ (spin_vals k1 ka v1 j (fixv ++ midv)).length := by
      simp [spin_vals, hl2]
      omega
    simp only [Option.bind_eq_bind, Option.some_bind, Rb_tree.size]
    rw [if_neg hsize]
    exact ih mid1 midv1 _ hl1 hka hP2 hP1

theorem loop_passes [LinearOrder expr] (r : Nat) (p1 hl : Option Nat) (k1 : Node) (v1 : Nat)
    (U : List Nat) (fix : List Rb_tree_node_base) (fixv E1 E2 : List (Node × Nat))
    (P : Node → Prop) (hS : LoopShape r p1 hl k1 v1 U fix fixv E1 E2 P) (j : Nat)
    (hU : U.getD j j = j) (n : Nat) :
    ∀ (mid : List Rb_tree_node_base) (midv : List (Node × Nat)) (ka : Node),
      midv.length = mid.length → (ka.operation = .Add ∨ ka.operation = .Mul) →
      P ka → P { ka with op1 := ka.op2, op2 := ka.op1 } →
      ∃ g : EGraph,
        passes n ⟨⟨U⟩, ⟨loop_links r p1 hl (fix ++ mid),
          spin_vals k1 ka v1 j (fixv ++ midv)⟩⟩ = some g ∧
        g.nodes.size = fixv.length + midv.length + 2 + n * (count_commutative E1 + 1) := by
  induction n with
  | zero =>
    intro mid midv ka _ _ _ _
    exact ⟨_, rfl, by simp [Rb_tree.size, spin_vals]; omega⟩
  | succ n ih =>
    intro mid midv ka hlen hka hP1 hP2
    obtain ⟨mid1, midv1, h1, hl1, hl2⟩ :=
      loop_once r p1 hl k1 v1 U fix fixv E1 E2 P hS mid midv ka j hlen hka hP2 hU
    obtain ⟨g, hg, hs⟩ := ih mid1 midv1 { ka with op1 := ka.op2, op2 := ka.op1 } hl1 hka hP2 hP1
    refine ⟨g, ?_, ?_⟩
    · rw [passes, h1, Option.some_bind]
      exact hg
    · rw [hs, hl2]
      ring

end EGraph

/-- A call of `float_refined` whose first statements leave an e-graph of the shape
`LoopShape` does not return: every pass of `saturate` has a result and adds the same
number of entries, at least one. -/
theorem float_refined_loops [LinearOrder expr] (Reassoc : Nat) (a b : expr) (na nb : Nat)
    (r : Nat) (p1 hl : Option Nat) (k1 : Node) (v1 : Nat)
    (U : List Nat) (fix : List Rb_tree_node_base) (fixv E1 E2 : List (Node × Nat))
    (P : Node → Prop) (hS : EGraph.LoopShape r p1 hl k1 v1 U fix fixv E1 E2 P) (j : Nat)
    (hU : U.getD j j = j) (mid : List Rb_tree_node_base) (midv : List (Node × Nat)) (ka : Node)
    (hlen : midv.length = mid.length) (hka : ka.operation = .Add ∨ ka.operation = .Mul)
    (hP1 : P ka) (hP2 : P { ka with op1 := ka.op2, op2 := ka.op1 })
    (hint : interned Reassoc a b =
      some (na, nb, ⟨⟨U⟩, ⟨EGraph.loop_links r p1 hl (fix ++ mid),
        EGraph.spin_vals k1 ka v1 j (fixv ++ midv)⟩⟩))
    (hne : na ≠ nb) :
    (∀ fuel, float_refined Reassoc fuel a b = none) ∧
      ∀ n, ∃ g : EGraph,
        (interned Reassoc a b).bind (fun x => x.2.2.passes n) = some g ∧
        g.nodes.size =
          fixv.length + midv.length + 2 + n * (EGraph.count_commutative E1 + 1) := by
  constructor
  · intro fuel
    exact float_refined_of_saturate_none Reassoc fuel a b na nb _ hint hne
      (EGraph.loop_saturate r p1 hl k1 v1 U fix fixv E1 E2 P hS j hU fuel mid midv ka hlen
        hka hP1 hP2)
  · intro n
    rw [hint, Option.some_bind]
    exact EGraph.loop_passes r p1 hl k1 v1 U fix fixv E1 E2 P hS j hU n mid midv ka hlen
      hka hP1 hP2

end Pre20

namespace Pre20

namespace EGraph

theorem getElem?_append_some {α : Type} (l m : List α) (i : Nat) (a : α)
    (h : l[i]? = some a) : (l ++ m)[i]? = some a := by
  induction l generalizing i with
  | nil => simp at h
  | cons b t ih =>
    cases i with
    | zero => simpa using h
    | succ i =>
      simp only [List.cons_append, List.getElem?_cons_succ] at h ⊢
      exact ih i h

theorem loop_rd_fix (r : Nat) (p1 hl : Option Nat) (fix mid : List Rb_tree_node_base)
    (i : Nat) (n : Rb_tree_node_base) (h : fix[i]? = some n) :
    Rb_tree.rd (loop_links r p1 hl (fix ++ mid)) (some (i + 2)) = some n := by
  simp only [Rb_tree.rd, loop_links, List.getElem?_cons_succ, List.append_assoc]
  exact getElem?_append_some _ _ _ _ h

theorem loop_val_fix (l : List Rb_tree_node_base) (k1 ka : Node) (v1 j : Nat)
    (fixv midv : List (Node × Nat)) (i : Nat) (e : Node × Nat) (h : fixv[i]? = some e) :
    Rb_tree.val (⟨l, spin_vals k1 ka v1 j (fixv ++ midv)⟩ : Rb_tree Node Nat) (some (i + 2)) =
      some e := by
  simp only [Rb_tree.val, spin_vals, List.getElem?_cons_succ, List.append_assoc]
  exact getElem?_append_some _ _ _ _ h

theorem loop_copy_right (r : Nat) (p1 hl : Option Nat) (k1 ka : Node) (v1 j : Nat)
    (R : List Rb_tree_node_base) (Rv : List (Node × Nat)) (hlen : Rv.length = R.length)
    (fuel : Nat) :
    Rb_tree.copy_entries (⟨loop_links r p1 hl R, spin_vals k1 ka v1 j Rv⟩ : Rb_tree Node Nat)
      (fuel + 2) (some 1) = some [(ka, j), (k1, v1)] := by
  have hrd1 : Rb_tree.rd (loop_links r p1 hl R) (some 1) =
      some ⟨false, p1, some (R.length + 2), none⟩ := Rb_tree.rd_one _ _ _
  have hrd2 : Rb_tree.rd (loop_links r p1 hl R) (some (R.length + 2)) =
      some ⟨true, some 1, none, none⟩ := Rb_tree.rd_last _ _ _ _
  have hval1 : Rb_tree.val (⟨loop_links r p1 hl R, spin_vals k1 ka v1 j Rv⟩ : Rb_tree Node Nat)
      (some 1) = some (k1, v1) := by
    simp [Rb_tree.val, spin_vals]
  have hval2 : Rb_tree.val (⟨loop_links r p1 hl R, spin_vals k1 ka v1 j Rv⟩ : Rb_tree Node Nat)
      (some (R.length + 2)) = some (ka, j) := by
    rw [← hlen]
    simp only [Rb_tree.val, spin_vals, List.getElem?_cons_succ]
    exact List.getElem?_concat_length _ _
  rw [Rb_tree.copy_entries]
  simp only [hrd1, hval1, Option.bind_eq_bind, Option.some_bind]
  have hl2 : Rb_tree.copy_entries
      (⟨loop_links r p1 hl R, spin_vals k1 ka v1 j Rv⟩ : Rb_tree Node Nat) (fuel + 1)
      (some (R.length + 2)) = some [(ka, j)] := by
    rw [Rb_tree.copy_entries]
    simp only [hrd2, hval2, Option.bind_eq_bind, Option.some_bind]
    cases fuel <;> simp [Rb_tree.copy_entries]
  rw [hl2]
  cases fuel <;> simp [Rb_tree.copy_entries]

/-- The shape `LoopShape` from the nodes of the tree: the root is the black node
`i + 2`, its right child is the rightmost node 1 and its left child `i1 + 2` has no
children; every key of `P` is greater than the key of the root, so that its lookup goes
right at the root and, being greater than the key of node 1 as well, ends at `end()`. -/
theorem LoopShape.of_tree [LinearOrder expr] (i i1 : Nat) (p1 hl : Option Nat)
    (k1 kr kl : Node) (v1 vr vl : Nat) (U : List Nat) (fix : List Rb_tree_node_base)
    (fixv : List (Node × Nat)) (P : Node → Prop) (nr nl : Rb_tree_node_base)
    (hhl : hl ≠ some 1) (hlen : fixv.length = fix.length)
    (hr : fix[i]? = some nr) (hrb : nr.red = false) (hrl : nr.left = some (i1 + 2))
    (hrr : nr.right = some 1) (hkr : fixv[i]? = some (kr, vr))
    (hnl : fix[i1]? = some nl) (hll : nl.left = none) (hlr : nl.right = none)
    (hkl : fixv[i1]? = some (kl, vl))
    (hk1 : ¬ (k1.operation = .Add ∨ k1.operation = .Mul))
    (hP : ∀ k, P k → Node.lt_pre20 kr k = true ∧ Node.lt_pre20 k1 k = true ∧
      Node.lt_pre20 k k1 = true)
    (hfirst : ∀ e ∈ [(kl, vl), (kr, vr)], (e.1.operation = .Add ∨ e.1.operation = .Mul) →
      P { e.1 with op1 := e.1.op2, op2 := e.1.op1 } ∧ U.getD e.2 e.2 = e.2) :
    LoopShape (i + 2) p1 hl k1 v1 U fix fixv [(kl, vl), (kr, vr)] [(k1, v1)] P := by
  refine ⟨hhl, hlen, fun mid => ⟨nr, loop_rd_fix _ _ _ _ _ _ _ hr, hrb⟩,
    fun k hk => ⟨(hP k hk).2.1, (hP k hk).2.2⟩, ?_, ?_, hfirst, ?_⟩
  · intro k hk mid midv ka j _
    obtain ⟨h1, h2, _⟩ := hP k hk
    have hroot : Rb_tree.rd (loop_links (i + 2) p1 hl (fix ++ mid)) (some 0) =
        some ⟨true, some (i + 2), hl, some 1⟩ := Rb_tree.rd_zero _ _
    have hrdr := loop_rd_fix (i + 2) p1 hl fix mid i nr hr
    have hvr := loop_val_fix (loop_links (i + 2) p1 hl (fix ++ mid)) k1 ka v1 j fixv midv i
      (kr, vr) hkr
    have hrd1 : Rb_tree.rd (loop_links (i + 2) p1 hl (fix ++ mid)) (some 1) =
        some ⟨false, p1, some ((fix ++ mid).length + 2), none⟩ := Rb_tree.rd_one _ _ _
    have hv1 : Rb_tree.val (⟨loop_links (i + 2) p1 hl (fix ++ mid),
        spin_vals k1 ka v1 j (fixv ++ midv)⟩ : Rb_tree Node Nat) (some 1) = some (k1, v1) := by
      simp [Rb_tree.val, spin_vals]
    have hlen3 : (loop_links (i + 2) p1 hl (fix ++ mid)).length + 1 =
        ((fix ++ mid).length + 1 + 1) + 1 + 1 := by
      simp [loop_links]
      omega
    simp only [Rb_tree.lower_bound, hroot, Option.bind_eq_bind, Option.some_bind, hlen3,
      Rb_tree.lower_bound_loop, Rb_tree.key, hvr, hrdr, Option.map_some', h1, h2, Bool.not_true,
      Bool.false_eq_true, if_false, hrr, hv1, hrd1]
  · intro mid midv ka j hl2
    have hrdr := loop_rd_fix (i + 2) p1 hl fix mid i nr hr
    have hvr := loop_val_fix (loop_links (i + 2) p1 hl (fix ++ mid)) k1 ka v1 j fixv midv i
      (kr, vr) hkr
    have hrdl := loop_rd_fix (i + 2) p1 hl fix mid i1 nl hnl
    have hvl := loop_val_fix (loop_links (i + 2) p1 hl (fix ++ mid)) k1 ka v1 j fixv midv i1
      (kl, vl) hkl
    have hlen3 : (loop_links (i + 2) p1 hl (fix ++ mid)).length + 1 =
        ((fix ++ mid).length + 1 + 2) + 1 := by
      simp [loop_links]
      omega
    have hright := loop_copy_right (i + 2) p1 hl k1 ka v1 j (fix ++ mid) (fixv ++ midv)
      (by simp [hlen, hl2]) ((fix ++ mid).length + 1)
    have hleft : Rb_tree.copy_entries (⟨loop_links (i + 2) p1 hl (fix ++ mid),
        spin_vals k1 ka v1 j (fixv ++ midv)⟩ : Rb_tree Node Nat)
        ((fix ++ mid).length + 1 + 2) (some (i1 + 2)) = some [(kl, vl)] := by
      rw [Rb_tree.copy_entries]
      simp only [hrdl, hvl, Option.bind_eq_bind, Option.some_bind, hll, hlr,
        Rb_tree.copy_entries, Option.pure_def, List.nil_append]
    rw [hlen3, Rb_tree.copy_entries]
    simp only [hrdr, hvr, Option.bind_eq_bind, Option.some_bind, hrl, hrr, hleft, hright,
      Option.pure_def, List.singleton_append, List.cons_append, List.nil_append]
  · intro e he
    simp only [List.mem_singleton] at he
    rw [he]
    exact hk1

end EGraph

end Pre20

/-! ## The node map as compiled: interning -/

namespace Pre20

namespace Rb_tree

variable {K V : Type}

end Rb_tree

namespace Rb_tree

variable {K V : Type}

end Rb_tree

namespace EGraph

theorem get_loop_of_leaf [LinearOrder expr] (Reassoc : Nat) (e : expr) (he : e.is_leaf = true)
    (flags : Nat) (g : EGraph) :
    get_loop Reassoc e flags g = g.get_node ⟨.Leaf, 0, 0, e, .null, flags⟩ := by
  cases e <;> simp [expr.is_leaf] at he <;> simp [get_loop]

end EGraph

end Pre20

/-! ## The node map as compiled: two leaves -/

namespace Pre20

namespace Rb_tree

theorem rebalance_root (l : List Rb_tree_node_base) (x : Option Nat) (fuel : Nat)
    (h : (rd l (some 0)).map (fun n => n.parent) = some x) :
    rebalance l (fuel + 1) x = some l := by
  rw [rebalance]
  cases h0 : rd l (some 0) with
  | none => simp [h0] at h
  | some n =>
    simp only [h0, Option.map_some', Option.some.injEq] at h
    simp [h]

theorem rebalance_black_parent (l : List Rb_tree_node_base) (x : Option Nat) (fuel : Nat)
    (h0 : (rd l (some 0)).isSome = true)
    (h : ((rd l x).bind (fun nx => rd l nx.parent)).map (fun n => n.red) = some false) :
    rebalance l (fuel + 1) x = some l := by
  rw [rebalance]
  cases h1 : rd l (some 0) with
  | none => simp [h1] at h0
  | some hdr =>
    cases h2 : rd l x with
    | none => simp [h2] at h
    | some nx =>
      cases h3 : rd l nx.parent with
      | none => simp [h2, h3] at h
      | some np =>
        simp only [h2, h3, Option.some_bind, Option.map_some', Option.some.injEq] at h
        simp [h2, h3, h]

end Rb_tree

theorem leaf_lt_pre20 [LinearOrder expr] (a b : expr) :
    Node.lt_pre20 ⟨.Leaf, 0, 0, a, .null, 0⟩ ⟨.Leaf, 0, 0, b, .null, 0⟩ = decide (a < b) := by
  simp [Node.lt_pre20]

namespace EGraph

theorem get_first_leaf [LinearOrder expr] (a : expr) :
    EGraph.empty.get_node ⟨.Leaf, 0, 0, a, .null, 0⟩ =
      some (0, ⟨⟨[0]⟩, ⟨[⟨true, some 1, some 1, some 1⟩, ⟨false, some 0, none, none⟩],
        [(⟨.Leaf, 0, 0, a, .null, 0⟩, 0)]⟩⟩) := by
  simp [get_node, map_try_emplace, EGraph.empty, Rb_tree.empty, Rb_tree.lower_bound,
    Rb_tree.rd, Rb_tree.lower_bound_loop, Rb_tree.emplace_hint,
    Rb_tree.get_insert_hint_unique_pos, Rb_tree.get_insert_unique_pos, Rb_tree.unique_pos_loop,
    Rb_tree.insert_node, Rb_tree.insert_and_rebalance, Rb_tree.wr, Rb_tree.rebalance_root,
    UnionFind.mk, Rb_tree.set_second]

theorem get_second_leaf [LinearOrder expr] (a b : expr) (hab : a ≠ b) :
    ∃ nodes : Rb_tree Node Nat,
      get_node ⟨⟨[0]⟩, ⟨[⟨true, some 1, some 1, some 1⟩, ⟨false, some 0, none, none⟩],
          [(⟨.Leaf, 0, 0, a, .null, 0⟩, 0)]⟩⟩ ⟨.Leaf, 0, 0, b, .null, 0⟩ =
        some (1, ⟨⟨[0, 1]⟩, nodes⟩) ∧
      (nodes = ⟨[⟨true, some 1, some 1, some 2⟩, ⟨false, some 0, none, some 2⟩,
          ⟨true, some 1, none, none⟩],
          [(⟨.Leaf, 0, 0, a, .null, 0⟩, 0), (⟨.Leaf, 0, 0, b, .null, 0⟩, 1)]⟩ ∨
        nodes = ⟨[⟨true, some 1, some 2, some 1⟩, ⟨false, some 0, some 2, none⟩,
          ⟨true, some 1, none, none⟩],
          [(⟨.Leaf, 0, 0, a, .null, 0⟩, 0), (⟨.Leaf, 0, 0, b, .null, 0⟩, 1)]⟩) := by
  rcases lt_or_gt_of_ne hab with h | h
  · have h2 : ¬ b < a := not_lt_of_gt h
    refine ⟨_, ?_, Or.inl rfl⟩
    simp [get_node, map_try_emplace, Rb_tree.lower_bound,
      Rb_tree.rd, Rb_tree.lower_bound_loop, Rb_tree.emplace_hint, Rb_tree.key, Rb_tree.val,
      Rb_tree.get_insert_hint_unique_pos, leaf_lt_pre20, h, h2,
      Rb_tree.insert_node, Rb_tree.insert_and_rebalance, Rb_tree.wr,
      Rb_tree.rebalance_black_parent, UnionFind.mk, Rb_tree.set_second]
  · have h2 : ¬ a < b := not_lt_of_gt h
    refine ⟨_, ?_, Or.inr rfl⟩
    simp [get_node, map_try_emplace, Rb_tree.lower_bound,
      Rb_tree.rd, Rb_tree.lower_bound_loop, Rb_tree.emplace_hint, Rb_tree.key, Rb_tree.val,
      Rb_tree.get_insert_hint_unique_pos, leaf_lt_pre20, h, h2,
      Rb_tree.insert_node, Rb_tree.insert_and_rebalance, Rb_tree.wr,
      Rb_tree.rebalance_black_parent, UnionFind.mk, Rb_tree.set_second]

theorem root_of_roots (g : EGraph) (hU : ∀ j, g.uf.id.getD j j = j) (n : Nat) :
    g.root n = (n, g) := by
  unfold root
  obtain ⟨⟨U⟩, nodes⟩ := g
  simp only at hU ⊢
  rw [UnionFind.find_root U n (hU n)]

theorem print_node_of_roots (g : EGraph) (hU : ∀ j, g.uf.id.getD j j = j) (n : Node) :
    g.print_node n = g := by
  unfold print_node
  split
  · rfl
  · simp only [root_of_roots g hU]
    split <;> rfl

theorem print_roots_of_roots (g : EGraph) (hU : ∀ j, g.uf.id.getD j j = j)
    (l : List (Node × Nat)) : (print_roots l g).2 = g := by
  induction l with
  | nil => rfl
  | cons x rest ih =>
    simp only [print_roots, root_of_roots g hU]
    exact ih

theorem foldl_print_node_of_roots (g : EGraph) (hU : ∀ j, g.uf.id.getD j j = j)
    (l : List (Nat × Node)) : l.foldl (fun g3 x => g3.print_node x.2) g = g := by
  induction l with
  | nil => rfl
  | cons x rest ih => rw [List.foldl_cons, print_node_of_roots g hU, ih]

theorem print_of_roots (g : EGraph) (hU : ∀ j, g.uf.id.getD j j = j)
    (l : List (Node × Nat)) (he : g.nodes.entries = some l) : g.print = some g := by
  unfold print
  simp only [he, Option.bind_eq_bind, Option.some_bind, Option.pure_def, Option.some.injEq]
  have h2 := print_roots_of_roots g hU l
  generalize print_roots l g = pr at h2 ⊢
  obtain ⟨sorted, g1⟩ := pr
  simp only at h2 ⊢
  subst h2
  generalize List.range ((sorted.map (fun x => x.1 + 1)).foldl max 0) = rng
  induction rng with
  | nil => rfl
  | cons i rest ih => rw [List.foldl_cons, foldl_print_node_of_roots g1 hU, ih]

theorem two_leaves_entries (a b : expr) (nodes : Rb_tree Node Nat)
    (h : nodes = ⟨[⟨true, some 1, some 1, some 2⟩, ⟨false, some 0, none, some 2⟩,
          ⟨true, some 1, none, none⟩],
          [(⟨.Leaf, 0, 0, a, .null, 0⟩, 0), (⟨.Leaf, 0, 0, b, .null, 0⟩, 1)]⟩ ∨
        nodes = ⟨[⟨true, some 1, some 2, some 1⟩, ⟨false, some 0, some 2, none⟩,
          ⟨true, some 1, none, none⟩],
          [(⟨.Leaf, 0, 0, a, .null, 0⟩, 0), (⟨.Leaf, 0, 0, b, .null, 0⟩, 1)]⟩) :
    ∃ l, nodes.entries = some l := by
  rcases h with h | h <;> subst h
  · have i1 : Rb_tree.increment [⟨true, some 1, some 1, some 2⟩, ⟨false, some 0, none, some 2⟩,
        ⟨true, some 1, none, none⟩] (some 1) = some (some 2) := by decide
    have i2 : Rb_tree.increment [⟨true, some 1, some 1, some 2⟩, ⟨false, some 0, none, some 2⟩,
        ⟨true, some 1, none, none⟩] (some 2) = some (some 0) := by decide
    refine ⟨[(⟨.Leaf, 0, 0, a, .null, 0⟩, 0), (⟨.Leaf, 0, 0, b, .null, 0⟩, 1)], ?_⟩
    simp only [Rb_tree.entries, Rb_tree.rd_zero, Option.bind_eq_bind, Option.some_bind,
      List.length_cons, List.length_nil, Nat.zero_add, Nat.reduceAdd]
    rw [Rb_tree.entries_loop, if_neg (by decide)]
    simp only [i1, Rb_tree.val, List.getElem?_cons_zero, Option.bind_eq_bind, Option.some_bind]
    rw [Rb_tree.entries_loop, if_neg (by decide)]
    simp only [i2, Rb_tree.val, List.getElem?_cons_succ, List.getElem?_cons_zero,
      Option.bind_eq_bind, Option.some_bind]
    rw [Rb_tree.entries_loop, if_pos rfl]
    rfl
  · have i1 : Rb_tree.increment [⟨true, some 1, some 2, some 1⟩, ⟨false, some 0, some 2, none⟩,
        ⟨true, some 1, none, none⟩] (some 2) = some (some 1) := by decide
    have i2 : Rb_tree.increment [⟨true, some 1, some 2, some 1⟩, ⟨false, some 0, some 2, none⟩,
        ⟨true, some 1, none, none⟩] (some 1) = some (some 0) := by decide
    refine ⟨[(⟨.Leaf, 0, 0, b, .null, 0⟩, 1), (⟨.Leaf, 0, 0, a, .null, 0⟩, 0)], ?_⟩
    simp only [Rb_tree.entries, Rb_tree.rd_zero, Option.bind_eq_bind, Option.some_bind,
      List.length_cons, List.length_nil, Nat.zero_add, Nat.reduceAdd]
    rw [Rb_tree.entries_loop, if_neg (by decide)]
    simp only [i1, Rb_tree.val, List.getElem?_cons_succ, List.getElem?_cons_zero,
      Option.bind_eq_bind, Option.some_bind]
    rw [Rb_tree.entries_loop, if_neg (by decide)]
    simp only [i2, Rb_tree.val, List.getElem?_cons_zero, Option.bind_eq_bind, Option.some_bind]
    rw [Rb_tree.entries_loop, if_pos rfl]
    rfl

theorem two_leaves_saturate [LinearOrder expr] (a b : expr) (fuel : Nat)
    (nodes : Rb_tree Node Nat)
    (h : nodes = ⟨[⟨true, some 1, some 1, some 2⟩, ⟨false, some 0, none, some 2⟩,
          ⟨true, some 1, none, none⟩],
          [(⟨.Leaf, 0, 0, a, .null, 0⟩, 0), (⟨.Leaf, 0, 0, b, .null, 0⟩, 1)]⟩ ∨
        nodes = ⟨[⟨true, some 1, some 2, some 1⟩, ⟨false, some 0, some 2, none⟩,
          ⟨true, some 1, none, none⟩],
          [(⟨.Leaf, 0, 0, a, .null, 0⟩, 0), (⟨.Leaf, 0, 0, b, .null, 0⟩, 1)]⟩) :
    saturate (fuel + 1) ⟨⟨[0, 1]⟩, nodes⟩ = some ⟨⟨[0, 1]⟩, nodes⟩ := by
  rcases h with h | h <;> subst h
  · simp [saturate, saturate_once, Rb_tree.rd, Rb_tree.copy_entries, Rb_tree.val,
      saturate_pass, saturate_step]
  · simp [saturate, saturate_once, Rb_tree.rd, Rb_tree.copy_entries, Rb_tree.val,
      saturate_pass, saturate_step]

end EGraph

theorem float_refined_two_leaves [LinearOrder expr] (Reassoc fuel : Nat) (a b : expr)
    (ha : a.is_leaf = true) (hb : b.is_leaf = true) (hab : a ≠ b) :
    float_refined Reassoc (fuel + 1) a b = some false := by
  obtain ⟨nodes, h2, hn⟩ := EGraph.get_second_leaf a b hab
  obtain ⟨l, he⟩ := EGraph.two_leaves_entries a b nodes hn
  have hU : ∀ j, (⟨⟨[0, 1]⟩, nodes⟩ : EGraph).uf.id.getD j j = j := by
    intro j
    match j with
    | 0 => rfl
    | 1 => rfl
    | j + 2 => rfl
  have hp := EGraph.print_of_roots ⟨⟨[0, 1]⟩, nodes⟩ hU l he
  have hs := EGraph.two_leaves_saturate a b fuel nodes hn
  simp [float_refined, EGraph.get, EGraph.get_loop_of_leaf Reassoc a ha,
    EGraph.get_loop_of_leaf Reassoc b hb, EGraph.get_first_leaf, h2, hp, hs,
    EGraph.root_of_roots _ hU]

end Pre20

/-! ## Claims on the e-graph as compiled -/

set_option maxRecDepth 100000 in
/-- C3, evaluation. In the build before C++20, with the expressions ordered by their
code: the two calls of `get` for `x0 - x1` return the ids 2 and 4, because the second
call misses the leaf `x0`, which the node map holds under the id 1, gives it the id 3
and so builds the node `Sub(3, 0)` next to `Sub(1, 0)`; `saturate` returns after its
first pass and `float_refined(x0 - x1, x0 - x1)` returns false. The two calls of `get`
for `x0 + x0` return the ids 1 and 2, and `float_refined(x0 + x0, x0 + x0)` returns for
no number of passes. -/
theorem C3_float_refined_refl_eval :
    (@Pre20.interned expr.code_order 32 (.fpsub (.var 9) (.var 0) (.var 1))
        (.fpsub (.var 9) (.var 0) (.var 1))).map (fun x => (x.1, x.2.1, x.2.2.nodes.vals)) =
        some (2, 4, [(⟨.Leaf, 0, 0, .var 1, .null, 0⟩, 0), (⟨.Leaf, 0, 0, .var 0, .null, 0⟩, 1),
          (⟨.Sub, 1, 0, .null, .var 9, 0⟩, 2), (⟨.Leaf, 0, 0, .var 0, .null, 0⟩, 3),
          (⟨.Sub, 3, 0, .null, .var 9, 0⟩, 4)]) ∧
      (∀ fuel, @Pre20.float_refined expr.code_order 32 (fuel + 1)
        (.fpsub (.var 9) (.var 0) (.var 1)) (.fpsub (.var 9) (.var 0) (.var 1)) =
          some false) ∧
      (@Pre20.interned expr.code_order 32 (.fpadd (.var 9) (.var 0) (.var 0))
        (.fpadd (.var 9) (.var 0) (.var 0))).map (fun x => (x.1, x.2.1)) = some (1, 2) ∧
      (∀ fuel, @Pre20.float_refined expr.code_order 32 fuel
        (.fpadd (.var 9) (.var 0) (.var 0)) (.fpadd (.var 9) (.var 0) (.var 0)) = none) := by
  refine ⟨by decide, ?_, by decide, ?_⟩
  · intro fuel
    have h := @Pre20.float_refined_fuel_mono expr.code_order 32 1
      (.fpsub (.var 9) (.var 0) (.var 1)) (.fpsub (.var 9) (.var 0) (.var 1)) false
      (by decide) fuel
    rwa [Nat.add_comm] at h
  · exact (@Pre20.float_refined_spins expr.code_order 32 _ _ 1 2
      ⟨.Leaf, 0, 0, .var 0, .null, 0⟩ ⟨.Add, 0, 0, .null, .var 9, 0⟩ 0 2 (some 2) [0, 1, 2]
      [⟨true, some 1, none, none⟩] [(⟨.Add, 0, 0, .null, .var 9, 0⟩, 1)]
      (by decide) (by decide) (by decide) rfl (Or.inl rfl) rfl (by decide) (by decide)
      (by decide) rfl).1

set_option maxRecDepth 100000 in
/-- C2, evaluation. In the build before C++20, with the expressions ordered by their
code: `float_refined(x0 + x0, x0 + x0)`, the case `a = b`, returns for no number of
passes. For the distinct leaves `x0` and `x1` the expressions `x0 + x1` and `x1 + x0` are
interned under the ids 2 and 4 in a map of 5 entries, every pass of `saturate` has a
result and adds two entries (the swapped nodes of `Add(1, 0)` and of the node inserted
last, which the map does not find again), and `float_refined(x0 + x1, x1 + x0)`
returns for no number of passes; the same holds for `x0 * x1` and `x1 * x0`. -/
theorem C2_commuted_operands_eval :
    (∀ fuel, @Pre20.float_refined expr.code_order 32 fuel
        (.fpadd (.var 9) (.var 0) (.var 0)) (.fpadd (.var 9) (.var 0) (.var 0)) = none) ∧
      (@Pre20.interned expr.code_order 32 (.fpadd (.var 9) (.var 0) (.var 1))
          (.fpadd (.var 9) (.var 1) (.var 0))).map (fun x => (x.1, x.2.1)) = some (2, 4) ∧
      (∀ fuel, @Pre20.float_refined expr.code_order 32 fuel
        (.fpadd (.var 9) (.var 0) (.var 1)) (.fpadd (.var 9) (.var 1) (.var 0)) = none) ∧
      (∀ n, ∃ g : Pre20.EGraph,
        (@Pre20.interned expr.code_order 32 (.fpadd (.var 9) (.var 0) (.var 1))
          (.fpadd (.var 9) (.var 1) (.var 0))).bind (fun x =>
            @Pre20.EGraph.passes expr.code_order n x.2.2) = some g ∧
        g.nodes.size = 5 + 2 * n) ∧
      (@Pre20.interned expr.code_order 32 (.fpmul (.var 9) (.var 0) (.var 1))
          (.fpmul (.var 9) (.var 1) (.var 0))).map (fun x => (x.1, x.2.1)) = some (2, 4) ∧
      (∀ fuel, @Pre20.float_refined expr.code_order 32 fuel
        (.fpmul (.var 9) (.var 0) (.var 1)) (.fpmul (.var 9) (.var 1) (.var 0)) = none) ∧
      (∀ n, ∃ g : Pre20.EGraph,
        (@Pre20.interned expr.code_order 32 (.fpmul (.var 9) (.var 0) (.var 1))
          (.fpmul (.var 9) (.var 1) (.var 0))).bind (fun x =>
            @Pre20.EGraph.passes expr.code_order n x.2.2) = some g ∧
        g.nodes.size = 5 + 2 * n) := by
  have hadd := @Pre20.float_refined_loops expr.code_order 32
    (.fpadd (.var 9) (.var 0) (.var 1)) (.fpadd (.var 9) (.var 1) (.var 0)) 2 4
    3 (some 3) (some 2) ⟨.Leaf, 0, 0, .var 1, .null, 0⟩ 0 [0, 1, 2, 3, 4]
    [⟨true, some 1, none, none⟩, ⟨false, some 0, some 4, some 1⟩, ⟨false, some 3, none, none⟩]
    [(⟨.Leaf, 0, 0, .var 0, .null, 0⟩, 1), (⟨.Add, 1, 0, .null, .var 9, 0⟩, 2),
      (⟨.Leaf, 0, 0, .var 0, .null, 0⟩, 3)]
    [(⟨.Leaf, 0, 0, .var 0, .null, 0⟩, 3), (⟨.Add, 1, 0, .null, .var 9, 0⟩, 2)]
    [(⟨.Leaf, 0, 0, .var 1, .null, 0⟩, 0)]
    (fun k => k = ⟨.Add, 0, 1, .null, .var 9, 0⟩ ∨ k = ⟨.Add, 0, 3, .null, .var 9, 0⟩ ∨
      k = ⟨.Add, 3, 0, .null, .var 9, 0⟩)
    (@Pre20.EGraph.LoopShape.of_tree expr.code_order 1 2 _ _ _ _ _ _ _ _ _ _ _ _
      ⟨false, some 0, some 4, some 1⟩ ⟨false, some 3, none, none⟩
      (by decide) rfl rfl rfl rfl rfl rfl rfl rfl rfl rfl (by decide)
      (by
        intro k hk
        rcases hk with rfl | rfl | rfl <;> decide)
      (by
        intro e he
        simp only [List.mem_cons, List.mem_singleton, List.not_mem_nil, or_false] at he
        rcases he with rfl | rfl
        · intro h; simp at h
        · intro _; exact ⟨Or.inl rfl, rfl⟩))
    4 rfl [] [] ⟨.Add, 0, 3, .null, .var 9, 0⟩ rfl (Or.inl rfl) (Or.inr (Or.inl rfl))
    (Or.inr (Or.inr rfl)) (by decide) (by decide)
  have hmul := @Pre20.float_refined_loops expr.code_order 32
    (.fpmul (.var 9) (.var 0) (.var 1)) (.fpmul (.var 9) (.var 1) (.var 0)) 2 4
    3 (some 3) (some 2) ⟨.Leaf, 0, 0, .var 1, .null, 0⟩ 0 [0, 1, 2, 3, 4]
    [⟨true, some 1, none, none⟩, ⟨false, some 0, some 4, some 1⟩, ⟨false, some 3, none, none⟩]
    [(⟨.Leaf, 0, 0, .var 0, .null, 0⟩, 1), (⟨.Mul, 1, 0, .null, .var 9, 0⟩, 2),
      (⟨.Leaf, 0, 0, .var 0, .null, 0⟩, 3)]
    [(⟨.Leaf, 0, 0, .var 0, .null, 0⟩, 3), (⟨.Mul, 1, 0, .null, .var 9, 0⟩, 2)]
    [(⟨.Leaf, 0, 0, .var 1, .null, 0⟩, 0)]
    (fun k => k = ⟨.Mul, 0, 1, .null, .var 9, 0⟩ ∨ k = ⟨.Mul, 0, 3, .null, .var 9, 0⟩ ∨
      k = ⟨.Mul, 3, 0, .null, .var 9, 0⟩)
    (@Pre20.EGraph.LoopShape.of_tree expr.code_order 1 2 _ _ _ _ _ _ _ _ _ _ _ _
      ⟨false, some 0, some 4, some 1⟩ ⟨false, some 3, none, none⟩
      (by decide) rfl rfl rfl rfl rfl rfl rfl rfl rfl rfl (by decide)
      (by
        intro k hk
        rcases hk with rfl | rfl | rfl <;> decide)
      (by
        intro e he
        simp only [List.mem_cons, List.mem_singleton, List.not_mem_nil, or_false] at he
        rcases he with rfl | rfl
        · intro h; simp at h
        · intro _; exact ⟨Or.inl rfl, rfl⟩))
    4 rfl [] [] ⟨.Mul, 0, 3, .null, .var 9, 0⟩ rfl (Or.inr rfl) (Or.inr (Or.inl rfl))
    (Or.inr (Or.inr rfl)) (by decide) (by decide)
  refine ⟨?_, by decide, hadd.1, ?_, by decide, hmul.1, ?_⟩
  · exact (@Pre20.float_refined_spins expr.code_order 32 _ _ 1 2
      ⟨.Leaf, 0, 0, .var 0, .null, 0⟩ ⟨.Add, 0, 0, .null, .var 9, 0⟩ 0 2 (some 2) [0, 1, 2]
      [⟨true, some 1, none, none⟩] [(⟨.Add, 0, 0, .null, .var 9, 0⟩, 1)]
      (by decide) (by decide) (by decide) rfl (Or.inl rfl) rfl (by decide) (by decide)
      (by decide) rfl).1
  · intro n
    obtain ⟨g, hg, hs⟩ := hadd.2 n
    refine ⟨g, hg, ?_⟩
    rw [hs]
    simp [Pre20.EGraph.count_commutative]
    omega
  · intro n
    obtain ⟨g, hg, hs⟩ := hmul.2 n
    refine ⟨g, hg, ?_⟩
    rw [hs]
    simp [Pre20.EGraph.count_commutative]
    omega

set_option maxRecDepth 100000 in
/-- C19, evaluation. In the build before C++20, with the expressions ordered by their
code, `float_refined(x0, x0 + x0)` does not terminate: the two expressions are interned
under the ids 0 and 1 in a map of 2 entries, every pass of the loop of `saturate` has a
result and adds one entry (after `n` passes the map has `2 + n` entries), so the exit
test `nodes.size() == nodes_copy.size()` never holds, and the call returns for no
number of passes. -/
theorem C19_saturate_never_returns :
    (@Pre20.interned expr.code_order 32 (.var 0)
        (.fpadd (.var 9) (.var 0) (.var 0))).map (fun x => (x.1, x.2.1, x.2.2.nodes.size)) =
        some (0, 1, 2) ∧
      (∀ fuel, @Pre20.float_refined expr.code_order 32 fuel (.var 0)
        (.fpadd (.var 9) (.var 0) (.var 0)) = none) ∧
      ∀ n, ∃ g : Pre20.EGraph,
        (@Pre20.interned expr.code_order 32 (.var 0)
          (.fpadd (.var 9) (.var 0) (.var 0))).bind (fun x =>
            @Pre20.EGraph.passes expr.code_order n x.2.2) = some g ∧
        g.nodes.size = 2 + n := by
  have h := @Pre20.float_refined_spins expr.code_order 32 (.var 0)
    (.fpadd (.var 9) (.var 0) (.var 0)) 0 1
    ⟨.Leaf, 0, 0, .var 0, .null, 0⟩ ⟨.Add, 0, 0, .null, .var 9, 0⟩ 0 1 (some 2) [0, 1]
    [] [] (by decide) (by decide) (by decide) rfl (Or.inl rfl) rfl (by decide) (by decide)
    (by decide) rfl
  refine ⟨by decide, h.1, ?_⟩
  intro n
  obtain ⟨g, hg, hs⟩ := h.2 n
  exact ⟨g, hg, by rw [hs]; simp⟩

set_option maxRecDepth 100000 in
/-- C20, evaluation. In the build before C++20, with the expressions ordered by their
code, in `float_refined(x1 + x0, x2)`: the two expressions are interned under the ids
2 and 3, and before the call of `saturate` the node map finds the leaf `x1` under its
id 1 (`get(x1)` returns 1 and adds no entry). `saturate` inserts the swapped node
`Add(0, 1)` in its first pass, returns after its second pass, and `float_refined`
returns false. After the call the leaf `x1` is still an entry of the map, with the id
1, but the map does not find it any more: `get(x1)` returns the fresh id 4 and adds a
sixth entry. In `float_refined(x2, (x0 + x2) / x1)` the node `Add(2, 0)` of `x0 + x2`
has the id 3, an operand of the node `Div(3, 1)`, and is one of the five nodes the map
holds, but it is not reachable from the root of the tree and an iteration of the map
does not visit it: `saturate` returns after its first pass without an entry for the
swapped node `Add(0, 2)`. -/
theorem C20_saturate_loses_entry_eval :
    (@Pre20.interned expr.code_order 32 (.fpadd (.var 9) (.var 1) (.var 0)) (.var 2)).map
        (fun x => (x.1, x.2.1, x.2.2.nodes.entries)) =
        some (2, 3, some [(⟨.Leaf, 0, 0, .var 0, .null, 0⟩, 0),
          (⟨.Add, 1, 0, .null, .var 9, 0⟩, 2), (⟨.Leaf, 0, 0, .var 1, .null, 0⟩, 1),
          (⟨.Leaf, 0, 0, .var 2, .null, 0⟩, 3)]) ∧
      (@Pre20.interned expr.code_order 32 (.fpadd (.var 9) (.var 1) (.var 0)) (.var 2)).bind
        (fun x => (@Pre20.EGraph.get expr.code_order 32 x.2.2 (.var 1)).map
          (fun y => (y.1, y.2.nodes.size))) = some (1, 4) ∧
      (@Pre20.interned expr.code_order 32 (.fpadd (.var 9) (.var 1) (.var 0)) (.var 2)).bind
        (fun x => (@Pre20.EGraph.saturate expr.code_order 2 x.2.2).map
          (fun g => (g.uf.id, g.nodes.entries))) =
        some ([0, 1, 2, 3], some [(⟨.Leaf, 0, 0, .var 0, .null, 0⟩, 0),
          (⟨.Add, 1, 0, .null, .var 9, 0⟩, 2), (⟨.Leaf, 0, 0, .var 1, .null, 0⟩, 1),
          (⟨.Add, 0, 1, .null, .var 9, 0⟩, 2), (⟨.Leaf, 0, 0, .var 2, .null, 0⟩, 3)]) ∧
      (@Pre20.interned expr.code_order 32 (.fpadd (.var 9) (.var 1) (.var 0)) (.var 2)).bind
        (fun x => (@Pre20.EGraph.saturate expr.code_order 2 x.2.2).bind
          (fun g => (@Pre20.EGraph.get expr.code_order 32 g (.var 1)).map
            (fun y => (y.1, y.2.nodes.size)))) = some (4, 6) ∧
      (∀ fuel, @Pre20.float_refined expr.code_order 32 (fuel + 2)
        (.fpadd (.var 9) (.var 1) (.var 0)) (.var 2) = some false) ∧
      (@Pre20.interned expr.code_order 32 (.var 2)
          (.fpdiv (.var 9) (.fpadd (.var 9) (.var 0) (.var 2)) (.var 1))).bind
        (fun x => (@Pre20.EGraph.saturate expr.code_order 1 x.2.2).map
          (fun g => (g.uf.id, g.nodes.vals, g.nodes.entries))) =
        some ([0, 1, 2, 3, 4], [(⟨.Leaf, 0, 0, .var 2, .null, 0⟩, 0),
          (⟨.Leaf, 0, 0, .var 1, .null, 0⟩, 1), (⟨.Leaf, 0, 0, .var 0, .null, 0⟩, 2),
          (⟨.Add, 2, 0, .null, .var 9, 0⟩, 3), (⟨.Div, 3, 1, .null, .var 9, 0⟩, 4)],
          some [(⟨.Leaf, 0, 0, .var 0, .null, 0⟩, 2), (⟨.Leaf, 0, 0, .var 1, .null, 0⟩, 1),
            (⟨.Div, 3, 1, .null, .var 9, 0⟩, 4), (⟨.Leaf, 0, 0, .var 2, .null, 0⟩, 0)]) := by
  refine ⟨by decide, by decide, by decide, by decide, ?_, by decide⟩
  intro fuel
  have h := @Pre20.float_refined_fuel_mono expr.code_order 32 2
    (.fpadd (.var 9) (.var 1) (.var 0)) (.var 2) false (by decide) fuel
  rwa [Nat.add_comm] at h

set_option maxRecDepth 100000 in
/-- C21, evaluation. In the build before C++20, with the expressions ordered by their
code: `get(x1 + x0)` on a fresh e-graph builds three entries, which an iteration of the
map visits, the leaf `x0` with the id 0 among them, and merges nothing; inserting the
leaf `x0` again returns the id 3 and adds a fourth entry. The two calls of `get` for
`x0 - x1` return the ids 2 and 4. -/
theorem C21_interning_misses_eval :
    (@Pre20.EGraph.get expr.code_order 32 Pre20.EGraph.empty
        (.fpadd (.var 9) (.var 1) (.var 0))).bind (fun x => x.2.nodes.entries) =
        some [(⟨.Leaf, 0, 0, .var 0, .null, 0⟩, 0), (⟨.Add, 1, 0, .null, .var 9, 0⟩, 2),
          (⟨.Leaf, 0, 0, .var 1, .null, 0⟩, 1)] ∧
      (@Pre20.EGraph.get expr.code_order 32 Pre20.EGraph.empty
        (.fpadd (.var 9) (.var 1) (.var 0))).map (fun x => (x.1, x.2.uf.id, x.2.nodes.size)) =
        some (2, [0, 1, 2], 3) ∧
      (@Pre20.EGraph.get expr.code_order 32 Pre20.EGraph.empty
        (.fpadd (.var 9) (.var 1) (.var 0))).bind (fun x =>
          (@Pre20.EGraph.get expr.code_order 32 x.2 (.var 0)).map
            (fun y => (y.1, y.2.nodes.size))) = some (3, 4) ∧
      (@Pre20.interned expr.code_order 32 (.fpsub (.var 9) (.var 0) (.var 1))
        (.fpsub (.var 9) (.var 0) (.var 1))).map (fun x => (x.1, x.2.1)) = some (2, 4) := by
  decide

set_option maxRecDepth 100000 in
/-- C25, evaluation. In the build before C++20, with the expressions ordered by their
code, for the leaves `x0`, `x1`, `x2`: the expressions `(x0 + x1) * x2` and
`(x1 + x0) * x2` are interned under the ids 4 and 6 in a map of 7 entries, every pass of
`saturate` has a result and adds one entry (the swapped node of the `Mul` node inserted
last, which the map does not find again; the two `Add` nodes are no longer reachable
from the root and are never merged), and `float_refined` returns for no number of
passes, false or anything else. -/
theorem C25_commuted_operand_eval :
    (@Pre20.interned expr.code_order 32
        (.fpmul (.var 9) (.fpadd (.var 9) (.var 0) (.var 1)) (.var 2))
        (.fpmul (.var 9) (.fpadd (.var 9) (.var 1) (.var 0)) (.var 2))).map
          (fun x => (x.1, x.2.1)) = some (4, 6) ∧
      (∀ fuel, @Pre20.float_refined expr.code_order 32 fuel
        (.fpmul (.var 9) (.fpadd (.var 9) (.var 0) (.var 1)) (.var 2))
        (.fpmul (.var 9) (.fpadd (.var 9) (.var 1) (.var 0)) (.var 2)) = none) ∧
      (∀ n, ∃ g : Pre20.EGraph,
        (@Pre20.interned expr.code_order 32
          (.fpmul (.var 9) (.fpadd (.var 9) (.var 0) (.var 1)) (.var 2))
          (.fpmul (.var 9) (.fpadd (.var 9) (.var 1) (.var 0)) (.var 2))).bind (fun x =>
            @Pre20.EGraph.passes expr.code_order n x.2.2) = some g ∧
        g.nodes.size = 7 + n) := by
  have h := @Pre20.float_refined_loops expr.code_order 32
    (.fpmul (.var 9) (.fpadd (.var 9) (.var 0) (.var 1)) (.var 2))
    (.fpmul (.var 9) (.fpadd (.var 9) (.var 1) (.var 0)) (.var 2)) 4 6
    2 (some 2) (some 3) ⟨.Leaf, 0, 0, .var 2, .null, 0⟩ 0 [0, 1, 2, 3, 4, 5, 6]
    [⟨false, some 0, some 3, some 1⟩, ⟨false, some 2, none, none⟩]
    [(⟨.Leaf, 0, 0, .var 1, .null, 0⟩, 1), (⟨.Leaf, 0, 0, .var 0, .null, 0⟩, 2)]
    [(⟨.Leaf, 0, 0, .var 0, .null, 0⟩, 2), (⟨.Leaf, 0, 0, .var 1, .null, 0⟩, 1)]
    [(⟨.Leaf, 0, 0, .var 2, .null, 0⟩, 0)]
    (fun k => k = ⟨.Mul, 5, 0, .null, .var 9, 0⟩ ∨ k = ⟨.Mul, 0, 5, .null, .var 9, 0⟩)
    (@Pre20.EGraph.LoopShape.of_tree expr.code_order 0 1 _ _ _ _ _ _ _ _ _ _ _ _
      ⟨false, some 0, some 3, some 1⟩ ⟨false, some 2, none, none⟩
      (by decide) rfl rfl rfl rfl rfl rfl rfl rfl rfl rfl (by decide)
      (by
        intro k hk
        rcases hk with rfl | rfl <;> decide)
      (by
        intro e he
        simp only [List.mem_cons, List.mem_singleton, List.not_mem_nil, or_false] at he
        rcases he with rfl | rfl <;> intro h <;> simp at h))
    6 rfl [⟨true, some 1, none, none⟩, ⟨true, some 1, none, none⟩, ⟨true, some 1, none, none⟩]
    [(⟨.Add, 2, 1, .null, .var 9, 0⟩, 3), (⟨.Mul, 3, 0, .null, .var 9, 0⟩, 4),
      (⟨.Add, 1, 2, .null, .var 9, 0⟩, 5)]
    ⟨.Mul, 5, 0, .null, .var 9, 0⟩ rfl (Or.inr rfl) (Or.inl rfl) (Or.inr rfl)
    (by decide) (by decide)
  refine ⟨by decide, h.1, ?_⟩
  intro n
  obtain ⟨g, hg, hs⟩ := h.2 n
  refine ⟨g, hg, ?_⟩
  rw [hs]
  simp [Pre20.EGraph.count_commutative]

set_option maxRecDepth 100000 in
/-- C27, evaluation. In the build before C++20, with the expressions ordered by their
code: `float_refined(x0 + x0, -x0)` returns false after the first pass of `saturate`,
while `float_refined(-x0, x0 + x0)` returns for no number of passes: every pass has a
result and adds one entry to the map of 3 entries. -/
theorem C27_not_symmetric_eval :
    (∀ fuel, @Pre20.float_refined expr.code_order 32 (fuel + 1)
        (.fpadd (.var 9) (.var 0) (.var 0)) (.fpneg (.var 0)) = some false) ∧
      (∀ fuel, @Pre20.float_refined expr.code_order 32 fuel
        (.fpneg (.var 0)) (.fpadd (.var 9) (.var 0) (.var 0)) = none) ∧
      (∀ n, ∃ g : Pre20.EGraph,
        (@Pre20.interned expr.code_order 32 (.fpneg (.var 0))
          (.fpadd (.var 9) (.var 0) (.var 0))).bind (fun x =>
            @Pre20.EGraph.passes expr.code_order n x.2.2) = some g ∧
        g.nodes.size = 3 + n) := by
  have h := @Pre20.float_refined_spins expr.code_order 32 (.fpneg (.var 0))
    (.fpadd (.var 9) (.var 0) (.var 0)) 1 2
    ⟨.Leaf, 0, 0, .var 0, .null, 0⟩ ⟨.Add, 0, 0, .null, .var 9, 0⟩ 0 2 (some 2) [0, 1, 2]
    [⟨true, some 1, none, none⟩] [(⟨.Neg, 0, 0, .null, .null, 0⟩, 1)]
    (by decide) (by decide) (by decide) rfl (Or.inl rfl) rfl (by decide) (by decide)
    (by decide) rfl
  refine ⟨?_, h.1, ?_⟩
  · intro fuel
    have h1 := @Pre20.float_refined_fuel_mono expr.code_order 32 1
      (.fpadd (.var 9) (.var 0) (.var 0)) (.fpneg (.var 0)) false (by decide) fuel
    rwa [Nat.add_comm] at h1
  · intro n
    obtain ⟨g, hg, hs⟩ := h.2 n
    exact ⟨g, hg, by rw [hs]; simp⟩

/-- C17. For any two distinct leaf expressions `a` and `b` (neither is a floating add,
sub, mul, div or neg, nor an application of the `reassoc` marker), `float_refined(a, b)`
returns false: the two leaves are interned under the ids 0 and 1, the first pass of
`saturate` changes nothing and returns, and the two ids are distinct roots. This holds
for the node map ordered by the three-way comparison and for the node map as compiled
before C++20: on two `Leaf` nodes both comparisons are the order of the leaves. -/
theorem C17_distinct_leaves_not_refined [LinearOrder expr] (Reassoc fuel : Nat) (a b : expr)
    (ha : a.is_leaf = true) (hb : b.is_leaf = true) (hab : a ≠ b) :
    float_refined Reassoc (fuel + 1) a b = some false ∧
      Pre20.float_refined Reassoc (fuel + 1) a b = some false :=
  ⟨float_refined_leaves Reassoc fuel a b ha hb hab,
    Pre20.float_refined_two_leaves Reassoc fuel a b ha hb hab⟩

/-- C17, witness: the leaves `var 0` and `var 1`. -/
theorem C17_distinct_leaves_not_refined_witness :
    (expr.var 0).is_leaf = true ∧ (expr.var 1).is_leaf = true ∧ expr.var 0 ≠ expr.var 1 ∧
      @float_refined expr.code_order 32 1 (expr.var 0) (expr.var 1) = some false ∧
      @Pre20.float_refined expr.code_order 32 1 (expr.var 0) (expr.var 1) = some false :=
  ⟨rfl, rfl, by decide,
    @C17_distinct_leaves_not_refined expr.code_order 32 0 (expr.var 0) (expr.var 1) rfl rfl
      (by decide)⟩

end Alive
